import Mathlib

/-!
Verification of the phoneme-alignment core of the QuranCaption aligner.

The definitions below are shallow embeddings of the Python sources under
`src/src-tauri/python/quran-multi-aligner/src/` (alignment/phoneme_asr.py,
alignment/special_segments.py, alignment/phoneme_matcher.py,
alignment/phoneme_anchor.py, alignment/alignment_pipeline.py).  Floating
point numbers are modelled by `ℚ`, Python's `float("inf")` by `⊤` in
`WithTop ℚ`, Python lists by `List`, and Python dicts by insertion-ordered
association lists.  The theorems check the specification claims against
these embeddings.
-/

set_option autoImplicit false

namespace QuranAlign

/-! ### CTC greedy decoding (`phoneme_asr.ids_to_phoneme_list`) -/

/-- Inner loop of `ids_to_phoneme_list`: CTC collapse over the raw token
list; `prev` is the last raw token seen (`none` initially).  Pad tokens and
the word delimiter are skipped (updating `prev`), and a token equal to the
previous raw token is skipped. -/
def ctcCollapse (padTok : String) : Option String → List String → List String
  | _, [] => []
  | prev, t :: rest =>
    if t = padTok then ctcCollapse padTok (some t) rest
    else if t = "|" then ctcCollapse padTok (some t) rest
    else if some t = prev then ctcCollapse padTok prev rest
    else t :: ctcCollapse padTok (some t) rest

/-- `ids_to_phoneme_list`: convert token ids to a phoneme list with CTC
collapse.  The tokenizer is abstracted as a map from ids to token
strings; `padTok` is the token string of `pad_id`. -/
def ids_to_phoneme_list (convertIdsToTokens : ℕ → String) (ids : List ℕ)
    (padId : ℕ) : List String :=
  ctcCollapse (convertIdsToTokens padId) none (ids.map convertIdsToTokens)

/-- Spec-side operation (a): collapse runs of consecutive equal tokens. -/
def collapseDuplicates : List String → List String
  | [] => []
  | [x] => [x]
  | x :: y :: rest =>
    if x = y then collapseDuplicates (y :: rest)
    else x :: collapseDuplicates (y :: rest)

/-- Spec-side CTC decoding: collapse consecutive duplicates, then remove
the blank/pad token, then remove the word delimiter. -/
def ctcSpecDecode (padTok : String) (toks : List String) : List String :=
  (collapseDuplicates toks).filter (fun t => !(t == padTok || t == "|"))

theorem collapseDuplicates_cons (l : List String) :
    ∀ x : String, ∃ l', collapseDuplicates (x :: l) = x :: l' := by
  induction l with
  | nil => intro x; exact ⟨[], rfl⟩
  | cons y rest ih =>
    intro x
    obtain ⟨l', hl'⟩ := ih y
    by_cases h : x = y
    · subst h
      exact ⟨l', by simpa [collapseDuplicates] using hl'⟩
    · exact ⟨collapseDuplicates (y :: rest), by simp [collapseDuplicates, h]⟩

theorem ctcCollapse_some (padTok : String) (toks : List String) :
    ∀ p : String,
      ctcCollapse padTok (some p) toks
        = (collapseDuplicates (p :: toks)).tail.filter
            (fun t => !(t == padTok || t == "|")) := by
  induction toks with
  | nil => intro p; simp [ctcCollapse, collapseDuplicates]
  | cons t rest ih =>
    intro p
    by_cases hp : p = t
    · subst hp
      by_cases hpad : p = padTok
      · simp [ctcCollapse, hpad, collapseDuplicates, ih]
      · by_cases hbar : p = "|"
        · simp [ctcCollapse, hbar, hpad, collapseDuplicates, ih]
        · simp [ctcCollapse, hpad, hbar, collapseDuplicates, ih]
    · obtain ⟨l', hl'⟩ := collapseDuplicates_cons rest t
      by_cases hpad : t = padTok
      · subst hpad
        simp [ctcCollapse, collapseDuplicates, hp, ih, hl', List.filter]
      · by_cases hbar : t = "|"
        · subst hbar
          simp [ctcCollapse, hpad, collapseDuplicates, hp, ih, hl', List.filter]
        · have : (some t = some p) = False := by
            simp [Option.some_inj]; exact fun h => hp h.symm
          simp [ctcCollapse, hpad, hbar, Ne.symm hp, collapseDuplicates, hp, ih, hl',
            List.filter, hpad, hbar]

/-- **C5.** `ids_to_phoneme_list` returns exactly the phoneme sequence
obtained from the raw token sequence by (a) collapsing consecutive
duplicate tokens, (b) removing the blank/pad token, and (c) removing the
word delimiter token `"|"`. -/
theorem C5_ctc_decode (convertIdsToTokens : ℕ → String) (ids : List ℕ) (padId : ℕ) :
    ids_to_phoneme_list convertIdsToTokens ids padId
      = ctcSpecDecode (convertIdsToTokens padId) (ids.map convertIdsToTokens) := by
  unfold ids_to_phoneme_list ctcSpecDecode
  generalize (ids.map convertIdsToTokens) = toks
  generalize (convertIdsToTokens padId) = padTok
  cases toks with
  | nil => simp [ctcCollapse, collapseDuplicates]
  | cons t rest =>
    obtain ⟨l', hl'⟩ := collapseDuplicates_cons rest t
    by_cases hpad : t = padTok
    · subst hpad
      simp [ctcCollapse, ctcCollapse_some, hl', List.filter]
    · by_cases hbar : t = "|"
      · subst hbar
        simp [ctcCollapse, hpad, ctcCollapse_some, hl', List.filter]
      · simp [ctcCollapse, hpad, hbar, ctcCollapse_some, hl', List.filter]

/-! ### Levenshtein distance (`special_segments.levenshtein_distance`) -/

/-- Inner column loop of `levenshtein_distance`.  Walking along row `i`,
`pj1` is `prev[j-1]`, `left` is `curr[j-1]`, `prest` starts at `prev[j]`.
On a match the new cell is `prev[j-1]`, otherwise
`1 + min(prev[j], curr[j-1], prev[j-1])`. -/
def levRowGo (x : String) : ℕ → ℕ → List ℕ → List String → List ℕ
  | _, _, _, [] => []
  | _, _, [], _ => []
  | pj1, left, pj :: prest, y :: ys =>
    let c := if x = y then pj1 else 1 + min pj (min left pj1)
    c :: levRowGo x pj c prest ys

/-- `levenshtein_distance` from `special_segments.py`: classic two-row DP
with the equal-symbol shortcut.  Returns `prev[n]` after the last row. -/
def levenshtein_distance (seq1 seq2 : List String) : ℕ :=
  if seq1 = [] then seq2.length
  else if seq2 = [] then seq1.length
  else
    let final := seq1.enum.foldl
      (fun prev ix =>
        (ix.1 + 1) :: levRowGo ix.2 (prev.headD 0) (ix.1 + 1) prev.tail seq2)
      (List.range (seq2.length + 1))
    final.getLastD 0

/-- `phoneme_edit_distance`: normalised edit distance, `1.0` if either
sequence is empty. -/
def phoneme_edit_distance (asr_phonemes ref_phonemes : List String) : ℚ :=
  if asr_phonemes = [] ∨ ref_phonemes = [] then 1
  else (levenshtein_distance asr_phonemes ref_phonemes : ℚ)
    / (max asr_phonemes.length ref_phonemes.length : ℚ)

/-! ### Special segment detection (`special_segments.py`) -/

/-- `MAX_SPECIAL_EDIT_DISTANCE = 0.35` from `config.py`. -/
def MAX_SPECIAL_EDIT_DISTANCE : ℚ := 7/20

/-- `SPECIAL_PHONEMES["Isti'adha"]`. -/
def istiadhaPhonemes : List String :=
  ["ʔ", "a", "ʕ", "u:", "ð", "u", "b", "i", "ll", "a:", "h", "i",
   "m", "i", "n", "a", "ʃʃ", "a", "j", "tˤ", "aˤ:", "n", "i",
   "rˤrˤ", "aˤ", "ʒ", "i:", "m"]

/-- `SPECIAL_PHONEMES["Basmala"]`. -/
def basmalaPhonemes : List String :=
  ["b", "i", "s", "m", "i", "ll", "a:", "h", "i", "rˤrˤ", "aˤ",
   "ħ", "m", "a:", "n", "i", "rˤrˤ", "aˤ", "ħ", "i:", "m"]

/-- `COMBINED_PHONEMES = Isti'adha ++ Basmala`. -/
def combinedPhonemes : List String := istiadhaPhonemes ++ basmalaPhonemes

/-- `SPECIAL_TEXT["Isti'adha"]`. -/
def istiadhaText : String := "أَعُوذُ بِٱللَّهِ مِنَ الشَّيْطَانِ الرَّجِيم"

/-- `SPECIAL_TEXT["Basmala"]`. -/
def basmalaText : String := "بِسْمِ ٱللَّهِ ٱلرَّحْمَٰنِ ٱلرَّحِيم"

/-- `VadSegment` from `core/segment_types.py` (times in seconds). -/
structure VadSegment where
  start_time : ℚ
  end_time : ℚ
  segment_idx : ℕ
deriving DecidableEq, Repr

/-- `detect_special_segments` from `special_segments.py`.  Audio arrays
are modelled as lists of samples. -/
def detect_special_segments (phoneme_texts : List (List String))
    (vad_segments : List VadSegment) (segment_audios : List (List ℚ)) :
    List VadSegment × List (List ℚ) × List (String × ℚ × String) × ℕ :=
  if phoneme_texts = [] ∨ vad_segments = [] ∨ segment_audios = [] then
    (vad_segments, segment_audios, [], 0)
  else
    let seg0_phonemes := phoneme_texts.headD []
    let combined_dist := phoneme_edit_distance seg0_phonemes combinedPhonemes
    if combined_dist ≤ MAX_SPECIAL_EDIT_DISTANCE then
      let seg := vad_segments.headD ⟨0, 0, 0⟩
      let audio := segment_audios.headD []
      let mid_time := (seg.start_time + seg.end_time) / 2
      let mid_sample := max 1 (audio.length / 2)
      let new_vads : List VadSegment :=
        [⟨seg.start_time, mid_time, 0⟩, ⟨mid_time, seg.end_time, 1⟩]
          ++ (vad_segments.drop 1).enum.map
              (fun kvs => ⟨kvs.2.start_time, kvs.2.end_time, kvs.1 + 2⟩)
      let new_audios := [audio.take mid_sample, audio.drop mid_sample]
          ++ segment_audios.drop 1
      let confidence := 1 - combined_dist
      (new_vads, new_audios,
        [(istiadhaText, confidence, "Isti\x27adha"),
         (basmalaText, confidence, "Basmala")], 2)
    else
      let istiadha_dist := phoneme_edit_distance seg0_phonemes istiadhaPhonemes
      if istiadha_dist ≤ MAX_SPECIAL_EDIT_DISTANCE then
        let first := [(istiadhaText, 1 - istiadha_dist, "Isti\x27adha")]
        if 2 ≤ phoneme_texts.length ∧ phoneme_texts.getD 1 [] ≠ [] then
          let seg1_phonemes := phoneme_texts.getD 1 []
          let basmala_dist := phoneme_edit_distance seg1_phonemes basmalaPhonemes
          if basmala_dist ≤ MAX_SPECIAL_EDIT_DISTANCE then
            (vad_segments, segment_audios,
              first ++ [(basmalaText, 1 - basmala_dist, "Basmala")], 2)
          else
            (vad_segments, segment_audios, first, 1)
        else
          (vad_segments, segment_audios, first, 1)
      else
        let basmala_dist := phoneme_edit_distance seg0_phonemes basmalaPhonemes
        if basmala_dist ≤ MAX_SPECIAL_EDIT_DISTANCE then
          (vad_segments, segment_audios,
            [(basmalaText, 1 - basmala_dist, "Basmala")], 1)
        else
          (vad_segments, segment_audios, [], 0)

/-- `detect_inter_chapter_specials` from `special_segments.py`. -/
def detect_inter_chapter_specials (phoneme_texts : List (List String)) :
    List (String × ℚ × String) × ℕ :=
  if phoneme_texts = [] ∨ phoneme_texts.headD [] = [] then ([], 0)
  else
    let seg0_phonemes := phoneme_texts.headD []
    let combined_dist := phoneme_edit_distance seg0_phonemes combinedPhonemes
    if combined_dist ≤ MAX_SPECIAL_EDIT_DISTANCE then
      ([(istiadhaText ++ " ۝ " ++ basmalaText, 1 - combined_dist,
         "Isti\x27adha+Basmala")], 1)
    else
      let istiadha_dist := phoneme_edit_distance seg0_phonemes istiadhaPhonemes
      if istiadha_dist ≤ MAX_SPECIAL_EDIT_DISTANCE then
        let first := [(istiadhaText, 1 - istiadha_dist, "Isti\x27adha")]
        if 2 ≤ phoneme_texts.length ∧ phoneme_texts.getD 1 [] ≠ [] then
          let basmala_dist :=
            phoneme_edit_distance (phoneme_texts.getD 1 []) basmalaPhonemes
          if basmala_dist ≤ MAX_SPECIAL_EDIT_DISTANCE then
            (first ++ [(basmalaText, 1 - basmala_dist, "Basmala")], 2)
          else (first, 1)
        else (first, 1)
      else
        let basmala_dist := phoneme_edit_distance seg0_phonemes basmalaPhonemes
        if basmala_dist ≤ MAX_SPECIAL_EDIT_DISTANCE then
          ([(basmalaText, 1 - basmala_dist, "Basmala")], 1)
        else ([], 0)

/-- **C7.** If the normalised edit distance between segment 0 and the
combined Isti'adha+Basmala sequence is at most `MAX_SPECIAL_EDIT_DISTANCE`,
`detect_special_segments` splits segment 0 into two halves of equal
duration at its midpoint (the audio by sample index), returns exactly two
special results, Isti'adha then Basmala, each with confidence `1 - dist`,
and returns `first_quran_idx = 2`. -/
theorem C7_combined_special_split (texts : List (List String))
    (vads : List VadSegment) (audios : List (List ℚ))
    (ht : texts ≠ []) (hv : vads ≠ []) (ha : audios ≠ [])
    (hd : phoneme_edit_distance (texts.headD []) combinedPhonemes
            ≤ MAX_SPECIAL_EDIT_DISTANCE) :
    (detect_special_segments texts vads audios).2.2.1
        = [(istiadhaText,
            1 - phoneme_edit_distance (texts.headD []) combinedPhonemes,
            "Isti\x27adha"),
           (basmalaText,
            1 - phoneme_edit_distance (texts.headD []) combinedPhonemes,
            "Basmala")]
      ∧ (detect_special_segments texts vads audios).2.2.2 = 2
      ∧ (detect_special_segments texts vads audios).1.take 2
          = [⟨(vads.headD ⟨0, 0, 0⟩).start_time,
              ((vads.headD ⟨0, 0, 0⟩).start_time
                + (vads.headD ⟨0, 0, 0⟩).end_time) / 2, 0⟩,
             ⟨((vads.headD ⟨0, 0, 0⟩).start_time
                + (vads.headD ⟨0, 0, 0⟩).end_time) / 2,
              (vads.headD ⟨0, 0, 0⟩).end_time, 1⟩]
      ∧ ((vads.headD ⟨0, 0, 0⟩).start_time
            + (vads.headD ⟨0, 0, 0⟩).end_time) / 2
            - (vads.headD ⟨0, 0, 0⟩).start_time
          = (vads.headD ⟨0, 0, 0⟩).end_time
            - ((vads.headD ⟨0, 0, 0⟩).start_time
                + (vads.headD ⟨0, 0, 0⟩).end_time) / 2
      ∧ (detect_special_segments texts vads audios).2.1.take 2
          = [(audios.headD []).take (max 1 ((audios.headD []).length / 2)),
             (audios.headD []).drop (max 1 ((audios.headD []).length / 2))]
      ∧ ((detect_special_segments texts vads audios).2.1.headD [])
            ++ ((detect_special_segments texts vads audios).2.1.tail.headD [])
          = audios.headD [] := by
  have hcond : ¬(texts = [] ∨ vads = [] ∨ audios = []) := by
    simp [ht, hv, ha]
  have hd' : phoneme_edit_distance (texts.head?.getD []) combinedPhonemes
      ≤ MAX_SPECIAL_EDIT_DISTANCE := by simpa using hd
  refine ⟨?_, ?_, ?_, by ring, ?_, ?_⟩ <;>
    simp [detect_special_segments, hcond, hd', List.take_append_drop]

/-- Witness for C7 at `texts = [combined]`, one VAD segment `[0, 2]`,
audio `[5, 7]`: the detector reports `first_quran_idx = 2` and the two
emitted half-audios concatenate back to the original audio. -/
theorem C7_combined_special_split_witness :
    (detect_special_segments [combinedPhonemes] [⟨0, 2, 0⟩] [[5, 7]]).2.2.2 = 2
    ∧ ((detect_special_segments [combinedPhonemes] [⟨0, 2, 0⟩] [[5, 7]]).2.1.headD [])
        ++ ((detect_special_segments [combinedPhonemes] [⟨0, 2, 0⟩]
              [[5, 7]]).2.1.tail.headD [])
      = ([[5, 7]] : List (List ℚ)).headD [] := by
  have h := C7_combined_special_split [combinedPhonemes] [⟨0, 2, 0⟩] [[5, 7]]
    (by simp) (by simp) (by simp)
    (by
      have h0 : levenshtein_distance combinedPhonemes combinedPhonemes = 0 := by decide
      have hne : combinedPhonemes ≠ [] := by decide
      have hlen : combinedPhonemes.length = 49 := by decide
      norm_num [phoneme_edit_distance, MAX_SPECIAL_EDIT_DISTANCE, h0, hlen, hne])
  exact ⟨h.2.1, h.2.2.2.2.2⟩

/-! ### ASR batching (`phoneme_asr.build_batches`, `transcribe_batch`) -/

/-- `MAX_BATCH_SECONDS = 600` from `config.py`. -/
def MAX_BATCH_SECONDS : ℚ := 600

/-- `MAX_PAD_WASTE = 0.2` from `config.py`. -/
def MAX_PAD_WASTE : ℚ := 1/5

/-- `MIN_BATCH_SIZE = 8` from `config.py`. -/
def MIN_BATCH_SIZE : ℕ := 8

/-- Loop body of `build_batches`; the state is
`(batches, current, current_seconds)`. -/
def buildBatchesStep (durations : List ℚ)
    (st : List (List ℕ) × List ℕ × ℚ) (i : ℕ) : List (List ℕ) × List ℕ × ℚ :=
  let dur := durations.getD i 0
  let batches := st.1
  let current := st.2.1
  let current_seconds := st.2.2
  if current = [] then (batches, [i], dur)
  else
    let max_dur := dur
    let new_seconds := current_seconds + dur
    let new_size := current.length + 1
    let pad_waste :=
      if 0 < max_dur then 1 - new_seconds / ((new_size : ℚ) * max_dur) else 0
    let seconds_exceeded := MAX_BATCH_SECONDS < new_seconds
    let waste_exceeded := MAX_PAD_WASTE < pad_waste
    if (seconds_exceeded ∨ waste_exceeded) ∧ MIN_BATCH_SIZE ≤ current.length then
      (batches ++ [current], [i], dur)
    else
      (batches, current ++ [i], new_seconds)

/-- `build_batches` from `phoneme_asr.py`: dynamic batches from
duration-sorted indices. -/
def build_batches (sorted_indices : List ℕ) (durations : List ℚ) :
    List (List ℕ) :=
  let st := sorted_indices.foldl (buildBatchesStep durations) ([], [], 0)
  if st.2.1 = [] then st.1 else st.1 ++ [st.2.1]

/-- Scatter phase of `_transcribe_batch_pytorch`: results start as `n`
empty lists and each batch element writes its decoding back through its
original index.  The acoustic model plus CTC decoding is abstracted as a
deterministic per-clip function `decode` (spec §6, `AsrBackend`). -/
def transcribeScatter (n : ℕ) (batches : List (List ℕ))
    (decode : ℕ → List String) : List (List String) :=
  batches.foldl
    (fun results batch => batch.foldl (fun res i => res.set i (decode i)) results)
    (List.replicate n [])

/-- `transcribe_batch` wiring from `phoneme_asr.py`: durations from clip
lengths at 16 kHz, stable ascending sort of the indices by duration,
dynamic batching, inference, scatter back to input order. -/
def transcribe_batch (segment_audios : List (List ℚ))
    (decode : ℕ → List String) : List (List String) :=
  let n := segment_audios.length
  let durations := segment_audios.map (fun audio => (audio.length : ℚ) / 16000)
  let sorted_indices := (List.range n).mergeSort
    (fun i j => decide (durations.getD i 0 ≤ durations.getD j 0))
  let batches := build_batches sorted_indices durations
  transcribeScatter n batches decode

theorem buildBatches_join_aux (durations : List ℚ) :
    ∀ (idxs : List ℕ) (batches : List (List ℕ)) (current : List ℕ) (cs : ℚ),
      (let st := idxs.foldl (buildBatchesStep durations) (batches, current, cs)
       st.1.flatten ++ st.2.1) = batches.flatten ++ current ++ idxs := by
  intro idxs
  induction idxs with
  | nil => intro batches current cs; simp
  | cons i rest ih =>
    intro batches current cs
    show (let st := rest.foldl (buildBatchesStep durations)
            (buildBatchesStep durations (batches, current, cs) i)
          st.1.flatten ++ st.2.1) = batches.flatten ++ current ++ (i :: rest)
    by_cases hcur : current = []
    · have : buildBatchesStep durations (batches, current, cs) i
          = (batches, [i], durations.getD i 0) := by
        simp [buildBatchesStep, hcur]
      rw [this, ih]
      simp [hcur]
    · simp only [buildBatchesStep, hcur, if_false]
      by_cases hsplit : (MAX_BATCH_SECONDS < cs + durations.getD i 0
            ∨ MAX_PAD_WASTE < (if 0 < durations.getD i 0 then
                1 - (cs + durations.getD i 0)
                  / (((current.length + 1 : ℕ) : ℚ) * durations.getD i 0) else 0))
          ∧ MIN_BATCH_SIZE ≤ current.length
      · rw [if_pos hsplit, ih]
        simp
      · rw [if_neg hsplit, ih]
        simp

/-- `build_batches` partitions its input index list: the concatenation of
the produced batches is exactly `sorted_indices`. -/
theorem buildBatches_join (sorted_indices : List ℕ) (durations : List ℚ) :
    (build_batches sorted_indices durations).flatten = sorted_indices := by
  have h := buildBatches_join_aux durations sorted_indices [] [] 0
  simp only [List.flatten_nil, List.nil_append] at h
  unfold build_batches
  by_cases hlast :
      (sorted_indices.foldl (buildBatchesStep durations) ([], [], 0)).2.1 = []
  · simp only [hlast, if_pos]
    simpa [hlast] using h
  · simp only [hlast, if_neg, List.flatten_append]
    simpa using h

theorem scatter_length (decode : ℕ → List String) :
    ∀ (batches : List (List ℕ)) (res : List (List String)),
      (batches.foldl
        (fun results batch => batch.foldl (fun r i => r.set i (decode i)) results)
        res).length = res.length := by
  intro batches
  induction batches with
  | nil => intro res; rfl
  | cons batch rest ih =>
    intro res
    rw [List.foldl_cons, ih]
    induction batch generalizing res with
    | nil => rfl
    | cons j brest ihb => rw [List.foldl_cons, ihb]; simp

theorem scatter_get_inner (decode : ℕ → List String) :
    ∀ (batch : List ℕ) (res : List (List String)) (i : ℕ),
      i < res.length →
      (i ∈ batch ∨ res.getD i [] = decode i) →
      (batch.foldl (fun r k => r.set k (decode k)) res).getD i [] = decode i := by
  intro batch
  induction batch with
  | nil =>
    intro res i _ h
    rcases h with h | h
    · exact absurd h (List.not_mem_nil i)
    · exact h
  | cons j brest ih =>
    intro res i hi h
    rw [List.foldl_cons]
    by_cases hij : i = j
    · subst hij
      refine ih _ i (by simpa using hi) (Or.inr ?_)
      rw [List.getD_eq_getElem?_getD, List.getElem?_set_self (by simpa using hi)]
      rfl
    · rcases h with h | h
      · rcases List.mem_cons.mp h with h' | h'
        · exact absurd h'.symm (Ne.symm hij)
        · exact ih _ i (by simpa using hi) (Or.inl h')
      · refine ih _ i (by simpa using hi) (Or.inr ?_)
        rw [List.getD_eq_getElem?_getD, List.getElem?_set_ne (by omega)]
        rw [List.getD_eq_getElem?_getD] at h
        exact h

theorem scatter_get (decode : ℕ → List String) :
    ∀ (batches : List (List ℕ)) (res : List (List String)) (i : ℕ),
      i < res.length →
      (i ∈ batches.flatten ∨ res.getD i [] = decode i) →
      (batches.foldl
        (fun results batch => batch.foldl (fun r k => r.set k (decode k)) results)
        res).getD i [] = decode i := by
  intro batches
  induction batches with
  | nil =>
    intro res i hi h
    rcases h with h | h
    · simp at h
    · exact h
  | cons batch rest ih =>
    intro res i hi h
    rw [List.foldl_cons]
    have hlen : (batch.foldl (fun r k => r.set k (decode k)) res).length
        = res.length := by
      have := scatter_length decode [batch] res
      simpa using this
    refine ih _ i (by omega) ?_
    rcases h with h | h
    · rw [List.flatten_cons, List.mem_append] at h
      rcases h with h | h
      · exact Or.inr (scatter_get_inner decode batch res i hi (Or.inl h))
      · exact Or.inl h
    · exact Or.inr (scatter_get_inner decode batch res i hi (Or.inr h))

/-- **C6.** Batched ASR round trip: the dynamic batches built from the
duration-sorted indices form a partition of the input indices (their
concatenation is the sorted index list, a permutation of `range n`), the
output list has the same length as the input list, and the entry at each
index is the decoding of the clip at that same input index. -/
theorem C6_batching_round_trip (segment_audios : List (List ℚ))
    (decode : ℕ → List String) :
    (build_batches
        ((List.range segment_audios.length).mergeSort
          (fun i j => decide
            ((segment_audios.map (fun audio => (audio.length : ℚ) / 16000)).getD i 0
              ≤ (segment_audios.map (fun audio => (audio.length : ℚ) / 16000)).getD j 0)))
        (segment_audios.map (fun audio => (audio.length : ℚ) / 16000))).flatten
      = (List.range segment_audios.length).mergeSort
          (fun i j => decide
            ((segment_audios.map (fun audio => (audio.length : ℚ) / 16000)).getD i 0
              ≤ (segment_audios.map (fun audio => (audio.length : ℚ) / 16000)).getD j 0))
    ∧ ((List.range segment_audios.length).mergeSort
          (fun i j => decide
            ((segment_audios.map (fun audio => (audio.length : ℚ) / 16000)).getD i 0
              ≤ (segment_audios.map (fun audio => (audio.length : ℚ) / 16000)).getD j 0))).Perm
        (List.range segment_audios.length)
    ∧ (transcribe_batch segment_audios decode).length = segment_audios.length
    ∧ ∀ i, i < segment_audios.length →
        (transcribe_batch segment_audios decode).getD i [] = decode i := by
  refine ⟨buildBatches_join _ _, List.mergeSort_perm _ _, ?_, ?_⟩
  · unfold transcribe_batch transcribeScatter
    rw [scatter_length]
    simp
  · intro i hi
    unfold transcribe_batch transcribeScatter
    refine scatter_get decode _ _ i (by simpa using hi) (Or.inl ?_)
    rw [buildBatches_join]
    exact (List.mergeSort_perm _ _).mem_iff.mpr (List.mem_range.mpr hi)

/-- Witness for C6 at a concrete input: the second clip's decoding comes
back at index 1. -/
theorem C6_batching_round_trip_witness :
    (transcribe_batch [[1], [2, 3]] (fun i => [toString i])).getD 1 [] = ["1"] :=
  (C6_batching_round_trip [[1], [2, 3]] (fun i => [toString i])).2.2.2 1 (by decide)

/-! ### Global anchor (`phoneme_anchor.py`) -/

/-- `ANCHOR_RARITY_WEIGHTING = True` from `config.py`. -/
def ANCHOR_RARITY_WEIGHTING : Bool := true

/-- `ANCHOR_RUN_TRIM_RATIO = 0.2` from `config.py`. -/
def ANCHOR_RUN_TRIM : ℚ := 1/5

/-- `ANCHOR_TOP_CANDIDATES = 20` from `config.py`. -/
def ANCHOR_TOP_CANDIDATES : ℕ := 20

/-- `ANCHOR_SEGMENTS = 5` from `config.py`. -/
def ANCHOR_SEGMENTS : ℕ := 5

/-- Association-list lookup (Python dict read). -/
def lookupAssoc {α β : Type} [DecidableEq α] : List (α × β) → α → Option β
  | [], _ => none
  | (k', v) :: rest, k => if k' = k then some v else lookupAssoc rest k

/-- Python `d[k] += w` on a `defaultdict(float)`: insertion-ordered
association-list update; the first insertion fixes the key's position. -/
def bumpAssoc {α : Type} [DecidableEq α] : List (α × ℚ) → α → ℚ → List (α × ℚ)
  | [], k, w => [(k, w)]
  | (k', w') :: rest, k, w =>
    if k' = k then (k', w' + w) :: rest else (k', w') :: bumpAssoc rest k w

/-- `PhonemeNgramIndex` from `ngram_index.py`; the dicts are modelled as
insertion-ordered association lists (Python dicts preserve insertion
order, which the anchor's stable sorts observe). -/
structure PhonemeNgramIndex where
  ngram_positions : List (List String × List (ℕ × ℕ))
  ngram_counts : List (List String × ℕ)
  ngram_size : ℕ
  total_ngrams : ℕ

/-- The `while best_start < best_end and ayah_weights[best_start] < threshold`
loop of `_find_best_contiguous_run`; `fuel` bounds the iteration count by
`best_end - best_start`. -/
def trimLeftGo (w : ℕ → ℚ) (thr : ℚ) : ℕ → ℕ → ℕ → ℚ → ℕ × ℚ
  | 0, s, _, wt => (s, wt)
  | fuel + 1, s, e, wt =>
    if s < e ∧ w s < thr then trimLeftGo w thr fuel (s + 1) e (wt - w s)
    else (s, wt)

/-- The symmetric `while ... ayah_weights[best_end] < threshold` loop. -/
def trimRightGo (w : ℕ → ℚ) (thr : ℚ) : ℕ → ℕ → ℕ → ℚ → ℕ × ℚ
  | 0, _, e, wt => (e, wt)
  | fuel + 1, s, e, wt =>
    if s < e ∧ w e < thr then trimRightGo w thr fuel s (e - 1) (wt - w e)
    else (e, wt)

/-- `_find_best_contiguous_run` from `phoneme_anchor.py`. -/
def findBestContiguousRun (ayah_weights : List (ℕ × ℚ)) : ℕ × ℕ × ℚ :=
  if ayah_weights = [] then (0, 0, 0)
  else
    let w := fun a => (lookupAssoc ayah_weights a).getD 0
    let sorted_ayahs := (ayah_weights.map Prod.fst).mergeSort
      (fun a b => decide (a ≤ b))
    let first := sorted_ayahs.headD 0
    let st := sorted_ayahs.tail.foldl
      (fun (st : List (ℕ × ℕ × ℚ) × ℕ × ℕ × ℚ) ayah =>
        if ayah = st.2.2.1 + 1 then (st.1, st.2.1, ayah, st.2.2.2 + w ayah)
        else (st.1 ++ [(st.2.1, st.2.2.1, st.2.2.2)], ayah, ayah, w ayah))
      ([], first, first, w first)
    let runs := st.1 ++ [(st.2.1, st.2.2.1, st.2.2.2)]
    let best := runs.foldl
      (fun (b : ℕ × ℕ × ℚ) r => if b.2.2 < r.2.2 then r else b)
      (runs.headD (0, 0, 0))
    let max_w := ((List.range' best.1 (best.2.1 + 1 - best.1)).map w).foldl max 0
    let threshold := ANCHOR_RUN_TRIM * max_w
    let left := trimLeftGo w threshold (best.2.1 - best.1) best.1 best.2.1 best.2.2
    let right := trimRightGo w threshold (best.2.1 - left.1) left.1 best.2.1 left.2
    (left.1, right.1, right.2)

/-- `find_anchor_by_voting` from `phoneme_anchor.py`: two-phase rarity
weighted n-gram voting. -/
def find_anchor_by_voting (phoneme_texts : List (List String))
    (ngram_index : PhonemeNgramIndex) (n_segments : ℕ) : ℕ × ℕ :=
  let combined :=
    ((phoneme_texts.take n_segments).filter (fun p => !p.isEmpty)).flatten
  let n := ngram_index.ngram_size
  let asr_ngrams := (List.range (combined.length + 1 - n)).map
    (fun i => (combined.drop i).take n)
  let votes := asr_ngrams.foldl
    (fun (votes : List ((ℕ × ℕ) × ℚ)) ng =>
      match lookupAssoc ngram_index.ngram_positions ng with
      | none => votes
      | some positions =>
        let weight := if ANCHOR_RARITY_WEIGHTING then
            (match lookupAssoc ngram_index.ngram_counts ng with
             | some c => 1 / (c : ℚ)
             | none => 0)
          else 1
        positions.foldl (fun v sa => bumpAssoc v sa weight) votes)
    []
  if votes = [] then (0, 0)
  else
    let surah_totals := votes.foldl
      (fun (st : List (ℕ × ℚ)) sw => bumpAssoc st sw.1.1 sw.2) []
    let ranked := surah_totals.mergeSort (fun a b => decide (b.2 ≤ a.2))
    let top_surahs := (ranked.take ANCHOR_TOP_CANDIDATES).map Prod.fst
    let best := top_surahs.foldl
      (fun (best : ℕ × ℕ × ℕ × ℚ) s =>
        let ayah_weights := (votes.filter (fun sw => sw.1.1 == s)).map
          (fun sw => (sw.1.2, sw.2))
        let run := findBestContiguousRun ayah_weights
        if best.2.2.2 < run.2.2 then (s, run.1, run.2.1, run.2.2) else best)
      (0, 0, 0, -1)
    (best.1, best.2.1)

/-- **C9.** The global anchor is deterministic: two runs of
`find_anchor_by_voting` on equal inputs (same phoneme lists, same n-gram
index — including its insertion order, which is part of the data two
equal Python index objects share — and same `n_segments`) return the same
`(surah, ayah)` pair. -/
theorem C9_anchor_deterministic (t1 t2 : List (List String))
    (i1 i2 : PhonemeNgramIndex) (n1 n2 : ℕ)
    (ht : t1 = t2) (hi : i1 = i2) (hn : n1 = n2) :
    find_anchor_by_voting t1 i1 n1 = find_anchor_by_voting t2 i2 n2 := by
  subst ht; subst hi; subst hn; rfl

/-- Witness for C9 at a concrete input. -/
theorem C9_anchor_deterministic_witness :
    find_anchor_by_voting [["b", "i"]]
        ⟨[(["b", "i"], [(36, 1)])], [(["b", "i"], 1)], 2, 1⟩ 5
      = find_anchor_by_voting [["b", "i"]]
        ⟨[(["b", "i"], [(36, 1)])], [(["b", "i"], 1)], 2, 1⟩ 5 :=
  C9_anchor_deterministic _ _ _ _ _ _ rfl rfl rfl

/-! ### DP engine (`phoneme_matcher.align_with_word_boundaries`)

Costs are rationals; Python's `float("inf")` is `⊤ : WithTop ℚ`.  A DP
cell is a pair `(cost, start)` mirroring the parallel `*_cost`/`*_start`
rows of the Python implementation. -/

/-- `LOOKBACK_WORDS = 30` from `config.py`. -/
def LOOKBACK_WORDS : ℕ := 30

/-- `LOOKAHEAD_WORDS = 10` from `config.py`. -/
def LOOKAHEAD_WORDS : ℕ := 10

/-- `MAX_EDIT_DISTANCE = 0.25` from `config.py`. -/
def MAX_EDIT_DISTANCE : ℚ := 1/4

/-- `START_PRIOR_WEIGHT = 0.005` from `config.py`. -/
def START_PRIOR_WEIGHT : ℚ := 1/200

/-- `COST_SUBSTITUTION = 1.0` from `config.py`. -/
def COST_SUBSTITUTION : ℚ := 1

/-- `COST_DELETION = 0.8` from `config.py`. -/
def COST_DELETION : ℚ := 4/5

/-- `COST_INSERTION = 1.0` from `config.py`. -/
def COST_INSERTION : ℚ := 1

/-- `RETRY_LOOKBACK_WORDS = 70` from `config.py`. -/
def RETRY_LOOKBACK_WORDS : ℕ := 70

/-- `RETRY_LOOKAHEAD_WORDS = 40` from `config.py`. -/
def RETRY_LOOKAHEAD_WORDS : ℕ := 40

/-- `MAX_EDIT_DISTANCE_RELAXED = 0.5` from `config.py`. -/
def MAX_EDIT_DISTANCE_RELAXED : ℚ := 1/2

/-- `MAX_CONSECUTIVE_FAILURES = 2` from `config.py`. -/
def MAX_CONSECUTIVE_FAILURES : ℕ := 2

/-- `get_sub_cost`: 0 on equal phonemes, table value if present, else the
default.  The substitution table (loaded from a data file absent from the
sources) is a parameter. -/
def get_sub_cost (tbl : String → String → Option ℚ) (p r : String)
    (default : ℚ) : ℚ :=
  if p = r then 0 else (tbl p r).getD default

/-- DP cost: a rational or `+∞` (`none` models Python's `float("inf")`). -/
abbrev Cost := Option ℚ

/-- Cost addition: `∞ + b = ∞`. -/
def costAdd (a : Cost) (b : ℚ) : Cost := a.map (· + b)

/-- Float comparison `a <= b` with `∞`: `∞ <= ∞` is true (as for IEEE
infinities), a finite value is `<=` `∞`, and `∞ <= finite` is false. -/
def costLe : Cost → Cost → Bool
  | none, none => true
  | some _, none => true
  | none, some _ => false
  | some a, some b => a ≤ b

/-- `is_start_boundary(j)`: column `j` may start an alignment. -/
def isStartBoundary (p2w : List ℤ) (n j : ℕ) : Bool :=
  if n ≤ j then false
  else if j = 0 then true
  else p2w.getD j 0 != p2w.getD (j - 1) 0

/-- `is_end_boundary(j)`: column `j` may end an alignment. -/
def isEndBoundary (p2w : List ℤ) (n j : ℕ) : Bool :=
  if j = 0 then false
  else if j = n then true
  else p2w.getD j 0 != p2w.getD (j - 1) 0

/-- Python list indexing with a possibly negative index
(`x[-1]` is the last element); out-of-range reads default to 0. -/
def pyGetZ (l : List ℤ) (i : ℤ) : ℤ :=
  if i < 0 then l.getD (l.length - i.natAbs) 0 else l.getD i.toNat 0

/-- Row 0 of the DP: free start (cost 0, backpointer `j`) exactly at
word-start boundaries, `+∞` elsewhere. -/
def dpInit (p2w : List ℤ) (n : ℕ) : ℕ → Cost × ℤ :=
  fun j => if isStartBoundary p2w n j then (some 0, (j : ℤ)) else (none, -1)

/-- Row `i` of the DP from row `i-1` (`prev`), consuming ASR phoneme `p`.
Column 0 is `i * cost_del` when column 0 is a start boundary; column
`j+1` takes the cheapest of substitute/delete/insert with the Python
branch order (substitution preferred on ties, then deletion). -/
def dpRow (tbl : String → String → Option ℚ) (cd ci cs : ℚ) (R : List String)
    (p2w : List ℤ) (n : ℕ) (prev : ℕ → Cost × ℤ) (i : ℕ) (p : String) :
    ℕ → Cost × ℤ
  | 0 => if isStartBoundary p2w n 0 then (some ((i : ℚ) * cd), 0) else (none, -1)
  | j + 1 =>
    if costLe (costAdd (prev j).1 (get_sub_cost tbl p (R.getD j "") cs))
          (costAdd (prev (j + 1)).1 cd)
        && costLe (costAdd (prev j).1 (get_sub_cost tbl p (R.getD j "") cs))
          (costAdd (dpRow tbl cd ci cs R p2w n prev i p j).1 ci) then
      (costAdd (prev j).1 (get_sub_cost tbl p (R.getD j "") cs), (prev j).2)
    else if costLe (costAdd (prev (j + 1)).1 cd)
        (costAdd (dpRow tbl cd ci cs R p2w n prev i p j).1 ci) then
      (costAdd (prev (j + 1)).1 cd, (prev (j + 1)).2)
    else
      (costAdd (dpRow tbl cd ci cs R p2w n prev i p j).1 ci,
        (dpRow tbl cd ci cs R p2w n prev i p j).2)

/-- The row loop `for i in range(1, m+1)`: fold `dpRow` over the ASR
phonemes; `i` counts the phonemes consumed so far. -/
def dpRows (tbl : String → String → Option ℚ) (cd ci cs : ℚ) (R : List String)
    (p2w : List ℤ) (n : ℕ) : (ℕ → Cost × ℤ) → ℕ → List String → (ℕ → Cost × ℤ)
  | prev, _, [] => prev
  | prev, i, p :: rest =>
    dpRows tbl cd ci cs R p2w n (dpRow tbl cd ci cs R p2w n prev (i + 1) p) (i + 1) rest

/-- The final DP row after consuming all of `P`. -/
def dpFinal (tbl : String → String → Option ℚ) (cd ci cs : ℚ)
    (P R : List String) (p2w : List ℤ) (n : ℕ) : ℕ → Cost × ℤ :=
  dpRows tbl cd ci cs R p2w n (dpInit p2w n) 0 P

/-- Candidate evaluation at end column `j`: `none` if `j` is not an end
boundary or its cost is infinite, otherwise
`(score, j_start, dist, norm_dist)` exactly as in the selection loop. -/
def candOf (p2w : List ℤ) (m n : ℕ) (expected_word : ℤ) (prior_weight : ℚ)
    (finalRow : ℕ → Cost × ℤ) (j : ℕ) : Option (ℚ × ℤ × ℚ × ℚ) :=
  if isEndBoundary p2w n j then
    match (finalRow j).1 with
    | none => none
    | some dist =>
      let j_start : ℤ := (finalRow j).2
      let ref_len : ℤ := (j : ℤ) - j_start
      let denom : ℚ := max (m : ℚ) (max (ref_len : ℚ) 1)
      let norm_dist := dist / denom
      let start_word : ℤ :=
        if j_start < (n : ℤ) then pyGetZ p2w j_start else pyGetZ p2w ((j : ℤ) - 1)
      let prior := prior_weight * ((start_word - expected_word).natAbs : ℚ)
      some (norm_dist + prior, j_start, dist, norm_dist)
  else none

/-- One step of the best-candidate scan: update on strictly smaller
score (Python keeps the first minimum). -/
def selStep (f : ℕ → Option (ℚ × ℤ × ℚ × ℚ))
    (acc : Option (ℚ × ℕ × ℤ × ℚ × ℚ)) (j : ℕ) : Option (ℚ × ℕ × ℤ × ℚ × ℚ) :=
  match f j with
  | none => acc
  | some cand =>
    match acc with
    | none => some (cand.1, j, cand.2)
    | some best => if cand.1 < best.1 then some (cand.1, j, cand.2) else acc

/-- The selection loop over end columns `1..n`; drops the score from the
result, returning `(best_j, best_j_start, best_cost, best_norm_dist)`. -/
def selectBest (f : ℕ → Option (ℚ × ℤ × ℚ × ℚ)) (n : ℕ) :
    Option (ℕ × ℤ × ℚ × ℚ) :=
  ((List.range' 1 n).foldl (selStep f) none).map (fun b => (b.2.1, b.2.2))

/-- `align_with_word_boundaries` from `phoneme_matcher.py` (pure Python
path): word-boundary-constrained substring alignment, returning
`(best_j, best_j_start, best_cost, best_norm_dist)` or `none`. -/
def align_with_word_boundaries (tbl : String → String → Option ℚ)
    (P R : List String) (p2w : List ℤ) (expected_word : ℤ)
    (prior_weight cost_sub cost_del cost_ins : ℚ) : Option (ℕ × ℤ × ℚ × ℚ) :=
  let m := P.length
  let n := R.length
  if m = 0 ∨ n = 0 then none
  else
    selectBest
      (candOf p2w m n expected_word prior_weight
        (dpFinal tbl cost_del cost_ins cost_sub P R p2w n))
      n

/-- The contiguous substring `R[s:j]` of the reference window. -/
def sliceR (R : List String) (s j : ℕ) : List String := (R.drop s).take (j - s)

/-- Spec-side textbook Levenshtein distance with unit costs. -/
def levSpec : List String → List String → ℕ
  | [], ys => ys.length
  | x :: xs, [] => (x :: xs).length
  | x :: xs, y :: ys =>
    if x = y then levSpec xs ys
    else 1 + min (levSpec xs (y :: ys)) (min (levSpec (x :: xs) ys) (levSpec xs ys))

theorem isStartBoundary_lt {p2w : List ℤ} {n j : ℕ}
    (h : isStartBoundary p2w n j = true) : j < n := by
  unfold isStartBoundary at h
  by_cases hle : n ≤ j
  · simp [hle] at h
  · omega

theorem isEndBoundary_le {p2w : List ℤ} {n j : ℕ} (hlen : p2w.length = n)
    (h : isEndBoundary p2w n j = true) : j ≤ n := by
  unfold isEndBoundary at h
  by_cases h0 : j = 0
  · simp [h0] at h
  · by_cases hn : j = n
    · omega
    · simp only [h0, hn, if_false] at h
      by_contra hgt
      push_neg at hgt
      have h1 : p2w.getD j 0 = 0 := by
        apply List.getD_eq_default
        omega
      have h2 : p2w.getD (j - 1) 0 = 0 := by
        apply List.getD_eq_default
        omega
      rw [h1, h2] at h
      simp at h

theorem levSpec_nil_right (xs : List String) : levSpec xs [] = xs.length := by
  cases xs <;> simp [levSpec]

theorem levSpec_nil_left (ys : List String) : levSpec [] ys = ys.length := by
  simp [levSpec]

theorem levSpec_cons_cons (x y : String) (xs ys : List String) :
    levSpec (x :: xs) (y :: ys)
      = if x = y then levSpec xs ys
        else 1 + min (levSpec xs (y :: ys))
          (min (levSpec (x :: xs) ys) (levSpec xs ys)) := by
  simp [levSpec]

theorem levSpec_snoc_del (a : String) :
    ∀ (xs ys : List String), levSpec (xs ++ [a]) ys ≤ levSpec xs ys + 1 := by
  intro xs
  induction xs with
  | nil =>
    intro ys
    cases ys with
    | nil => simp [levSpec]
    | cons y ys' =>
      rw [List.nil_append, levSpec_cons_cons, levSpec_nil_left, levSpec_nil_left]
      by_cases hay : a = y
      · simp only [hay, if_true, levSpec_nil_left, List.length_cons]
        omega
      · simp only [hay, if_false, levSpec_nil_left, List.length_cons]
        omega
  | cons x xs' ihx =>
    intro ys
    induction ys with
    | nil =>
      simp only [List.cons_append, levSpec_nil_right, List.length_append,
        List.length_cons, List.length_nil]
      omega
    | cons y ys' ihy =>
      rw [List.cons_append, levSpec_cons_cons, levSpec_cons_cons]
      have h1 := ihx (y :: ys')
      have h2 := ihy
      have h3 := ihx ys'
      rw [List.cons_append] at h2
      by_cases hxy : x = y
      · simp only [hxy, if_true]
        exact ihx ys'
      · simp only [hxy, if_false]
        omega

theorem levSpec_snoc_ins (b : String) :
    ∀ (xs ys : List String), levSpec xs (ys ++ [b]) ≤ levSpec xs ys + 1 := by
  intro xs
  induction xs with
  | nil =>
    intro ys
    simp [levSpec_nil_left]
  | cons x xs' ihx =>
    intro ys
    induction ys with
    | nil =>
      rw [List.nil_append, levSpec_nil_right, levSpec_cons_cons, levSpec_nil_right,
        levSpec_nil_right]
      by_cases hxb : x = b
      · simp only [hxb, if_true, List.length_cons]
        omega
      · simp only [hxb, if_false, List.length_cons]
        omega
    | cons y ys' ihy =>
      rw [List.cons_append, levSpec_cons_cons, levSpec_cons_cons]
      have h1 := ihx (y :: ys')
      have h2 := ihy
      have h3 := ihx ys'
      rw [List.cons_append] at h1
      by_cases hxy : x = y
      · simp only [hxy, if_true]
        exact ihx ys'
      · simp only [hxy, if_false]
        omega

theorem levSpec_snoc_sub (a b : String) :
    ∀ (xs ys : List String),
      levSpec (xs ++ [a]) (ys ++ [b]) ≤ levSpec xs ys + (if a = b then 0 else 1) := by
  intro xs
  induction xs with
  | nil =>
    intro ys
    induction ys with
    | nil =>
      rw [List.nil_append, List.nil_append, levSpec_cons_cons, levSpec_nil_left]
      by_cases hab : a = b
      · simp [hab, levSpec]
      · simp only [hab, if_false, levSpec_nil_left, levSpec_nil_right]
        simp [levSpec]
    | cons y ys' ihy =>
      rw [List.nil_append] at ihy ⊢
      rw [List.cons_append, levSpec_cons_cons]
      simp only [levSpec_nil_left, List.length_cons, List.length_append,
        List.length_nil] at ihy ⊢
      by_cases hay : a = y
      · simp only [hay, if_true]
        omega
      · simp only [hay, if_false]
        omega
  | cons x xs' ihx =>
    intro ys
    induction ys with
    | nil =>
      have h2 := ihx []
      rw [List.nil_append] at h2 ⊢
      rw [List.cons_append, levSpec_cons_cons]
      simp only [levSpec_nil_right, List.length_append, List.length_cons,
        List.length_nil] at h2 ⊢
      by_cases hxb : x = b
      · simp only [hxb, if_true]
        omega
      · simp only [hxb, if_false]
        omega
    | cons y ys' ihy =>
      simp only [List.cons_append, levSpec_cons_cons]
      have h1 : levSpec (xs' ++ [a]) (y :: (ys' ++ [b]))
          ≤ levSpec xs' (y :: ys') + (if a = b then 0 else 1) := by
        simpa using ihx (y :: ys')
      have h2 : levSpec (x :: (xs' ++ [a])) (ys' ++ [b])
          ≤ levSpec (x :: xs') ys' + (if a = b then 0 else 1) := by
        simpa using ihy
      have h3 := ihx ys'
      by_cases hxy : x = y
      · simp only [hxy, if_true]
        exact ihx ys'
      · by_cases hab : a = b <;>
          simp only [hxy, hab, if_true, if_false] at h1 h2 h3 ⊢ <;> omega

theorem costAdd_eq_some {a : Cost} {b q : ℚ} (h : costAdd a b = some q) :
    ∃ q0, a = some q0 ∧ q = q0 + b := by
  cases a with
  | none => simp [costAdd] at h
  | some q0 => exact ⟨q0, rfl, by simpa [costAdd] using h.symm⟩

/-- General invariant of a DP cell in row `i`, column `j`: a finite cell
records a backpointer that is a word-start boundary `s ≤ j`; a cell whose
backpointer equals its own column was reached by deletions only, so costs
exactly `i * cost_del`; and costs are nonnegative. -/
def CellInvGen (cd : ℚ) (p2w : List ℤ) (n i j : ℕ) (cell : Cost × ℤ) : Prop :=
  ∀ q : ℚ, cell.1 = some q →
    0 ≤ cell.2 ∧ cell.2 ≤ (j : ℤ) ∧ isStartBoundary p2w n cell.2.toNat = true
      ∧ (cell.2 = (j : ℤ) → q = (i : ℚ) * cd) ∧ 0 ≤ q

/-- The three possible outcomes of a DP cell at column `j+1`. -/
theorem dpRow_succ_cases (tbl : String → String → Option ℚ) (cd ci cs : ℚ)
    (R : List String) (p2w : List ℤ) (n : ℕ) (prev : ℕ → Cost × ℤ) (i : ℕ)
    (p : String) (j : ℕ) :
    dpRow tbl cd ci cs R p2w n prev i p (j + 1)
        = (costAdd (prev j).1 (get_sub_cost tbl p (R.getD j "") cs), (prev j).2)
      ∨ dpRow tbl cd ci cs R p2w n prev i p (j + 1)
        = (costAdd (prev (j + 1)).1 cd, (prev (j + 1)).2)
      ∨ dpRow tbl cd ci cs R p2w n prev i p (j + 1)
        = (costAdd (dpRow tbl cd ci cs R p2w n prev i p j).1 ci,
            (dpRow tbl cd ci cs R p2w n prev i p j).2) := by
  rw [dpRow]
  split
  · exact Or.inl rfl
  · split
    · exact Or.inr (Or.inl rfl)
    · exact Or.inr (Or.inr rfl)

theorem dpInit_inv_gen (cd : ℚ) (p2w : List ℤ) (n : ℕ) :
    ∀ j, CellInvGen cd p2w n 0 j (dpInit p2w n j) := by
  intro j q hq
  by_cases hb : isStartBoundary p2w n j = true
  · have hcell : dpInit p2w n j = (some 0, (j : ℤ)) := by simp [dpInit, hb]
    rw [hcell] at hq ⊢
    have hq0 : q = 0 := (Option.some.inj hq).symm
    refine ⟨by positivity, le_refl _, by simpa using hb, ?_, by simp [hq0]⟩
    intro _
    simp [hq0]
  · have hcell : dpInit p2w n j = (none, -1) := by simp [dpInit, hb]
    rw [hcell] at hq
    simp at hq

theorem dpRow_inv_gen (tbl : String → String → Option ℚ) (cd ci cs : ℚ)
    (R : List String) (p2w : List ℤ) (n : ℕ)
    (hcd : 0 ≤ cd) (hci : 0 ≤ ci)
    (hsub : ∀ p r, 0 ≤ get_sub_cost tbl p r cs)
    (prev : ℕ → Cost × ℤ) (i : ℕ) (p : String)
    (hprev : ∀ j, CellInvGen cd p2w n i j (prev j)) :
    ∀ j, CellInvGen cd p2w n (i + 1) j (dpRow tbl cd ci cs R p2w n prev (i + 1) p j) := by
  intro j
  induction j with
  | zero =>
    intro q hq
    by_cases hb : isStartBoundary p2w n 0 = true
    · have hcell : dpRow tbl cd ci cs R p2w n prev (i + 1) p 0
          = (some (((i + 1 : ℕ) : ℚ) * cd), 0) := by
        rw [dpRow, if_pos hb]
      rw [hcell] at hq ⊢
      have hqv : q = ((i + 1 : ℕ) : ℚ) * cd := (Option.some.inj hq).symm
      refine ⟨le_refl _, by simp, by simpa using hb, fun _ => hqv, ?_⟩
      rw [hqv]
      have h0 : (0 : ℚ) ≤ ((i + 1 : ℕ) : ℚ) := by positivity
      exact mul_nonneg h0 hcd
    · have hcell : dpRow tbl cd ci cs R p2w n prev (i + 1) p 0 = (none, -1) := by
        rw [dpRow, if_neg hb]
      rw [hcell] at hq
      simp at hq
  | succ j ihj =>
    intro q hq
    rcases dpRow_succ_cases tbl cd ci cs R p2w n prev (i + 1) p j
      with hcase | hcase | hcase <;> rw [hcase] at hq ⊢
    · -- substitution branch
      obtain ⟨q0, hq0, hsum⟩ := costAdd_eq_some hq
      obtain ⟨h1, h2, h3, _, h5⟩ := hprev j q0 hq0
      refine ⟨h1, ?_, h3, ?_, ?_⟩
      · show (prev j).2 ≤ ((j + 1 : ℕ) : ℤ)
        push_cast at h2 ⊢
        omega
      · intro habs
        push_cast at h2 habs
        omega
      · have := hsub p (R.getD j "")
        rw [hsum]
        linarith
    · -- deletion branch
      obtain ⟨q0, hq0, hsum⟩ := costAdd_eq_some hq
      obtain ⟨h1, h2, h3, h4, h5⟩ := hprev (j + 1) q0 hq0
      refine ⟨h1, h2, h3, ?_, by rw [hsum]; linarith⟩
      intro hsj
      rw [hsum, h4 hsj]
      push_cast
      ring
    · -- insertion branch
      obtain ⟨q0, hq0, hsum⟩ := costAdd_eq_some hq
      obtain ⟨h1, h2, h3, _, h5⟩ := ihj q0 hq0
      refine ⟨h1, ?_, h3, ?_, by rw [hsum]; linarith⟩
      · show (dpRow tbl cd ci cs R p2w n prev (i + 1) p j).2 ≤ ((j + 1 : ℕ) : ℤ)
        push_cast at h2 ⊢
        omega
      · intro habs
        push_cast at h2 habs
        omega

theorem dpRows_inv_gen (tbl : String → String → Option ℚ) (cd ci cs : ℚ)
    (R : List String) (p2w : List ℤ) (n : ℕ)
    (hcd : 0 ≤ cd) (hci : 0 ≤ ci)
    (hsub : ∀ p r, 0 ≤ get_sub_cost tbl p r cs) :
    ∀ (rest : List String) (i : ℕ) (prev : ℕ → Cost × ℤ),
      (∀ j, CellInvGen cd p2w n i j (prev j)) →
      ∀ j, CellInvGen cd p2w n (i + rest.length) j
        (dpRows tbl cd ci cs R p2w n prev i rest j) := by
  intro rest
  induction rest with
  | nil => intro i prev hprev j; simpa [dpRows] using hprev j
  | cons p rest' ih =>
    intro i prev hprev j
    have step := dpRow_inv_gen tbl cd ci cs R p2w n hcd hci hsub prev i p hprev
    have h2 := ih (i + 1) _ step j
    have heq : i + (p :: rest').length = (i + 1) + rest'.length := by
      simp only [List.length_cons]
      omega
    rw [heq]
    simpa only [dpRows] using h2

theorem dpFinal_inv_gen (tbl : String → String → Option ℚ) (cd ci cs : ℚ)
    (P R : List String) (p2w : List ℤ) (n : ℕ)
    (hcd : 0 ≤ cd) (hci : 0 ≤ ci)
    (hsub : ∀ p r, 0 ≤ get_sub_cost tbl p r cs) :
    ∀ j, CellInvGen cd p2w n P.length j (dpFinal tbl cd ci cs P R p2w n j) := by
  intro j
  have := dpRows_inv_gen tbl cd ci cs R p2w n hcd hci hsub P 0 (dpInit p2w n)
    (dpInit_inv_gen cd p2w n) j
  simpa [dpFinal] using this

theorem get_sub_cost_empty (p r : String) (c : ℚ) :
    get_sub_cost (fun _ _ => none) p r c = if p = r then 0 else c := by
  simp [get_sub_cost]

theorem sliceR_self (R : List String) (s : ℕ) : sliceR R s s = [] := by
  simp [sliceR]

theorem sliceR_succ (R : List String) (s j : ℕ) (hsj : s ≤ j) (hj : j < R.length) :
    sliceR R s (j + 1) = sliceR R s j ++ [R.getD j ""] := by
  unfold sliceR
  have h1 : j + 1 - s = (j - s) + 1 := by omega
  rw [h1, List.take_succ]
  congr 1
  have h3 : s + (j - s) = j := by omega
  rw [List.getElem?_drop, h3, List.getElem?_eq_getElem hj]
  simp [List.getD_eq_getElem?_getD, List.getElem?_eq_getElem hj]

/-- Unit-cost invariant: a finite cell's cost bounds from above the
Levenshtein distance between the consumed ASR prefix and the reference
slice from the recorded start column to the current column. -/
def CellInvLev (Pdone R : List String) (j : ℕ) (cell : Cost × ℤ) : Prop :=
  ∀ q : ℚ, cell.1 = some q →
    0 ≤ cell.2 ∧ cell.2 ≤ (j : ℤ)
      ∧ ((levSpec Pdone (sliceR R cell.2.toNat j) : ℚ) ≤ q)

theorem dpInit_inv_lev (R : List String) (p2w : List ℤ) (n : ℕ) :
    ∀ j, CellInvLev [] R j (dpInit p2w n j) := by
  intro j q hq
  by_cases hb : isStartBoundary p2w n j = true
  · have hcell : dpInit p2w n j = (some 0, (j : ℤ)) := by simp [dpInit, hb]
    rw [hcell] at hq ⊢
    have hq0 : q = 0 := (Option.some.inj hq).symm
    refine ⟨by positivity, le_refl _, ?_⟩
    simp [hq0, sliceR_self, levSpec_nil_left]
  · have hcell : dpInit p2w n j = (none, -1) := by simp [dpInit, hb]
    rw [hcell] at hq
    simp at hq

theorem dpRow_inv_lev (R : List String) (p2w : List ℤ) (n : ℕ)
    (hn : R.length = n) (Pdone : List String) (prev : ℕ → Cost × ℤ) (p : String)
    (hprev : ∀ j, j ≤ n → CellInvLev Pdone R j (prev j)) :
    ∀ j, j ≤ n → CellInvLev (Pdone ++ [p]) R j
      (dpRow (fun _ _ => none) 1 1 1 R p2w n prev (Pdone.length + 1) p j) := by
  intro j
  induction j with
  | zero =>
    intro _ q hq
    by_cases hb : isStartBoundary p2w n 0 = true
    · have hcell : dpRow (fun _ _ => none) 1 1 1 R p2w n prev (Pdone.length + 1) p 0
          = (some (((Pdone.length + 1 : ℕ) : ℚ) * 1), 0) := by
        rw [dpRow, if_pos hb]
      rw [hcell] at hq ⊢
      have hqv : q = ((Pdone.length + 1 : ℕ) : ℚ) * 1 := (Option.some.inj hq).symm
      refine ⟨le_refl _, by simp, ?_⟩
      rw [hqv]
      have : sliceR R (0 : ℤ).toNat 0 = [] := sliceR_self R 0
      rw [this, levSpec_nil_right]
      push_cast
      simp
    · have hcell : dpRow (fun _ _ => none) 1 1 1 R p2w n prev (Pdone.length + 1) p 0
          = (none, -1) := by
        rw [dpRow, if_neg hb]
      rw [hcell] at hq
      simp at hq
  | succ j ihj =>
    intro hjn q hq
    have hjn' : j ≤ n := by omega
    have hjR : j < R.length := by omega
    rcases dpRow_succ_cases (fun _ _ => none) 1 1 1 R p2w n prev (Pdone.length + 1) p j
      with hcase | hcase | hcase <;> rw [hcase] at hq ⊢
    · -- substitution
      obtain ⟨q0, hq0, hsum⟩ := costAdd_eq_some hq
      obtain ⟨h1, h2, hlev⟩ := hprev j hjn' q0 hq0
      have hs : (prev j).2.toNat ≤ j := by omega
      refine ⟨h1, by push_cast; omega, ?_⟩
      rw [sliceR_succ R _ j hs hjR]
      have hsnoc := levSpec_snoc_sub p (R.getD j "") Pdone (sliceR R (prev j).2.toNat j)
      rw [hsum, get_sub_cost_empty]
      by_cases hpr : p = R.getD j ""
      · simp only [hpr, if_true] at hsnoc ⊢
        have : (levSpec (Pdone ++ [R.getD j ""]) (sliceR R (prev j).2.toNat j ++ [R.getD j ""]) : ℚ)
            ≤ (levSpec Pdone (sliceR R (prev j).2.toNat j) : ℚ) := by
          exact_mod_cast le_trans hsnoc (by omega)
        linarith
      · simp only [hpr, if_false] at hsnoc ⊢
        have : (levSpec (Pdone ++ [p]) (sliceR R (prev j).2.toNat j ++ [R.getD j ""]) : ℚ)
            ≤ (levSpec Pdone (sliceR R (prev j).2.toNat j) : ℚ) + 1 := by
          exact_mod_cast hsnoc
        linarith
    · -- deletion
      obtain ⟨q0, hq0, hsum⟩ := costAdd_eq_some hq
      obtain ⟨h1, h2, hlev⟩ := hprev (j + 1) hjn q0 hq0
      refine ⟨h1, h2, ?_⟩
      have hsnoc := levSpec_snoc_del p Pdone (sliceR R (prev (j + 1)).2.toNat (j + 1))
      have hsnoc' : (levSpec (Pdone ++ [p]) (sliceR R (prev (j + 1)).2.toNat (j + 1)) : ℚ)
          ≤ (levSpec Pdone (sliceR R (prev (j + 1)).2.toNat (j + 1)) : ℚ) + 1 := by
        exact_mod_cast hsnoc
      rw [hsum]
      linarith
    · -- insertion
      obtain ⟨q0, hq0, hsum⟩ := costAdd_eq_some hq
      obtain ⟨h1, h2, hlev⟩ := ihj hjn' q0 hq0
      have hs : (dpRow (fun _ _ => none) 1 1 1 R p2w n prev (Pdone.length + 1) p j).2.toNat ≤ j := by
        omega
      refine ⟨h1, by push_cast; omega, ?_⟩
      rw [sliceR_succ R _ j hs hjR]
      have hsnoc := levSpec_snoc_ins (R.getD j "") (Pdone ++ [p])
        (sliceR R (dpRow (fun _ _ => none) 1 1 1 R p2w n prev (Pdone.length + 1) p j).2.toNat j)
      have hsnoc' : (levSpec (Pdone ++ [p])
          (sliceR R (dpRow (fun _ _ => none) 1 1 1 R p2w n prev
            (Pdone.length + 1) p j).2.toNat j ++ [R.getD j ""]) : ℚ)
          ≤ (levSpec (Pdone ++ [p]) (sliceR R (dpRow (fun _ _ => none) 1 1 1 R p2w n prev
              (Pdone.length + 1) p j).2.toNat j) : ℚ) + 1 := by
        exact_mod_cast hsnoc
      rw [hsum]
      linarith

theorem dpRows_inv_lev (R : List String) (p2w : List ℤ) (n : ℕ)
    (hn : R.length = n) :
    ∀ (rest Pdone : List String) (prev : ℕ → Cost × ℤ),
      (∀ j, j ≤ n → CellInvLev Pdone R j (prev j)) →
      ∀ j, j ≤ n → CellInvLev (Pdone ++ rest) R j
        (dpRows (fun _ _ => none) 1 1 1 R p2w n prev Pdone.length rest j) := by
  intro rest
  induction rest with
  | nil => intro Pdone prev hprev j hj; simpa [dpRows] using hprev j hj
  | cons p rest' ih =>
    intro Pdone prev hprev j hj
    have step := dpRow_inv_lev R p2w n hn Pdone prev p hprev
    have h2 := ih (Pdone ++ [p]) _ (by
      intro j' hj'
      have := step j' hj'
      simpa using this) j hj
    have hlen : (Pdone ++ [p]).length = Pdone.length + 1 := by simp
    rw [hlen] at h2
    have happ : (Pdone ++ [p]) ++ rest' = Pdone ++ (p :: rest') := by simp
    rw [happ] at h2
    simpa only [dpRows] using h2

theorem dpFinal_inv_lev (P R : List String) (p2w : List ℤ) (n : ℕ)
    (hn : R.length = n) :
    ∀ j, j ≤ n → CellInvLev P R j (dpFinal (fun _ _ => none) 1 1 1 P R p2w n j) := by
  intro j hj
  have := dpRows_inv_lev R p2w n hn P [] (dpInit p2w n)
    (fun j' _ => dpInit_inv_lev R p2w n j') j hj
  simpa [dpFinal] using this

theorem selStep_none {f : ℕ → Option (ℚ × ℤ × ℚ × ℚ)}
    {acc : Option (ℚ × ℕ × ℤ × ℚ × ℚ)} {j : ℕ} (h : f j = none) :
    selStep f acc j = acc := by
  simp [selStep, h]

theorem selStep_cand_none {f : ℕ → Option (ℚ × ℤ × ℚ × ℚ)}
    {acc : Option (ℚ × ℕ × ℤ × ℚ × ℚ)} {j : ℕ} {cand : ℚ × ℤ × ℚ × ℚ}
    (hf : f j = some cand) (ha : acc = none) :
    selStep f acc j = some (cand.1, j, cand.2) := by
  simp [selStep, hf, ha]

theorem selStep_cand_lt {f : ℕ → Option (ℚ × ℤ × ℚ × ℚ)}
    {acc : Option (ℚ × ℕ × ℤ × ℚ × ℚ)} {j : ℕ} {cand : ℚ × ℤ × ℚ × ℚ}
    {best : ℚ × ℕ × ℤ × ℚ × ℚ}
    (hf : f j = some cand) (ha : acc = some best) (hlt : cand.1 < best.1) :
    selStep f acc j = some (cand.1, j, cand.2) := by
  simp [selStep, hf, ha, hlt]

theorem selStep_cand_ge {f : ℕ → Option (ℚ × ℤ × ℚ × ℚ)}
    {acc : Option (ℚ × ℕ × ℤ × ℚ × ℚ)} {j : ℕ} {cand : ℚ × ℤ × ℚ × ℚ}
    {best : ℚ × ℕ × ℤ × ℚ × ℚ}
    (hf : f j = some cand) (ha : acc = some best) (hlt : ¬cand.1 < best.1) :
    selStep f acc j = some best := by
  simp [selStep, hf, ha, hlt]

theorem selFold_origin (f : ℕ → Option (ℚ × ℤ × ℚ × ℚ)) :
    ∀ (js : List ℕ) (acc : Option (ℚ × ℕ × ℤ × ℚ × ℚ)) (b : ℚ × ℕ × ℤ × ℚ × ℚ),
      js.foldl (selStep f) acc = some b →
      acc = some b ∨ (b.2.1 ∈ js ∧ f b.2.1 = some (b.1, b.2.2)) := by
  intro js
  induction js with
  | nil => intro acc b h; exact Or.inl h
  | cons j rest ih =>
    intro acc b h
    rw [List.foldl_cons] at h
    rcases ih _ b h with hacc | ⟨hmem, hf⟩
    · cases hfj : f j with
      | none =>
        rw [selStep_none hfj] at hacc
        exact Or.inl hacc
      | some cand =>
        cases hac : acc with
        | none =>
          rw [selStep_cand_none hfj hac] at hacc
          have hb : b = (cand.1, j, cand.2) := (Option.some.inj hacc).symm
          refine Or.inr ⟨?_, ?_⟩
          · rw [hb]; exact List.mem_cons_self _ _
          · rw [hb, hfj]
        | some best =>
          by_cases hlt : cand.1 < best.1
          · rw [selStep_cand_lt hfj hac hlt] at hacc
            have hb : b = (cand.1, j, cand.2) := (Option.some.inj hacc).symm
            refine Or.inr ⟨?_, ?_⟩
            · rw [hb]; exact List.mem_cons_self _ _
            · rw [hb, hfj]
          · rw [selStep_cand_ge hfj hac hlt] at hacc
            exact Or.inl (hac ▸ hacc)
    · exact Or.inr ⟨List.mem_cons_of_mem _ hmem, hf⟩

theorem selFold_min (f : ℕ → Option (ℚ × ℤ × ℚ × ℚ)) :
    ∀ (js : List ℕ) (acc : Option (ℚ × ℕ × ℤ × ℚ × ℚ)) (b : ℚ × ℕ × ℤ × ℚ × ℚ),
      js.foldl (selStep f) acc = some b →
      (∀ j' ∈ js, ∀ c, f j' = some c → b.1 ≤ c.1)
      ∧ (∀ b0, acc = some b0 → b.1 ≤ b0.1) := by
  intro js
  induction js with
  | nil =>
    intro acc b h
    refine ⟨by simp, ?_⟩
    intro b0 hacc
    rw [List.foldl_nil] at h
    rw [hacc] at h
    rw [Option.some.inj h]
  | cons j rest ih =>
    intro acc b h
    rw [List.foldl_cons] at h
    obtain ⟨ih1, ih2⟩ := ih _ b h
    have hstep : ∀ b0, acc = some b0 → b.1 ≤ b0.1 := by
      intro b0 hacc
      cases hfj : f j with
      | none =>
        exact ih2 b0 (selStep_none hfj ▸ hacc)
      | some cand =>
        by_cases hlt : cand.1 < b0.1
        · have := ih2 (cand.1, j, cand.2) (selStep_cand_lt hfj hacc hlt)
          calc b.1 ≤ cand.1 := this
            _ ≤ b0.1 := le_of_lt hlt
        · exact ih2 b0 (selStep_cand_ge hfj hacc hlt)
    refine ⟨?_, hstep⟩
    intro j' hj' c hc
    rcases List.mem_cons.mp hj' with hj0 | hmem
    · subst hj0
      cases hac : acc with
      | none =>
        exact ih2 (c.1, j', c.2) (selStep_cand_none hc hac)
      | some best =>
        by_cases hlt : c.1 < best.1
        · exact ih2 (c.1, j', c.2) (selStep_cand_lt hc hac hlt)
        · have hble := ih2 best (selStep_cand_ge hc hac hlt)
          push_neg at hlt
          linarith
    · exact ih1 j' hmem c hc

theorem selFold_strict (f : ℕ → Option (ℚ × ℤ × ℚ × ℚ)) :
    ∀ (js : List ℕ) (acc : Option (ℚ × ℕ × ℤ × ℚ × ℚ)) (b b0 : ℚ × ℕ × ℤ × ℚ × ℚ),
      js.foldl (selStep f) acc = some b → acc = some b0 → b ≠ b0 → b.1 < b0.1 := by
  intro js
  induction js with
  | nil =>
    intro acc b b0 h hacc hne
    rw [List.foldl_nil] at h
    rw [hacc] at h
    exact absurd (Option.some.inj h).symm hne
  | cons j rest ih =>
    intro acc b b0 h hacc hne
    rw [List.foldl_cons] at h
    cases hfj : f j with
    | none =>
      refine ih _ b b0 h ?_ hne
      rw [selStep_none hfj, hacc]
    | some cand =>
      by_cases hlt : cand.1 < b0.1
      · have hstep : selStep f acc j = some (cand.1, j, cand.2) :=
          selStep_cand_lt hfj hacc hlt
        by_cases hb : b = (cand.1, j, cand.2)
        · rw [hb]; exact hlt
        · have := ih _ b (cand.1, j, cand.2) h hstep hb
          calc b.1 < cand.1 := this
            _ < b0.1 := hlt
      · have hstep : selStep f acc j = some b0 := selStep_cand_ge hfj hacc hlt
        exact ih _ b b0 h hstep hne

theorem selFold_tie (f : ℕ → Option (ℚ × ℤ × ℚ × ℚ)) :
    ∀ (js : List ℕ) (acc : Option (ℚ × ℕ × ℤ × ℚ × ℚ)),
      js.Pairwise (· < ·) →
      (∀ b0, acc = some b0 → ∀ j' ∈ js, b0.2.1 < j') →
      ∀ b, js.foldl (selStep f) acc = some b →
      ∀ j' ∈ js, ∀ c, f j' = some c → c.1 = b.1 → b.2.1 ≤ j' := by
  intro js
  induction js with
  | nil => intro acc _ _ b _ j' hj'; simp at hj'
  | cons j rest ih =>
    intro acc hpw hacc b h j' hj' c hc htie
    rw [List.foldl_cons] at h
    have hpw' : rest.Pairwise (· < ·) := (List.pairwise_cons.mp hpw).2
    have hjlt : ∀ j'' ∈ rest, j < j'' := (List.pairwise_cons.mp hpw).1
    have haccstep : ∀ b0, selStep f acc j = some b0 → ∀ j'' ∈ rest, b0.2.1 < j'' := by
      intro b0 hb0 j'' hj''
      cases hfj : f j with
      | none =>
        rw [selStep_none hfj] at hb0
        exact hacc b0 hb0 j'' (List.mem_cons_of_mem _ hj'')
      | some cand =>
        cases hac : acc with
        | none =>
          rw [selStep_cand_none hfj hac] at hb0
          rw [← Option.some.inj hb0]
          exact hjlt j'' hj''
        | some best =>
          by_cases hlt : cand.1 < best.1
          · rw [selStep_cand_lt hfj hac hlt] at hb0
            rw [← Option.some.inj hb0]
            exact hjlt j'' hj''
          · rw [selStep_cand_ge hfj hac hlt] at hb0
            rw [← Option.some.inj hb0]
            exact hacc best hac j'' (List.mem_cons_of_mem _ hj'')
    rcases List.mem_cons.mp hj' with hj0 | hmem
    · subst hj0
      cases hac : acc with
      | none =>
        have hstep : selStep f acc j' = some (c.1, j', c.2) := selStep_cand_none hc hac
        by_cases hb : b = (c.1, j', c.2)
        · rw [hb]
        · have := selFold_strict f rest _ b (c.1, j', c.2) h hstep hb
          rw [htie] at this
          exact absurd this (lt_irrefl _)
      | some best =>
        by_cases hlt : c.1 < best.1
        · have hstep : selStep f acc j' = some (c.1, j', c.2) :=
            selStep_cand_lt hc hac hlt
          by_cases hb : b = (c.1, j', c.2)
          · rw [hb]
          · have := selFold_strict f rest _ b (c.1, j', c.2) h hstep hb
            rw [htie] at this
            exact absurd this (lt_irrefl _)
        · have hstep : selStep f acc j' = some best := selStep_cand_ge hc hac hlt
          by_cases hb : b = best
          · have := hacc best hac j' (List.mem_cons_self _ _)
            rw [← hb] at this
            exact le_of_lt this
          · have hstrict := selFold_strict f rest _ b best h hstep hb
            push_neg at hlt
            rw [htie] at hlt
            exact absurd (lt_of_lt_of_le hstrict hlt) (lt_irrefl _)
    · exact ih _ hpw' haccstep b h j' hmem c hc htie

theorem candOf_eq_some {p2w : List ℤ} {m n : ℕ} {ew : ℤ} {w : ℚ}
    {finalRow : ℕ → Cost × ℤ} {j : ℕ} {cand : ℚ × ℤ × ℚ × ℚ}
    (h : candOf p2w m n ew w finalRow j = some cand) :
    isEndBoundary p2w n j = true
    ∧ (finalRow j).1 = some cand.2.2.1
    ∧ (finalRow j).2 = cand.2.1
    ∧ cand.2.2.2 = cand.2.2.1 / max (m : ℚ) (max ((((j : ℤ) - cand.2.1 : ℤ)) : ℚ) 1)
    ∧ cand.1 = cand.2.2.2
        + w * ((((if cand.2.1 < (n : ℤ) then pyGetZ p2w cand.2.1
            else pyGetZ p2w ((j : ℤ) - 1)) - ew).natAbs : ℚ)) := by
  unfold candOf at h
  by_cases hend : isEndBoundary p2w n j = true
  · rw [if_pos hend] at h
    cases hcost : (finalRow j).1 with
    | none => rw [hcost] at h; simp at h
    | some dist =>
      rw [hcost] at h
      simp only [] at h
      have hcand := (Option.some.inj h).symm
      subst hcand
      refine ⟨hend, rfl, rfl, rfl, rfl⟩
  · rw [if_neg hend] at h
    simp at h

theorem align_result_spec (tbl : String → String → Option ℚ)
    (P R : List String) (p2w : List ℤ) (ew : ℤ) (w cs cd ci : ℚ)
    (j : ℕ) (s : ℤ) (c nd : ℚ)
    (h : align_with_word_boundaries tbl P R p2w ew w cs cd ci = some (j, s, c, nd)) :
    1 ≤ j ∧ j ≤ R.length
    ∧ ∃ score : ℚ,
        candOf p2w P.length R.length ew w (dpFinal tbl cd ci cs P R p2w R.length) j
          = some (score, s, c, nd)
        ∧ ∀ j' ∈ List.range' 1 R.length, ∀ cand,
            candOf p2w P.length R.length ew w (dpFinal tbl cd ci cs P R p2w R.length) j'
              = some cand → score ≤ cand.1 ∧ (cand.1 = score → j ≤ j') := by
  unfold align_with_word_boundaries at h
  by_cases hmn : P.length = 0 ∨ R.length = 0
  · rw [if_pos hmn] at h
    exact absurd h (by simp)
  · rw [if_neg hmn] at h
    unfold selectBest at h
    obtain ⟨b, hb, hmap⟩ := Option.map_eq_some'.mp h
    have horigin := selFold_origin _ _ _ _ hb
    rcases horigin with habs | ⟨hmem, hf⟩
    · exact absurd habs (by simp)
    · have hbj : b.2.1 = j := congrArg Prod.fst hmap
      have hbrest : b.2.2 = (s, c, nd) := congrArg Prod.snd hmap
      rw [hbj] at hmem hf
      rw [hbrest] at hf
      have hrange := List.mem_range'_1.mp hmem
      refine ⟨hrange.1, by omega, b.1, hf, ?_⟩
      intro j' hj' cand hcand
      constructor
      · exact (selFold_min _ _ _ _ hb).1 j' hj' cand hcand
      · intro heq
        have htie := selFold_tie _ (List.range' 1 R.length) none
          (by
            have : ∀ s n : ℕ, (List.range' s n).Pairwise (· < ·) := by
              intro s n
              induction n generalizing s with
              | zero => simp
              | succ n ih =>
                rw [List.range'_succ]
                refine List.pairwise_cons.mpr ⟨?_, ih (s + 1)⟩
                intro a ha
                have := List.mem_range'_1.mp ha
                omega
            exact this 1 R.length)
          (by simp) b hb j' hj' cand hcand heq
        rw [hbj] at htie
        exact htie

/-- **C1 (counterexample).** At `P = ["a"]`, `R = ["b","a"]` (a single
reference word) with unit costs and empty substitution table, the DP
returns `edit_cost = 2`, yet the only word-bounded contiguous substring
of `R` is `["b","a"]` itself, at Levenshtein distance 1 from `P`: the
returned `edit_cost` equals the Levenshtein distance of no word-bounded
contiguous substring (the DP cannot insert reference phonemes before the
first consumed ASR phoneme). -/
theorem C1_counterexample :
    align_with_word_boundaries (fun _ _ => none) ["a"] ["b", "a"] [0, 0] 0 (1/200) 1 1 1
      = some (2, 0, 2, 1)
    ∧ ∀ s j : ℕ, isStartBoundary [0, 0] 2 s = true → isEndBoundary [0, 0] 2 j = true →
        s ≤ j → ¬((levSpec ["a"] (sliceR ["b", "a"] s j) : ℚ) = 2) := by
  constructor
  · norm_num [align_with_word_boundaries, selectBest, selStep, candOf, dpFinal, dpRows,
      dpRow, dpInit, isStartBoundary, isEndBoundary, get_sub_cost, pyGetZ, List.range',
      costAdd, costLe, show ("a" = "b") = False from by simp]
  · intro s j hs hj hsj
    have hsn : s < 2 := isStartBoundary_lt hs
    have hjn : j ≤ 2 := isEndBoundary_le (by simp) hj
    interval_cases s <;> interval_cases j <;>
      simp_all [isStartBoundary, isEndBoundary, sliceR, levSpec_cons_cons,
        levSpec_nil_left, levSpec_nil_right]

/-- **C1 (amended).** Under unit edit costs and an empty substitution
table, a successful `align_with_word_boundaries` returns a valid end
boundary `best_j ≤ |R|` and a valid word-start boundary
`j_start ≤ best_j`, and the returned `edit_cost` is an *upper bound* on
the Levenshtein distance between `P` and the returned word-bounded
contiguous substring `R[j_start:best_j]` (it is the cost of an actual
edit script found by the DP).  Exact equality with the Levenshtein
distance of some word-bounded substring does not hold in general
(`C1_counterexample`): the DP's free word-boundary start cannot insert
reference phonemes before the first consumed ASR phoneme. -/
theorem C1_amended_dp_bound (P R : List String) (p2w : List ℤ) (ew : ℤ) (w : ℚ)
    (j : ℕ) (s : ℤ) (c nd : ℚ)
    (h : align_with_word_boundaries (fun _ _ => none) P R p2w ew w 1 1 1
          = some (j, s, c, nd)) :
    isEndBoundary p2w R.length j = true ∧ 1 ≤ j ∧ j ≤ R.length
    ∧ 0 ≤ s ∧ s ≤ (j : ℤ) ∧ isStartBoundary p2w R.length s.toNat = true
    ∧ ((levSpec P (sliceR R s.toNat j) : ℚ) ≤ c) := by
  obtain ⟨hj1, hjn, score, hcand, _⟩ :=
    align_result_spec (fun _ _ => none) P R p2w ew w 1 1 1 j s c nd h
  obtain ⟨hend, hcost, hstart, _, _⟩ := candOf_eq_some hcand
  have hlev := dpFinal_inv_lev P R p2w R.length rfl j hjn c hcost
  have hgen := dpFinal_inv_gen (fun _ _ => none) 1 1 1 P R p2w R.length
    (by norm_num) (by norm_num)
    (fun p r => by rw [get_sub_cost_empty]; split <;> norm_num) j c hcost
  rw [hstart] at hlev hgen
  exact ⟨hend, hj1, hjn, hlev.1, hlev.2.1, hgen.2.2.1, hlev.2.2⟩

/-- Witness for C1 (amended) at `P = ["a"]`, `R = ["a"]`. -/
theorem C1_amended_dp_bound_witness :
    isEndBoundary [0] 1 1 = true ∧ 1 ≤ 1 ∧ 1 ≤ (["a"] : List String).length
    ∧ (0 : ℤ) ≤ 0 ∧ (0 : ℤ) ≤ (1 : ℕ) ∧ isStartBoundary [0] 1 (0 : ℤ).toNat = true
    ∧ ((levSpec ["a"] (sliceR ["a"] (0 : ℤ).toNat 1) : ℚ) ≤ 0) :=
  C1_amended_dp_bound ["a"] ["a"] [0] 0 (1/200) 1 0 0 0
    (by norm_num [align_with_word_boundaries, selectBest, selStep, candOf, dpFinal,
      dpRows, dpRow, dpInit, isStartBoundary, isEndBoundary, get_sub_cost, pyGetZ,
      List.range', costAdd, costLe])

/-- **C2 (counterexample).** At `P = ["a"]`, `R = ["b","a"]`, word map
`[0,1]`, `expected_word = 0`, `prior_weight = 1`, unit costs: the
function returns the candidate at end column 1 (`norm_dist = 1`,
score 1), although the candidate at end column 2 has the same score 1
with strictly lower `norm_dist = 0` — the claimed tie-break by lower
`norm_dist` (and then lower `ref_len`) does not exist; the first scanned
end column wins ties. -/
theorem C2_counterexample :
    align_with_word_boundaries (fun _ _ => none) ["a"] ["b", "a"] [0, 1] 0 1 1 1 1
      = some (1, 0, 1, 1)
    ∧ candOf [0, 1] 1 2 0 1 (dpFinal (fun _ _ => none) 1 1 1 ["a"] ["b", "a"] [0, 1] 2) 2
      = some (1, 1, 0, 0) := by
  constructor <;>
    norm_num [align_with_word_boundaries, selectBest, selStep, candOf, dpFinal, dpRows,
      dpRow, dpInit, isStartBoundary, isEndBoundary, get_sub_cost, pyGetZ, List.range',
      costAdd, costLe, show ("a" = "b") = False from by simp]

/-- **C2 (amended).** The selection phase returns the valid end boundary
`j` whose candidate has the lowest score; when several candidates have
equal score, the one with the smallest end column `j` (the first one
scanned) is chosen, irrespective of `norm_dist` or `ref_len`. -/
theorem C2_amended_selection (tbl : String → String → Option ℚ)
    (P R : List String) (p2w : List ℤ) (ew : ℤ) (w cs cd ci : ℚ)
    (j : ℕ) (s : ℤ) (c nd : ℚ)
    (h : align_with_word_boundaries tbl P R p2w ew w cs cd ci = some (j, s, c, nd)) :
    ∃ score : ℚ,
      candOf p2w P.length R.length ew w (dpFinal tbl cd ci cs P R p2w R.length) j
        = some (score, s, c, nd)
      ∧ ∀ j' ∈ List.range' 1 R.length, ∀ cand,
          candOf p2w P.length R.length ew w (dpFinal tbl cd ci cs P R p2w R.length) j'
            = some cand → score ≤ cand.1 ∧ (cand.1 = score → j ≤ j') :=
  (align_result_spec tbl P R p2w ew w cs cd ci j s c nd h).2.2

/-- Witness for C2 (amended) at the C2 instance. -/
theorem C2_amended_selection_witness :
    ∃ score : ℚ,
      candOf [0, 1] (["a"] : List String).length (["b", "a"] : List String).length 0 1
          (dpFinal (fun _ _ => none) 1 1 1 ["a"] ["b", "a"] [0, 1]
            (["b", "a"] : List String).length) 1
        = some (score, 0, 1, 1)
      ∧ ∀ j' ∈ List.range' 1 (["b", "a"] : List String).length, ∀ cand,
          candOf [0, 1] (["a"] : List String).length (["b", "a"] : List String).length 0 1
              (dpFinal (fun _ _ => none) 1 1 1 ["a"] ["b", "a"] [0, 1]
                (["b", "a"] : List String).length) j'
            = some cand → score ≤ cand.1 ∧ (cand.1 = score → 1 ≤ j') :=
  C2_amended_selection (fun _ _ => none) ["a"] ["b", "a"] [0, 1] 0 1 1 1 1 1 0 1 1
    (by norm_num [align_with_word_boundaries, selectBest, selStep, candOf, dpFinal,
      dpRows, dpRow, dpInit, isStartBoundary, isEndBoundary, get_sub_cost, pyGetZ,
      List.range', costAdd, costLe, show ("a" = "b") = False from by simp])

/-! ### Chapter reference building (`phoneme_matcher.build_chapter_reference`) -/

/-- `RefWord` from `phoneme_matcher.py`. -/
structure RefWord where
  text : String
  phonemes : List String
  surah : ℕ
  ayah : ℕ
  word_num : ℕ
deriving DecidableEq, Repr

/-- `ChapterReference` from `phoneme_matcher.py`. -/
structure ChapterReference where
  surah : ℕ
  words : List RefWord
  avg_phones_per_word : ℚ
  flat_phonemes : List String
  flat_phone_to_word : List ℤ
  word_phone_offsets : List ℕ
deriving DecidableEq, Repr

/-- `ChapterReference.num_words`. -/
def ChapterReference.num_words (cr : ChapterReference) : ℕ := cr.words.length

/-- The flattening loop of `build_chapter_reference` restricted to
`flat_phone_to_word`: word `word_idx` contributes one entry per phoneme. -/
def flatP2WGo : ℕ → List RefWord → List ℤ
  | _, [] => []
  | i, w :: ws => w.phonemes.map (fun _ => (i : ℤ)) ++ flatP2WGo (i + 1) ws

/-- The flattening loop of `build_chapter_reference` restricted to
`word_phone_offsets` (including the final sentinel offset). -/
def offsetsGo : ℕ → List RefWord → List ℕ
  | acc, [] => [acc]
  | acc, w :: ws => acc :: offsetsGo (acc + w.phonemes.length) ws

/-- `build_chapter_reference` from `phoneme_matcher.py`.  The phonemizer
(an external service) is abstracted: the already-phonemized word list is
the input; the function builds the derived flattened fields exactly as
the source loop does. -/
def build_chapter_reference (surah_num : ℕ) (words : List RefWord) :
    ChapterReference :=
  { surah := surah_num
    words := words
    avg_phones_per_word :=
      if words = [] then 4
      else ((words.map (fun w => w.phonemes.length)).sum : ℚ) / (words.length : ℚ)
    flat_phonemes := (words.map (fun w => w.phonemes)).flatten
    flat_phone_to_word := flatP2WGo 0 words
    word_phone_offsets := offsetsGo 0 words }

/-! ### Per-segment alignment (`phoneme_matcher.align_segment`) -/

/-- `AlignmentResult` from `phoneme_matcher.py`.  The derived
`start_word`/`end_word` `RefWord` fields (`words[start_word_idx]` /
`words[end_word_idx]`) are omitted; the indices are kept. -/
structure AlignmentResult where
  start_word_idx : ℤ
  end_word_idx : ℤ
  edit_cost : ℚ
  confidence : ℚ
  j_start : ℤ
  best_j : ℕ
  basmala_consumed : Bool
deriving DecidableEq, Repr

/-- Python 3 `round()`: round half to even. -/
def pyRound (q : ℚ) : ℤ :=
  if q - ⌊q⌋ < 1/2 then ⌊q⌋
  else if 1/2 < q - ⌊q⌋ then ⌊q⌋ + 1
  else if ⌊q⌋ % 2 = 0 then ⌊q⌋ else ⌊q⌋ + 1

/-- Python list indexing for `List ℕ` (negative index counts from the
end, out of range gives the default 0). -/
def pyGetN (l : List ℕ) (i : ℤ) : ℕ :=
  if i < 0 then l.getD (l.length - i.natAbs) 0 else l.getD i.toNat 0

/-- `win_start = max(0, pointer - lb)` in `align_segment`. -/
def segWinStart (pointer : ℤ) (lbo : Option ℤ) : ℤ :=
  max 0 (pointer - lbo.getD (LOOKBACK_WORDS : ℤ))

/-- `win_end = min(num_words, pointer + est_words + la)` in
`align_segment`, with `est_words = max(1, round(m / avg_phones))`. -/
def segWinEnd (cr : ChapterReference) (m : ℕ) (pointer : ℤ) (lao : Option ℤ) : ℤ :=
  min (cr.num_words : ℤ)
    (pointer + max 1 (pyRound ((m : ℚ) / cr.avg_phones_per_word))
      + lao.getD (LOOKAHEAD_WORDS : ℤ))

/-- `R = chapter_ref.flat_phonemes[phone_start:phone_end]`. -/
def segRwin (cr : ChapterReference) (ws we : ℤ) : List String :=
  (cr.flat_phonemes.drop (pyGetN cr.word_phone_offsets ws)).take
    (pyGetN cr.word_phone_offsets we - pyGetN cr.word_phone_offsets ws)

/-- `R_phone_to_word = chapter_ref.flat_phone_to_word[phone_start:phone_end]`. -/
def segP2Wwin (cr : ChapterReference) (ws we : ℤ) : List ℤ :=
  (cr.flat_phone_to_word.drop (pyGetN cr.word_phone_offsets ws)).take
    (pyGetN cr.word_phone_offsets we - pyGetN cr.word_phone_offsets ws)

/-- The reference window with the optional Basmala phoneme prelude. -/
def segRall (cr : ChapterReference) (ws we : ℤ) (bp : Bool) : List String :=
  if bp then basmalaPhonemes ++ segRwin cr ws we else segRwin cr ws we

/-- The word map with `-1` sentinels for the Basmala prelude. -/
def segP2Wall (cr : ChapterReference) (ws we : ℤ) (bp : Bool) : List ℤ :=
  if bp then basmalaPhonemes.map (fun _ => (-1 : ℤ)) ++ segP2Wwin cr ws we
  else segP2Wwin cr ws we

/-- Steps 6–7 of `align_segment`: map phoneme indices to word indices and
resolve a `-1` sentinel start through the first real word of the match
(the Python `for…else` loop), rejecting a match that is Basmala only. -/
def alignSegResolve (p2w : List ℤ) (best_j : ℕ) (j_start : ℤ)
    (best_cost norm_dist : ℚ) (bp : Bool) : Option AlignmentResult :=
  if bp = true ∧ pyGetZ p2w j_start = -1 then
    match (List.range' j_start.toNat (best_j - j_start.toNat)).find?
        (fun k : ℕ => pyGetZ p2w (k : ℤ) != -1) with
    | some k =>
      some ⟨pyGetZ p2w (k : ℤ), pyGetZ p2w ((best_j : ℤ) - 1), best_cost,
            1 - norm_dist, j_start, best_j, true⟩
    | none => none
  else
    some ⟨pyGetZ p2w j_start, pyGetZ p2w ((best_j : ℤ) - 1), best_cost,
          1 - norm_dist, j_start, best_j, false⟩

/-- `align_segment` from `phoneme_matcher.py`.  `bp` is the
`basmala_prefix` keyword, the three `Option` arguments are the
`lookback/lookahead/max_edit_distance` overrides; `segment_idx` (debug
output only) and the timing dict are dropped. -/
def align_segment (tbl : String → String → Option ℚ)
    (asr_phonemes : List String) (chapter_ref : ChapterReference)
    (pointer : ℤ) (bp : Bool) (lookback_override lookahead_override : Option ℤ)
    (max_edit_distance_override : Option ℚ) : Option AlignmentResult :=
  if asr_phonemes.length = 0 then none
  else if (chapter_ref.num_words : ℤ) ≤ segWinStart pointer lookback_override then none
  else if segRall chapter_ref (segWinStart pointer lookback_override)
      (segWinEnd chapter_ref asr_phonemes.length pointer lookahead_override) bp
      = [] then none
  else
    match align_with_word_boundaries tbl asr_phonemes
        (segRall chapter_ref (segWinStart pointer lookback_override)
          (segWinEnd chapter_ref asr_phonemes.length pointer lookahead_override) bp)
        (segP2Wall chapter_ref (segWinStart pointer lookback_override)
          (segWinEnd chapter_ref asr_phonemes.length pointer lookahead_override) bp)
        pointer START_PRIOR_WEIGHT COST_SUBSTITUTION COST_DELETION COST_INSERTION with
    | none => none
    | some (best_j, j_start, best_cost, norm_dist) =>
      if max_edit_distance_override.getD MAX_EDIT_DISTANCE < norm_dist then none
      else
        alignSegResolve
          (segP2Wall chapter_ref (segWinStart pointer lookback_override)
            (segWinEnd chapter_ref asr_phonemes.length pointer lookahead_override) bp)
          best_j j_start best_cost norm_dist bp

theorem flatP2WGo_length (ws : List RefWord) :
    ∀ i, (flatP2WGo i ws).length = ((ws.map (fun w => w.phonemes.length)).sum) := by
  induction ws with
  | nil => intro i; simp [flatP2WGo]
  | cons x xs ih => intro i; simp [flatP2WGo, ih]

theorem flat_phonemes_length (ws : List RefWord) :
    ((ws.map (fun w => w.phonemes)).flatten).length
      = ((ws.map (fun w => w.phonemes.length)).sum) := by
  induction ws with
  | nil => simp
  | cons x xs ih => simp [ih]

theorem flatP2WGo_mem (ws : List RefWord) :
    ∀ i v, v ∈ flatP2WGo i ws → (i : ℤ) ≤ v ∧ v < (i : ℤ) + ws.length := by
  induction ws with
  | nil => intro i v hv; simp [flatP2WGo] at hv
  | cons x xs ih =>
    intro i v hv
    rw [flatP2WGo, List.mem_append] at hv
    rcases hv with hv | hv
    · obtain ⟨_, _, rfl⟩ := List.mem_map.mp hv
      constructor
      · exact le_refl _
      · have : (0 : ℤ) < (xs.length : ℤ) + 1 := by positivity
        simp only [List.length_cons]
        push_cast
        omega
    · obtain ⟨h1, h2⟩ := ih (i + 1) v hv
      constructor
      · omega
      · simp only [List.length_cons]
        push_cast at h2 ⊢
        omega

theorem flatP2WGo_pairwise (ws : List RefWord) :
    ∀ i, (flatP2WGo i ws).Pairwise (· ≤ ·) := by
  induction ws with
  | nil => intro i; simp [flatP2WGo]
  | cons x xs ih =>
    intro i
    rw [flatP2WGo, List.pairwise_append]
    refine ⟨?_, ih (i + 1), ?_⟩
    · induction x.phonemes with
      | nil => simp
      | cons y ys ihy =>
        rw [List.map_cons, List.pairwise_cons]
        refine ⟨?_, ihy⟩
        intro b hb
        obtain ⟨_, _, rfl⟩ := List.mem_map.mp hb
        exact le_refl _
    · intro a ha b hb
      obtain ⟨_, _, rfl⟩ := List.mem_map.mp ha
      have := (flatP2WGo_mem xs (i + 1) b hb).1
      omega

theorem offsetsGo_getD (ws : List RefWord) :
    ∀ acc w, w ≤ ws.length →
      (offsetsGo acc ws).getD w 0
        = acc + ((ws.take w).map (fun x => x.phonemes.length)).sum := by
  induction ws with
  | nil =>
    intro acc w hw
    have hw0 : w = 0 := by simpa using hw
    subst hw0
    simp [offsetsGo]
  | cons x xs ih =>
    intro acc w hw
    cases w with
    | zero => simp [offsetsGo]
    | succ w' =>
      rw [offsetsGo]
      have := ih (acc + x.phonemes.length) w' (by simpa using hw)
      simp only [List.getD_cons_succ, this, List.take_succ_cons, List.map_cons,
        List.sum_cons]
      omega

theorem flatP2WGo_drop (ws : List RefWord) :
    ∀ i w, (flatP2WGo i ws).drop (((ws.take w).map (fun x => x.phonemes.length)).sum)
      = flatP2WGo (i + w) (ws.drop w) := by
  induction ws with
  | nil => intro i w; simp [flatP2WGo]
  | cons x xs ih =>
    intro i w
    cases w with
    | zero => simp
    | succ w' =>
      rw [List.take_succ_cons, List.map_cons, List.sum_cons, flatP2WGo,
        List.drop_succ_cons]
      have hlen : (x.phonemes.map (fun _ => (i : ℤ))).length = x.phonemes.length := by
        simp
      rw [show x.phonemes.length + ((xs.take w').map (fun x => x.phonemes.length)).sum
            = (x.phonemes.map (fun _ => (i : ℤ))).length
              + ((xs.take w').map (fun x => x.phonemes.length)).sum from by rw [hlen],
        List.drop_append, ih (i + 1) w']
      congr 1
      omega

theorem sorted_getD_mono (l : List ℤ) (hs : l.Pairwise (· ≤ ·)) (i k : ℕ)
    (hik : i ≤ k) (hk : k < l.length) : l.getD i 0 ≤ l.getD k 0 := by
  rcases eq_or_lt_of_le hik with rfl | hlt
  · exact le_refl _
  · have hi : i < l.length := lt_trans hlt hk
    rw [List.getD_eq_getElem l 0 hi, List.getD_eq_getElem l 0 hk]
    exact List.pairwise_iff_get.mp hs ⟨i, hi⟩ ⟨k, hk⟩ hlt

theorem getD_mem_int (l : List ℤ) (k : ℕ) (hk : k < l.length) :
    l.getD k 0 ∈ l := by
  rw [List.getD_eq_getElem l 0 hk]
  exact List.getElem_mem hk

theorem pyGetZ_nonneg_idx (l : List ℤ) (i : ℤ) (h : 0 ≤ i) :
    pyGetZ l i = l.getD i.toNat 0 := by
  simp [pyGetZ, not_lt.mpr h]

theorem pyGetZ_natCast (l : List ℤ) (k : ℕ) :
    pyGetZ l (k : ℤ) = l.getD k 0 := by
  simp [pyGetZ]

theorem segP2Wwin_eq (sn : ℕ) (words : List RefWord) (ws we : ℤ)
    (h0 : 0 ≤ ws) (hle : ws.toNat ≤ words.length) :
    segP2Wwin (build_chapter_reference sn words) ws we
      = (flatP2WGo ws.toNat (words.drop ws.toNat)).take
          (pyGetN (offsetsGo 0 words) we - pyGetN (offsetsGo 0 words) ws) := by
  have hofs : pyGetN (offsetsGo 0 words) ws
      = ((words.take ws.toNat).map (fun x => x.phonemes.length)).sum := by
    rw [pyGetN, if_neg (not_lt.mpr h0), offsetsGo_getD words 0 ws.toNat hle]
    omega
  rw [segP2Wwin, build_chapter_reference]
  simp only []
  rw [hofs, flatP2WGo_drop words 0 ws.toNat]
  rw [show (0 + ws.toNat) = ws.toNat from by omega, ← hofs]

theorem segP2Wwin_mem (sn : ℕ) (words : List RefWord) (ws we : ℤ)
    (h0 : 0 ≤ ws) (hlt : ws < (words.length : ℤ)) :
    ∀ v ∈ segP2Wwin (build_chapter_reference sn words) ws we,
      ws ≤ v ∧ v < (words.length : ℤ) := by
  intro v hv
  have hle : ws.toNat ≤ words.length := by omega
  rw [segP2Wwin_eq sn words ws we h0 hle] at hv
  have hv' := List.mem_of_mem_take hv
  have := flatP2WGo_mem (words.drop ws.toNat) ws.toNat v hv'
  simp only [List.length_drop] at this
  have htn : (ws.toNat : ℤ) = ws := Int.toNat_of_nonneg h0
  omega

theorem segP2Wwin_pairwise (cr : ChapterReference)
    (hcr : cr.flat_phone_to_word.Pairwise (· ≤ ·)) (ws we : ℤ) :
    (segP2Wwin cr ws we).Pairwise (· ≤ ·) := by
  rw [segP2Wwin]
  exact hcr.sublist ((List.take_sublist _ _).trans (List.drop_sublist _ _))

theorem segP2Wwin_length_eq (sn : ℕ) (words : List RefWord) (ws we : ℤ) :
    (segP2Wwin (build_chapter_reference sn words) ws we).length
      = (segRwin (build_chapter_reference sn words) ws we).length := by
  have hmm : (List.map (List.length ∘ fun w => w.phonemes) words).sum
      = (List.map (fun w : RefWord => w.phonemes.length) words).sum := by
    congr 1
  simp [segP2Wwin, segRwin, build_chapter_reference, flatP2WGo_length,
    flat_phonemes_length, hmm]

theorem segP2Wall_length_eq (sn : ℕ) (words : List RefWord) (ws we : ℤ) (bp : Bool) :
    (segP2Wall (build_chapter_reference sn words) ws we bp).length
      = (segRall (build_chapter_reference sn words) ws we bp).length := by
  cases bp <;>
    simp [segP2Wall, segRall, segP2Wwin_length_eq]

theorem segP2Wall_mem (sn : ℕ) (words : List RefWord) (ws we : ℤ) (bp : Bool)
    (h0 : 0 ≤ ws) (hlt : ws < (words.length : ℤ)) :
    ∀ v ∈ segP2Wall (build_chapter_reference sn words) ws we bp,
      (bp = true ∧ v = -1) ∨ (ws ≤ v ∧ v < (words.length : ℤ)) := by
  intro v hv
  cases bp with
  | false =>
    exact Or.inr (segP2Wwin_mem sn words ws we h0 hlt v (by simpa [segP2Wall] using hv))
  | true =>
    rw [segP2Wall] at hv
    simp only [if_pos] at hv
    rcases List.mem_append.mp hv with hv | hv
    · obtain ⟨_, _, rfl⟩ := List.mem_map.mp hv
      exact Or.inl ⟨rfl, rfl⟩
    · exact Or.inr (segP2Wwin_mem sn words ws we h0 hlt v hv)

theorem segP2Wall_pairwise (sn : ℕ) (words : List RefWord) (ws we : ℤ) (bp : Bool)
    (h0 : 0 ≤ ws) (hlt : ws < (words.length : ℤ)) :
    (segP2Wall (build_chapter_reference sn words) ws we bp).Pairwise (· ≤ ·) := by
  have hwin : (segP2Wwin (build_chapter_reference sn words) ws we).Pairwise (· ≤ ·) := by
    refine segP2Wwin_pairwise _ ?_ ws we
    exact flatP2WGo_pairwise words 0
  cases bp with
  | false => simpa [segP2Wall] using hwin
  | true =>
    rw [segP2Wall, if_pos rfl, List.pairwise_append]
    refine ⟨?_, hwin, ?_⟩
    · induction basmalaPhonemes with
      | nil => simp
      | cons y ys ihy =>
        rw [List.map_cons, List.pairwise_cons]
        refine ⟨?_, ihy⟩
        intro b hb
        obtain ⟨_, _, rfl⟩ := List.mem_map.mp hb
        exact le_refl _
    · intro a ha b hb
      obtain ⟨_, _, rfl⟩ := List.mem_map.mp ha
      have := (segP2Wwin_mem sn words ws we h0 hlt b hb).1
      omega

theorem align_args_ne_zero {tbl : String → String → Option ℚ}
    {P R : List String} {p2w : List ℤ} {ew : ℤ} {w cs cd ci : ℚ}
    {x : ℕ × ℤ × ℚ × ℚ}
    (h : align_with_word_boundaries tbl P R p2w ew w cs cd ci = some x) :
    P.length ≠ 0 ∧ R.length ≠ 0 := by
  by_cases hmn : P.length = 0 ∨ R.length = 0
  · rw [align_with_word_boundaries, if_pos hmn] at h
    exact absurd h (by simp)
  · push_neg at hmn
    exact hmn

theorem alignDP_bounds (tbl : String → String → Option ℚ)
    (htbl : ∀ p r q, tbl p r = some q → 0 ≤ q)
    (P R : List String) (p2w : List ℤ) (ew : ℤ) (t : ℚ)
    (j : ℕ) (js : ℤ) (c nd : ℚ)
    (h : align_with_word_boundaries tbl P R p2w ew START_PRIOR_WEIGHT
          COST_SUBSTITUTION COST_DELETION COST_INSERTION = some (j, js, c, nd))
    (hnd : nd ≤ t) (ht : t < COST_DELETION) :
    0 ≤ js ∧ js < (j : ℤ) ∧ 1 ≤ j ∧ j ≤ R.length ∧ 0 ≤ c ∧ 0 ≤ nd := by
  have hm := (align_args_ne_zero h).1
  obtain ⟨hj1, hjn, score, hcand, _⟩ :=
    align_result_spec tbl P R p2w ew START_PRIOR_WEIGHT COST_SUBSTITUTION
      COST_DELETION COST_INSERTION j js c nd h
  obtain ⟨hend, hcost, hstart, hndf, _⟩ := candOf_eq_some hcand
  dsimp only at hcost hstart hndf
  have hsub : ∀ p r, 0 ≤ get_sub_cost tbl p r COST_SUBSTITUTION := by
    intro p r
    rw [get_sub_cost]
    split
    · exact le_refl 0
    · cases htb : tbl p r with
      | none => norm_num [COST_SUBSTITUTION]
      | some q => simpa [htb] using htbl p r q htb
  have hgen := dpFinal_inv_gen tbl COST_DELETION COST_INSERTION COST_SUBSTITUTION
    P R p2w R.length (by norm_num [COST_DELETION]) (by norm_num [COST_INSERTION])
    hsub j c hcost
  rw [hstart] at hgen
  obtain ⟨hjs0, hjsle, _, hdiag, hc0⟩ := hgen
  have hdenom : (0 : ℚ) < max (P.length : ℚ) (max ((((j : ℤ) - js : ℤ)) : ℚ) 1) := by
    have : (0 : ℚ) < 1 := by norm_num
    exact lt_of_lt_of_le this (le_trans (le_max_right _ _) (le_max_right _ _))
  have hnd0 : 0 ≤ nd := by
    rw [hndf]
    exact div_nonneg hc0 (le_of_lt hdenom)
  refine ⟨hjs0, ?_, hj1, hjn, hc0, hnd0⟩
  rcases lt_or_eq_of_le hjsle with hlt | heq
  · exact hlt
  · exfalso
    have hcval : c = (P.length : ℚ) * COST_DELETION := hdiag heq
    have hm1 : (1 : ℚ) ≤ (P.length : ℚ) := by
      have : 1 ≤ P.length := Nat.one_le_iff_ne_zero.mpr hm
      exact_mod_cast this
    have hdeq : max (P.length : ℚ) (max ((((j : ℤ) - js : ℤ)) : ℚ) 1) = (P.length : ℚ) := by
      rw [heq]
      simp only [sub_self, Int.cast_zero]
      rw [max_eq_right (by norm_num : (0 : ℚ) ≤ 1), max_eq_left hm1]
    have hndc : nd = COST_DELETION := by
      rw [hndf, hdeq, hcval, mul_comm, mul_div_assoc, div_self (by linarith), mul_one]
    rw [hndc] at hnd
    linarith

theorem align_segment_eq_some (tbl : String → String → Option ℚ)
    (htbl : ∀ p r q, tbl p r = some q → 0 ≤ q)
    (asr : List String) (cr : ChapterReference) (pointer : ℤ) (bp : Bool)
    (lbo lao : Option ℤ) (mo : Option ℚ) (res : AlignmentResult)
    (hthr : mo.getD MAX_EDIT_DISTANCE < COST_DELETION)
    (h : align_segment tbl asr cr pointer bp lbo lao mo = some res) :
    ∃ j js c nd,
      align_with_word_boundaries tbl asr
        (segRall cr (segWinStart pointer lbo) (segWinEnd cr asr.length pointer lao) bp)
        (segP2Wall cr (segWinStart pointer lbo) (segWinEnd cr asr.length pointer lao) bp)
        pointer START_PRIOR_WEIGHT COST_SUBSTITUTION COST_DELETION COST_INSERTION
        = some (j, js, c, nd)
      ∧ segWinStart pointer lbo < (cr.num_words : ℤ)
      ∧ nd ≤ mo.getD MAX_EDIT_DISTANCE
      ∧ 0 ≤ js ∧ js < (j : ℤ) ∧ 1 ≤ j
      ∧ j ≤ (segRall cr (segWinStart pointer lbo)
              (segWinEnd cr asr.length pointer lao) bp).length
      ∧ 0 ≤ c ∧ 0 ≤ nd
      ∧ res.edit_cost = c ∧ res.confidence = 1 - nd
      ∧ res.j_start = js ∧ res.best_j = j
      ∧ res.end_word_idx
          = pyGetZ (segP2Wall cr (segWinStart pointer lbo)
              (segWinEnd cr asr.length pointer lao) bp) ((j : ℤ) - 1)
      ∧ ((res.basmala_consumed = false
            ∧ res.start_word_idx
                = pyGetZ (segP2Wall cr (segWinStart pointer lbo)
                    (segWinEnd cr asr.length pointer lao) bp) js
            ∧ ¬(bp = true
                ∧ pyGetZ (segP2Wall cr (segWinStart pointer lbo)
                    (segWinEnd cr asr.length pointer lao) bp) js = -1))
        ∨ (res.basmala_consumed = true ∧ bp = true
            ∧ pyGetZ (segP2Wall cr (segWinStart pointer lbo)
                (segWinEnd cr asr.length pointer lao) bp) js = -1
            ∧ ∃ k, k ∈ List.range' js.toNat (j - js.toNat)
                ∧ pyGetZ (segP2Wall cr (segWinStart pointer lbo)
                    (segWinEnd cr asr.length pointer lao) bp) (k : ℤ) ≠ -1
                ∧ res.start_word_idx
                    = pyGetZ (segP2Wall cr (segWinStart pointer lbo)
                        (segWinEnd cr asr.length pointer lao) bp) (k : ℤ))) := by
  rw [align_segment] at h
  split_ifs at h with h1 h2 h3
  rcases halign : align_with_word_boundaries tbl asr
      (segRall cr (segWinStart pointer lbo) (segWinEnd cr asr.length pointer lao) bp)
      (segP2Wall cr (segWinStart pointer lbo) (segWinEnd cr asr.length pointer lao) bp)
      pointer START_PRIOR_WEIGHT COST_SUBSTITUTION COST_DELETION COST_INSERTION
    with _ | ⟨j, js, c, nd⟩
  · rw [halign] at h
    exact absurd h (by simp)
  · rw [halign] at h
    simp only [] at h
    by_cases hth : mo.getD MAX_EDIT_DISTANCE < nd
    · rw [if_pos hth] at h
      exact absurd h (by simp)
    · rw [if_neg hth] at h
      push_neg at hth
      obtain ⟨hjs0, hjslt, hj1, hjn, hc0, hnd0⟩ :=
        alignDP_bounds tbl htbl asr _ _ pointer (mo.getD MAX_EDIT_DISTANCE)
          j js c nd halign hth hthr
      refine ⟨j, js, c, nd, rfl, by omega, hth, hjs0, hjslt, hj1, hjn, hc0, hnd0, ?_⟩
      rw [alignSegResolve] at h
      by_cases hsen : bp = true
          ∧ pyGetZ (segP2Wall cr (segWinStart pointer lbo)
              (segWinEnd cr asr.length pointer lao) bp) js = -1
      · rw [if_pos hsen] at h
        rcases hfind : (List.range' js.toNat (j - js.toNat)).find?
            (fun k : ℕ => pyGetZ (segP2Wall cr (segWinStart pointer lbo)
                (segWinEnd cr asr.length pointer lao) bp) (k : ℤ) != -1)
          with _ | k
        · rw [hfind] at h
          exact absurd h (by simp)
        · rw [hfind] at h
          have hres := (Option.some.inj h).symm
          subst hres
          refine ⟨rfl, rfl, rfl, rfl, rfl, Or.inr ⟨rfl, hsen.1, hsen.2, k,
            List.mem_of_find?_eq_some hfind, ?_, rfl⟩⟩
          have := List.find?_some hfind
          simpa using this
      · rw [if_neg hsen] at h
        have hres := (Option.some.inj h).symm
        subst hres
        exact ⟨rfl, rfl, rfl, rfl, rfl, Or.inl ⟨rfl, rfl, hsen⟩⟩

theorem align_segment_build_bounds (tbl : String → String → Option ℚ)
    (htbl : ∀ p r q, tbl p r = some q → 0 ≤ q)
    (sn : ℕ) (words : List RefWord) (P : List String) (pointer : ℤ) (bp : Bool)
    (lbo lao : Option ℤ) (mo : Option ℚ) (res : AlignmentResult)
    (hthr : mo.getD MAX_EDIT_DISTANCE < COST_DELETION)
    (h : align_segment tbl P (build_chapter_reference sn words) pointer bp lbo lao mo
          = some res) :
    segWinStart pointer lbo ≤ res.start_word_idx
    ∧ 0 ≤ res.start_word_idx
    ∧ res.start_word_idx ≤ res.end_word_idx
    ∧ res.end_word_idx < (words.length : ℤ) := by
  obtain ⟨j, js, c, nd, halign, hwlt, hth, hjs0, hjslt, hj1, hjn, hc0, hnd0,
    hec, hcf, hjseq, hbj, hend, hcase⟩ :=
    align_segment_eq_some tbl htbl P (build_chapter_reference sn words)
      pointer bp lbo lao mo res hthr h
  have hnw : ((build_chapter_reference sn words).num_words : ℤ) = (words.length : ℤ) := by
    simp [build_chapter_reference, ChapterReference.num_words]
  rw [hnw] at hwlt
  have h0 : (0 : ℤ) ≤ segWinStart pointer lbo := by
    rw [segWinStart]
    exact le_max_left 0 _
  have hplen : (segP2Wall (build_chapter_reference sn words) (segWinStart pointer lbo)
      (segWinEnd (build_chapter_reference sn words) P.length pointer lao) bp).length
      = (segRall (build_chapter_reference sn words) (segWinStart pointer lbo)
          (segWinEnd (build_chapter_reference sn words) P.length pointer lao) bp).length :=
    segP2Wall_length_eq sn words _ _ bp
  set p2w := segP2Wall (build_chapter_reference sn words) (segWinStart pointer lbo)
    (segWinEnd (build_chapter_reference sn words) P.length pointer lao) bp with hp2w
  have hjlen : j ≤ p2w.length := by omega
  have hsorted : p2w.Pairwise (· ≤ ·) :=
    segP2Wall_pairwise sn words _ _ bp h0 hwlt
  have hmem := segP2Wall_mem sn words _
    (segWinEnd (build_chapter_reference sn words) P.length pointer lao) bp h0 hwlt
  have htj1 : ((j : ℤ) - 1).toNat = j - 1 := by omega
  have hj1lt : j - 1 < p2w.length := by omega
  have hendD : res.end_word_idx = p2w.getD (j - 1) 0 := by
    rw [hend, pyGetZ_nonneg_idx _ _ (by omega : (0:ℤ) ≤ (j : ℤ) - 1), htj1]
  have hemem := hmem _ (getD_mem_int p2w (j - 1) hj1lt)
  rcases hcase with ⟨_, hstartD, hne⟩ | ⟨_, hbpt, _, k, hkmem, hkne, hstartD⟩
  · have hjsj : js.toNat < j := by omega
    have hstart : res.start_word_idx = p2w.getD js.toNat 0 := by
      rw [hstartD, pyGetZ_nonneg_idx _ _ hjs0]
    have hsmem := hmem _ (getD_mem_int p2w js.toNat (by omega))
    rcases hsmem with ⟨hbpt, hm1⟩ | ⟨hge, _⟩
    · exact absurd ⟨hbpt, by rw [pyGetZ_nonneg_idx _ _ hjs0]; exact hm1⟩ hne
    · have hse : p2w.getD js.toNat 0 ≤ p2w.getD (j - 1) 0 :=
        sorted_getD_mono p2w hsorted js.toNat (j - 1) (by omega) hj1lt
      have hA : segWinStart pointer lbo ≤ res.start_word_idx := by
        rw [hstart]; exact hge
      have hB : res.start_word_idx ≤ res.end_word_idx := by
        rw [hstart, hendD]; exact hse
      rcases hemem with ⟨_, hm1⟩ | ⟨_, hlt3⟩
      · exfalso; omega
      · exact ⟨hA, by omega, hB, by rw [hendD]; exact hlt3⟩
  · have hk := List.mem_range'_1.mp hkmem
    have hkj : k < j := by omega
    have hstart : res.start_word_idx = p2w.getD k 0 := by
      rw [hstartD, pyGetZ_natCast]
    have hsmem := hmem _ (getD_mem_int p2w k (by omega))
    rcases hsmem with ⟨_, hm1⟩ | ⟨hge, _⟩
    · exact absurd (by rw [pyGetZ_natCast]; exact hm1) hkne
    · have hse : p2w.getD k 0 ≤ p2w.getD (j - 1) 0 :=
        sorted_getD_mono p2w hsorted k (j - 1) (by omega) hj1lt
      have hA : segWinStart pointer lbo ≤ res.start_word_idx := by
        rw [hstart]; exact hge
      have hB : res.start_word_idx ≤ res.end_word_idx := by
        rw [hstart, hendD]; exact hse
      rcases hemem with ⟨_, hm1⟩ | ⟨_, hlt3⟩
      · exfalso; omega
      · exact ⟨hA, by omega, hB, by rw [hendD]; exact hlt3⟩

/-- **C4 (counterexample).** On the two-word chapter `["b"],["c"]` with
ASR phonemes `["x"]` and a `max_edit_distance_override` of `1`
(≥ `COST_DELETION`), `align_segment` accepts the empty reference match
ending at column 1 (`norm_dist = COST_DELETION = 4/5 ≤ 1`) and returns
`start_word_idx = 1 > end_word_idx = 0`: the claimed invariant
`start_word_idx ≤ end_word_idx` fails. -/
theorem C4_counterexample :
    align_segment (fun _ _ => none) ["x"]
      (build_chapter_reference 1
        [⟨"b", ["b"], 1, 1, 1⟩, ⟨"c", ["c"], 1, 1, 2⟩]) 0 false none none (some 1)
      = some ⟨1, 0, 4/5, 1/5, 1, 1, false⟩
    ∧ ¬((⟨1, 0, 4/5, 1/5, 1, 1, false⟩ : AlignmentResult).start_word_idx
        ≤ (⟨1, 0, 4/5, 1/5, 1, 1, false⟩ : AlignmentResult).end_word_idx) := by
  constructor
  · have h1 : segWinStart 0 none = 0 := by
      norm_num [segWinStart, LOOKBACK_WORDS]
    have h2 : segWinEnd (build_chapter_reference 1
        [⟨"b", ["b"], 1, 1, 1⟩, ⟨"c", ["c"], 1, 1, 2⟩]) 1 0 none = 2 := by
      norm_num [segWinEnd, build_chapter_reference, ChapterReference.num_words,
        pyRound, LOOKAHEAD_WORDS,
        show ([⟨"b", ["b"], 1, 1, 1⟩, ⟨"c", ["c"], 1, 1, 2⟩] : List RefWord) = [] ↔ False
          from by simp]
    have h3 : segRall (build_chapter_reference 1
        [⟨"b", ["b"], 1, 1, 1⟩, ⟨"c", ["c"], 1, 1, 2⟩]) 0 2 false = ["b", "c"] := by
      norm_num [segRall, segRwin, build_chapter_reference, pyGetN, offsetsGo,
        show Int.toNat 2 = 2 from rfl, show Int.toNat 0 = 0 from rfl, List.getD]
    have h4 : segP2Wall (build_chapter_reference 1
        [⟨"b", ["b"], 1, 1, 1⟩, ⟨"c", ["c"], 1, 1, 2⟩]) 0 2 false = [0, 1] := by
      norm_num [segP2Wall, segP2Wwin, build_chapter_reference, pyGetN, offsetsGo,
        flatP2WGo, show Int.toNat 2 = 2 from rfl, show Int.toNat 0 = 0 from rfl,
        List.getD]
    have h5 : align_with_word_boundaries (fun _ _ => none) ["x"] ["b", "c"] [0, 1] 0
        START_PRIOR_WEIGHT COST_SUBSTITUTION COST_DELETION COST_INSERTION
        = some (1, 1, 4/5, 4/5) := by
      norm_num [align_with_word_boundaries, selectBest, selStep, candOf, dpFinal,
        dpRows, dpRow, dpInit, isStartBoundary, isEndBoundary, get_sub_cost, pyGetZ,
        List.range', costAdd, costLe, START_PRIOR_WEIGHT, COST_SUBSTITUTION,
        COST_DELETION, COST_INSERTION,
        show ("x" = "b") = False from by simp, show ("x" = "c") = False from by simp]
    have h0 : (build_chapter_reference 1
        [⟨"b", ["b"], 1, 1, 1⟩, ⟨"c", ["c"], 1, 1, 2⟩]).num_words = 2 := rfl
    have hlen : (["x"] : List String).length = 1 := rfl
    rw [align_segment]
    simp only [hlen, h1, h2, h3, h4, h0]
    norm_num [h5, alignSegResolve, pyGetZ, MAX_EDIT_DISTANCE]
    intro hx
    exact absurd hx (by simp)
  · decide

/-- **C4 (amended).** For every `AlignmentResult` returned by
`align_segment` on a built chapter reference, *provided the acceptance
threshold in effect is below `COST_DELETION`* (the default `0.25` and the
relaxed `0.5` both are; `C4_counterexample` shows the bound is needed),
`0 ≤ start_word_idx ≤ end_word_idx < |chapter_ref.words|`, so indexing
`chapter_ref.words` at both indices is in bounds. -/
theorem C4_amended_index_bounds (tbl : String → String → Option ℚ)
    (htbl : ∀ p r q, tbl p r = some q → 0 ≤ q)
    (sn : ℕ) (words : List RefWord) (P : List String) (pointer : ℤ) (bp : Bool)
    (lbo lao : Option ℤ) (mo : Option ℚ) (res : AlignmentResult)
    (hthr : mo.getD MAX_EDIT_DISTANCE < COST_DELETION)
    (h : align_segment tbl P (build_chapter_reference sn words) pointer bp lbo lao mo
          = some res) :
    0 ≤ res.start_word_idx ∧ res.start_word_idx ≤ res.end_word_idx
      ∧ res.end_word_idx < (words.length : ℤ) :=
  have b := align_segment_build_bounds tbl htbl sn words P pointer bp lbo lao mo res
    hthr h
  ⟨b.2.1, b.2.2.1, b.2.2.2⟩

/-- Witness for C4 (amended) on the one-word chapter `["a"]`. -/
theorem C4_amended_index_bounds_witness :
    0 ≤ (⟨0, 0, 0, 1, 0, 1, false⟩ : AlignmentResult).start_word_idx
    ∧ (⟨0, 0, 0, 1, 0, 1, false⟩ : AlignmentResult).start_word_idx
        ≤ (⟨0, 0, 0, 1, 0, 1, false⟩ : AlignmentResult).end_word_idx
    ∧ (⟨0, 0, 0, 1, 0, 1, false⟩ : AlignmentResult).end_word_idx
        < (([⟨"a", ["a"], 1, 1, 1⟩] : List RefWord).length : ℤ) :=
  C4_amended_index_bounds (fun _ _ => none) (fun _ _ _ hq => absurd hq (by simp))
    1 [⟨"a", ["a"], 1, 1, 1⟩] ["a"] 0 false none none none ⟨0, 0, 0, 1, 0, 1, false⟩
    (by norm_num [Option.getD_none, MAX_EDIT_DISTANCE, COST_DELETION])
    (by
      have h1 : segWinStart 0 none = 0 := by
        norm_num [segWinStart, LOOKBACK_WORDS]
      have h2 : segWinEnd (build_chapter_reference 1 [⟨"a", ["a"], 1, 1, 1⟩]) 1 0 none
          = 1 := by
        norm_num [segWinEnd, build_chapter_reference, ChapterReference.num_words,
          pyRound, LOOKAHEAD_WORDS,
          show ([⟨"a", ["a"], 1, 1, 1⟩] : List RefWord) = [] ↔ False from by simp]
      have h3 : segRall (build_chapter_reference 1 [⟨"a", ["a"], 1, 1, 1⟩]) 0 1 false
          = ["a"] := by
        norm_num [segRall, segRwin, build_chapter_reference, pyGetN, offsetsGo,
          show Int.toNat 1 = 1 from rfl, show Int.toNat 0 = 0 from rfl, List.getD]
      have h4 : segP2Wall (build_chapter_reference 1 [⟨"a", ["a"], 1, 1, 1⟩]) 0 1 false
          = [0] := by
        norm_num [segP2Wall, segP2Wwin, build_chapter_reference, pyGetN, offsetsGo,
          flatP2WGo, show Int.toNat 1 = 1 from rfl, show Int.toNat 0 = 0 from rfl,
          List.getD]
      have h5 : align_with_word_boundaries (fun _ _ => none) ["a"] ["a"] [0] 0
          START_PRIOR_WEIGHT COST_SUBSTITUTION COST_DELETION COST_INSERTION
          = some (1, 0, 0, 0) := by
        norm_num [align_with_word_boundaries, selectBest, selStep, candOf, dpFinal,
          dpRows, dpRow, dpInit, isStartBoundary, isEndBoundary, get_sub_cost, pyGetZ,
          List.range', costAdd, costLe, START_PRIOR_WEIGHT, COST_SUBSTITUTION,
          COST_DELETION, COST_INSERTION]
      have h0 : (build_chapter_reference 1 [⟨"a", ["a"], 1, 1, 1⟩]).num_words = 1 := rfl
      have hlen : (["a"] : List String).length = 1 := rfl
      rw [align_segment]
      simp only [hlen, h1, h2, h3, h4, h0]
      norm_num [h5, alignSegResolve, pyGetZ, MAX_EDIT_DISTANCE, Option.getD_none])

theorem getD_map_const {α : Type} (l : List α) (c : ℤ) (n : ℕ) (hn : n < l.length) :
    (l.map (fun _ => c)).getD n 0 = c := by
  have hn' : n < (l.map (fun _ => c)).length := by simpa using hn
  rw [List.getD_eq_getElem _ _ hn', List.getElem_map]

theorem basmala_sentinel_length :
    (basmalaPhonemes.map (fun _ => (-1 : ℤ))).length = 21 := by
  simp [basmalaPhonemes]

/-- **C10.** With `basmala_prefix = True` and an acceptance threshold
below `COST_DELETION`: (1) every `AlignmentResult` returned by
`align_segment` starts at a real chapter word (`start_word_idx ≥ 0`) and
its `basmala_consumed` flag is true exactly when the match starts inside
the prepended 21-phoneme Basmala prefix (`j_start < 21`); (2) if the
DP's best match lies entirely within the prefix (every matched column
carries the `-1` sentinel), `align_segment` returns `none`. -/
theorem C10_basmala_sentinel (tbl : String → String → Option ℚ)
    (htbl : ∀ p r q, tbl p r = some q → 0 ≤ q)
    (sn : ℕ) (words : List RefWord) (pointer : ℤ)
    (lbo lao : Option ℤ) (mo : Option ℚ)
    (hthr : mo.getD MAX_EDIT_DISTANCE < COST_DELETION) :
    (∀ P res, align_segment tbl P (build_chapter_reference sn words) pointer true
        lbo lao mo = some res →
      0 ≤ res.start_word_idx
      ∧ (res.basmala_consumed = true ↔ res.j_start < 21))
    ∧ (∀ P j js c nd,
        align_with_word_boundaries tbl P
          (segRall (build_chapter_reference sn words) (segWinStart pointer lbo)
            (segWinEnd (build_chapter_reference sn words) P.length pointer lao) true)
          (segP2Wall (build_chapter_reference sn words) (segWinStart pointer lbo)
            (segWinEnd (build_chapter_reference sn words) P.length pointer lao) true)
          pointer START_PRIOR_WEIGHT COST_SUBSTITUTION COST_DELETION COST_INSERTION
          = some (j, js, c, nd) →
        (∀ k : ℕ, js ≤ (k : ℤ) → k < j →
          pyGetZ (segP2Wall (build_chapter_reference sn words) (segWinStart pointer lbo)
            (segWinEnd (build_chapter_reference sn words) P.length pointer lao) true)
            (k : ℤ) = -1) →
        align_segment tbl P (build_chapter_reference sn words) pointer true
          lbo lao mo = none) := by
  constructor
  · intro P res h
    have hb := align_segment_build_bounds tbl htbl sn words P pointer true lbo lao mo
      res hthr h
    refine ⟨hb.2.1, ?_⟩
    obtain ⟨j, js, c, nd, halign, hwlt, hth, hjs0, hjslt, hj1, hjn, hc0, hnd0,
      hec, hcf, hjseq, hbj, hend, hcase⟩ :=
      align_segment_eq_some tbl htbl P (build_chapter_reference sn words)
        pointer true lbo lao mo res hthr h
    have hnw : ((build_chapter_reference sn words).num_words : ℤ)
        = (words.length : ℤ) := by
      simp [build_chapter_reference, ChapterReference.num_words]
    rw [hnw] at hwlt
    have h0 : (0 : ℤ) ≤ segWinStart pointer lbo := by
      rw [segWinStart]; exact le_max_left 0 _
    have hplen : (segP2Wall (build_chapter_reference sn words) (segWinStart pointer lbo)
        (segWinEnd (build_chapter_reference sn words) P.length pointer lao) true).length
        = (segRall (build_chapter_reference sn words) (segWinStart pointer lbo)
            (segWinEnd (build_chapter_reference sn words) P.length pointer lao)
            true).length :=
      segP2Wall_length_eq sn words _ _ true
    set p2w := segP2Wall (build_chapter_reference sn words) (segWinStart pointer lbo)
      (segWinEnd (build_chapter_reference sn words) P.length pointer lao) true with hp2w
    have hpre : p2w = basmalaPhonemes.map (fun _ => (-1 : ℤ))
        ++ segP2Wwin (build_chapter_reference sn words) (segWinStart pointer lbo)
            (segWinEnd (build_chapter_reference sn words) P.length pointer lao) := by
      rw [hp2w, segP2Wall, if_pos rfl]
    have hjtn : js.toNat < p2w.length := by omega
    have hwin : ∀ v ∈ segP2Wwin (build_chapter_reference sn words)
        (segWinStart pointer lbo)
        (segWinEnd (build_chapter_reference sn words) P.length pointer lao),
        segWinStart pointer lbo ≤ v ∧ v < (words.length : ℤ) :=
      segP2Wwin_mem sn words _ _ h0 hwlt
    rcases hcase with ⟨hbc, hstartD, hne⟩ | ⟨hbc, _, hsen, k, hkmem, hkne, hstartD⟩
    · have hnot : ¬ js < 21 := by
        intro hlt
        have hlt' : js.toNat < 21 := by omega
        have : pyGetZ p2w js = -1 := by
          rw [pyGetZ_nonneg_idx _ _ hjs0, hpre]
          have hl1 : js.toNat < (basmalaPhonemes.map (fun _ => (-1 : ℤ))).length := by
            rw [basmala_sentinel_length]; omega
          have hl2 : js.toNat < (basmalaPhonemes.map (fun _ => (-1 : ℤ))
              ++ segP2Wwin (build_chapter_reference sn words) (segWinStart pointer lbo)
                (segWinEnd (build_chapter_reference sn words) P.length pointer lao)).length := by
            rw [List.length_append]; omega
          rw [List.getD_eq_getElem _ _ hl2, List.getElem_append_left hl1]
          have := getD_map_const basmalaPhonemes (-1 : ℤ) js.toNat
            (by simpa [basmalaPhonemes] using hlt')
          rwa [List.getD_eq_getElem _ _ hl1] at this
        exact hne ⟨rfl, this⟩
      rw [hbc, hjseq]
      simp [hnot]
    · have hlt : js < 21 := by
        by_contra hge
        push_neg at hge
        have hge' : 21 ≤ js.toNat := by omega
        have hsen' : p2w.getD js.toNat 0 = -1 := by
          rw [pyGetZ_nonneg_idx _ _ hjs0] at hsen
          exact hsen
        rw [hpre] at hsen' hjtn
        rw [List.getD_eq_getElem _ _ hjtn] at hsen'
        rw [List.getElem_append_right (by rw [basmala_sentinel_length]; omega)] at hsen'
        have hmem2 : (basmalaPhonemes.map (fun _ => (-1 : ℤ))
            ++ segP2Wwin (build_chapter_reference sn words) (segWinStart pointer lbo)
              (segWinEnd (build_chapter_reference sn words) P.length pointer lao)).length
            = 21 + (segP2Wwin (build_chapter_reference sn words) (segWinStart pointer lbo)
              (segWinEnd (build_chapter_reference sn words) P.length pointer lao)).length := by
          rw [List.length_append, basmala_sentinel_length]
        have hin : js.toNat - (basmalaPhonemes.map (fun _ => (-1 : ℤ))).length
            < (segP2Wwin (build_chapter_reference sn words) (segWinStart pointer lbo)
              (segWinEnd (build_chapter_reference sn words) P.length pointer lao)).length := by
          rw [basmala_sentinel_length]
          omega
        have hmem3 := hwin _ (List.getElem_mem hin)
        rw [hsen'] at hmem3
        omega
      rw [hbc, hjseq]
      simp [hlt]
  · intro P j js c nd halign hsent
    rw [align_segment]
    split_ifs with h1 h2 h3
    · rfl
    · rfl
    · rfl
    · rw [halign]
      simp only []
      by_cases hth : mo.getD MAX_EDIT_DISTANCE < nd
      · rw [if_pos hth]
      · rw [if_neg hth]
        push_neg at hth
        obtain ⟨hjs0, hjslt, hj1, hjn, _, _⟩ :=
          alignDP_bounds tbl htbl P _ _ pointer (mo.getD MAX_EDIT_DISTANCE)
            j js c nd halign hth hthr
        have hsenjs : pyGetZ (segP2Wall (build_chapter_reference sn words)
            (segWinStart pointer lbo)
            (segWinEnd (build_chapter_reference sn words) P.length pointer lao) true)
            js = -1 := by
          have hcast : ((js.toNat : ℕ) : ℤ) = js := by omega
          have := hsent js.toNat (by omega) (by omega)
          rwa [hcast] at this
        rw [alignSegResolve, if_pos ⟨rfl, hsenjs⟩]
        have hnone : (List.range' js.toNat (j - js.toNat)).find?
            (fun k : ℕ => pyGetZ (segP2Wall (build_chapter_reference sn words)
              (segWinStart pointer lbo)
              (segWinEnd (build_chapter_reference sn words) P.length pointer lao) true)
              (k : ℤ) != -1) = none := by
          rw [List.find?_eq_none]
          intro x hx
          have hxr := List.mem_range'_1.mp hx
          have := hsent x (by omega) (by omega)
          simp [this]
        rw [hnone]

set_option maxHeartbeats 2000000 in
/-- Witness for C10 on the one-word chapter `["a"]` with ASR `["a"]`:
the fused match consumes the whole prefix and the verse word, starts at
`j_start = 21` (outside the prefix), and `basmala_consumed = false`. -/
theorem C10_basmala_sentinel_witness :
    0 ≤ (⟨0, 0, 0, 1, 21, 22, false⟩ : AlignmentResult).start_word_idx
    ∧ ((⟨0, 0, 0, 1, 21, 22, false⟩ : AlignmentResult).basmala_consumed = true
        ↔ (⟨0, 0, 0, 1, 21, 22, false⟩ : AlignmentResult).j_start < 21) :=
  (C10_basmala_sentinel (fun _ _ => none) (fun _ _ _ hq => absurd hq (by simp))
    1 [⟨"a", ["a"], 1, 1, 1⟩] 0 none none none
    (by norm_num [Option.getD_none, MAX_EDIT_DISTANCE, COST_DELETION])).1
    ["a"] ⟨0, 0, 0, 1, 21, 22, false⟩
    (by
      have h1 : segWinStart 0 none = 0 := by
        norm_num [segWinStart, LOOKBACK_WORDS]
      have h2 : segWinEnd (build_chapter_reference 1 [⟨"a", ["a"], 1, 1, 1⟩]) 1 0 none
          = 1 := by
        norm_num [segWinEnd, build_chapter_reference, ChapterReference.num_words,
          pyRound, LOOKAHEAD_WORDS,
          show ([⟨"a", ["a"], 1, 1, 1⟩] : List RefWord) = [] ↔ False from by simp]
      have hw3 : segRwin (build_chapter_reference 1 [⟨"a", ["a"], 1, 1, 1⟩]) 0 1
          = ["a"] := by
        norm_num [segRwin, build_chapter_reference, pyGetN, offsetsGo,
          show Int.toNat 1 = 1 from rfl, show Int.toNat 0 = 0 from rfl, List.getD]
      have hw4 : segP2Wwin (build_chapter_reference 1 [⟨"a", ["a"], 1, 1, 1⟩]) 0 1
          = [0] := by
        norm_num [segP2Wwin, build_chapter_reference, pyGetN, offsetsGo, flatP2WGo,
          show Int.toNat 1 = 1 from rfl, show Int.toNat 0 = 0 from rfl, List.getD]
      have h3 : segRall (build_chapter_reference 1 [⟨"a", ["a"], 1, 1, 1⟩]) 0 1 true
          = basmalaPhonemes ++ ["a"] := by
        rw [segRall, if_pos rfl, hw3]
      have h4 : segP2Wall (build_chapter_reference 1 [⟨"a", ["a"], 1, 1, 1⟩]) 0 1 true
          = basmalaPhonemes.map (fun _ => (-1 : ℤ)) ++ [0] := by
        rw [segP2Wall, if_pos rfl, hw4]
      have h5 : align_with_word_boundaries (fun _ _ => none) ["a"]
          ["b", "i", "s", "m", "i", "ll", "a:", "h", "i", "rˤrˤ", "aˤ",
           "ħ", "m", "a:", "n", "i", "rˤrˤ", "aˤ", "ħ", "i:", "m", "a"]
          [-1, -1, -1, -1, -1, -1, -1, -1, -1, -1, -1, -1, -1, -1, -1, -1, -1, -1,
           -1, -1, -1, 0] 0
          START_PRIOR_WEIGHT COST_SUBSTITUTION COST_DELETION COST_INSERTION
          = some (22, 21, 0, 0) := by
        norm_num [align_with_word_boundaries, selectBest, selStep, candOf, dpFinal,
          dpRows, dpRow, dpInit, isStartBoundary, isEndBoundary, get_sub_cost, pyGetZ,
          List.range', costAdd, costLe, START_PRIOR_WEIGHT,
          COST_SUBSTITUTION, COST_DELETION, COST_INSERTION,
          show ("a" = "b") = False from by simp, show ("a" = "i") = False from by simp,
          show ("a" = "s") = False from by simp, show ("a" = "m") = False from by simp,
          show ("a" = "ll") = False from by simp, show ("a" = "a:") = False from by simp,
          show ("a" = "h") = False from by simp, show ("a" = "rˤrˤ") = False from by simp,
          show ("a" = "aˤ") = False from by simp, show ("a" = "ħ") = False from by simp,
          show ("a" = "n") = False from by simp, show ("a" = "i:") = False from by simp]
      have h0 : (build_chapter_reference 1 [⟨"a", ["a"], 1, 1, 1⟩]).num_words = 1 := rfl
      have hlen : (["a"] : List String).length = 1 := rfl
      rw [align_segment]
      simp only [hlen, h1, h2, h3, h4, h0]
      norm_num [h5, alignSegResolve, pyGetZ, MAX_EDIT_DISTANCE, Option.getD_none,
        basmalaPhonemes, List.getD, show Int.toNat 21 = 21 from rfl,
        show Int.toNat 22 = 22 from rfl]
      intro hx
      exact absurd hx (by simp))

/-! ### Sequential alignment state machine
(`alignment_pipeline.run_phoneme_matching`) -/

/-- Default `RefWord` for out-of-range indexing. -/
def defaultRefWord : RefWord := ⟨"", [], 0, 0, 0⟩

/-- Python list indexing on `words` (negative index counts from the end). -/
def pyGetW (l : List RefWord) (i : ℤ) : RefWord :=
  if i < 0 then l.getD (l.length - i.natAbs) defaultRefWord
  else l.getD i.toNat defaultRefWord

/-- `RefWord.location`: `"surah:ayah:word"`. -/
def refWordLoc (w : RefWord) : String :=
  toString w.surah ++ ":" ++ toString w.ayah ++ ":" ++ toString w.word_num

/-- `AlignmentResult.matched_ref`: `"start-end"` locations. -/
def matchedRef (cr : ChapterReference) (a : AlignmentResult) : String :=
  refWordLoc (pyGetW cr.words a.start_word_idx) ++ "-"
    ++ refWordLoc (pyGetW cr.words a.end_word_idx)

/-- `get_matched_text` from `phoneme_matcher.py`: Arabic text of the
aligned word range. -/
def get_matched_text (cr : ChapterReference) (a : AlignmentResult) : String :=
  String.intercalate " "
    (((cr.words.drop a.start_word_idx.toNat).take
        (a.end_word_idx + 1 - a.start_word_idx).toNat).map (fun w => w.text))

/-- `verse_to_word_index` from `phoneme_anchor.py`: index of the first
word of the given ayah, 0 if not found. -/
def verse_to_word_index (chapter_ref : ChapterReference) (ayah : ℕ) : ℕ :=
  match chapter_ref.words.findIdx? (fun w => w.ayah == ayah) with
  | some idx => idx
  | none => 0

/-- External dependencies of `run_phoneme_matching`, passed as
parameters.  `transDetect` and `transText` model
`detect_transition_segment` and `TRANSITION_TEXT`, which the pipeline
imports from `special_segments` but whose definitions are absent from
the sources.  Modelled from the spec: `transDetect asr allowed` returns
the detected transition name and confidence (or `none`), restricted to
`allowed` when given; `transText` maps a transition name to its display
text. -/
structure PipelineEnv where
  tbl : String → String → Option ℚ
  getChapterRef : ℕ → ChapterReference
  transDetect : List String → Option (List String) → Option (String × ℚ)
  transText : String → String
  ngramIdx : PhonemeNgramIndex

/-- The mutable state of the `run_phoneme_matching` loop.  `reanchors`
is a ghost counter (not in the Python code) that counts every applied
pointer jump: transition-exit re-anchors, chapter transitions, and
failure-threshold re-anchors; a run with `reanchors = 0` stayed in one
chapter with no re-anchor event. -/
structure MachState where
  results : List (String × ℚ × String)
  word_indices : List (Option (ℤ × ℤ))
  pointer : ℤ
  consecutive_failures : ℕ
  skip_count : ℕ
  pending_specials : List (String × ℚ × String)
  transition_mode : Bool
  tahmeed_merge_skip : ℕ
  is_first_after_transition : Bool
  detected_surah : ℕ
  chapter_ref : ChapterReference
  transition_expected_pointer : ℤ
  gap_segments : List ℕ
  merged_into : List (ℕ × ℕ)
  reanchors : ℕ

/-- `_check_transition_gap` (called after `word_indices.append`). -/
def checkTransitionGap (st : MachState) (swi : ℤ) : MachState :=
  if st.transition_expected_pointer < 0 then st
  else if st.transition_expected_pointer < swi then
    { st with gap_segments := st.gap_segments ++ [st.word_indices.length - 1],
              transition_expected_pointer := -1 }
  else { st with transition_expected_pointer := -1 }

/-- The common acceptance block: advance the pointer, reset the failure
counter, record the word range, run the transition-gap check and append
the result row. -/
def acceptAlignment (st : MachState) (a : AlignmentResult) (text : String) :
    MachState :=
  let st1 := { st with
    pointer := a.end_word_idx + 1
    consecutive_failures := 0
    is_first_after_transition := false
    word_indices := st.word_indices ++ [some (a.start_word_idx, a.end_word_idx)] }
  let st2 := checkTransitionGap st1 a.start_word_idx
  { st2 with results := st2.results ++ [(text, a.confidence, matchedRef st.chapter_ref a)] }

/-- `s[2] in ("Basmala", "Isti'adha+Basmala")`. -/
def isBasmalaLabel (s : String × ℚ × String) : Bool :=
  s.2.2 == "Basmala" || s.2.2 == "Isti\x27adha+Basmala"

/-- The failure tail of the loop body: transition detection, the two
retry tiers, and the failure-threshold global re-anchor. -/
def failPhase (env : PipelineEnv) (texts : List (List String)) (fqi : ℕ)
    (st : MachState) (i : ℕ) (asr : List String) : MachState :=
  match env.transDetect asr none with
  | some (tname, tconf) =>
    let st1 := { st with
      word_indices := st.word_indices ++ [none]
      transition_mode := true }
    let st2 :=
      if tname = "Tahmeed" then
        if fqi + i + 1 < texts.length ∧ texts.getD (fqi + i + 1) [] ≠ [] then
          match env.transDetect (texts.getD (fqi + i + 1) []) (some ["Tahmeed"]) with
          | some _ => { st1 with
              merged_into := st1.merged_into ++ [(fqi + i + 1, fqi + i)]
              tahmeed_merge_skip := 1 }
          | none => st1
        else st1
      else st1
    { st2 with results := st2.results ++ [(env.transText tname, tconf, tname)] }
  | none =>
    let tier1 := align_segment env.tbl asr st.chapter_ref st.pointer false
      (some (RETRY_LOOKBACK_WORDS : ℤ)) (some (RETRY_LOOKAHEAD_WORDS : ℤ)) none
    let tier2 :=
      match tier1 with
      | some a => some a
      | none => align_segment env.tbl asr st.chapter_ref st.pointer false
          (some (RETRY_LOOKBACK_WORDS : ℤ)) (some (RETRY_LOOKAHEAD_WORDS : ℤ))
          (some MAX_EDIT_DISTANCE_RELAXED)
    match tier2 with
    | some a => acceptAlignment st a (get_matched_text st.chapter_ref a)
    | none =>
      let st1 := { st with
        consecutive_failures := st.consecutive_failures + 1
        word_indices := st.word_indices ++ [none] }
      let st2 :=
        if MAX_CONSECUTIVE_FAILURES ≤ st1.consecutive_failures then
          let st3 :=
            if texts.drop (fqi + i + 1) ≠ [] then
              let anchor := find_anchor_by_voting (texts.drop (fqi + i + 1))
                env.ngramIdx ANCHOR_SEGMENTS
              if 0 < anchor.1 then
                let st4 :=
                  if anchor.1 ≠ st1.detected_surah then
                    { st1 with detected_surah := anchor.1
                               chapter_ref := env.getChapterRef anchor.1 }
                  else st1
                let p := (verse_to_word_index st4.chapter_ref anchor.2 : ℤ)
                { st4 with pointer := p, transition_expected_pointer := p,
                           reanchors := st4.reanchors + 1 }
              else st1
            else st1
          { st3 with consecutive_failures := 0 }
        else st1
      { st2 with results := st2.results ++ [("", 0, "")] }

/-- The post-alignment block: the Basmala-fused retry followed by
accept / failure handling. -/
def postAlign (env : PipelineEnv) (texts : List (List String)) (fqi : ℕ)
    (st : MachState) (i : ℕ) (asr : List String)
    (alignment : Option AlignmentResult) : MachState :=
  if st.is_first_after_transition then
    let st1 := { st with is_first_after_transition := false }
    match align_segment env.tbl asr st1.chapter_ref st1.pointer true
        none none none with
    | some b =>
      if b.basmala_consumed then
        let existing_conf := match alignment with
          | some a => a.confidence
          | none => 0
        if existing_conf < b.confidence then
          acceptAlignment st1 b
            (basmalaText ++ " " ++ get_matched_text st1.chapter_ref b)
        else
          match alignment with
          | some a => acceptAlignment st1 a (get_matched_text st1.chapter_ref a)
          | none => failPhase env texts fqi st1 i asr
      else
        match alignment with
        | some a => acceptAlignment st1 a (get_matched_text st1.chapter_ref a)
        | none => failPhase env texts fqi st1 i asr
    | none =>
      match alignment with
      | some a => acceptAlignment st1 a (get_matched_text st1.chapter_ref a)
      | none => failPhase env texts fqi st1 i asr
  else
    match alignment with
    | some a => acceptAlignment st a (get_matched_text st.chapter_ref a)
    | none => failPhase env texts fqi st i asr

/-- The chapter-transition block (`alignment is None` and the pointer is
past the end of the chapter). -/
def chapterEnd (env : PipelineEnv) (texts : List (List String)) (fqi : ℕ)
    (st : MachState) (i : ℕ) (asr : List String) : MachState :=
  let amin := if st.chapter_ref.surah = 1 then
      env.transDetect asr (some ["Amin"])
    else none
  let st0 := match amin with
    | some (_, aconf) =>
      { st with results := st.results ++ [(env.transText "Amin", aconf, "Amin")]
                word_indices := st.word_indices ++ [none] }
    | none => st
  let amin_consumed : ℕ := match amin with | some _ => 1 | none => 0
  let remaining := texts.drop (fqi + i + amin_consumed)
  let inter := detect_inter_chapter_specials remaining
  let inter_specials := inter.1
  let num_consumed := inter.2
  let stepA : MachState × ℕ × Bool :=
    if st.chapter_ref.surah = 1 then
      let anchor := find_anchor_by_voting
        (texts.drop (fqi + i + amin_consumed + num_consumed)) env.ngramIdx
        ANCHOR_SEGMENTS
      if 0 < anchor.1 then
        let cr := env.getChapterRef anchor.1
        (({ st0 with chapter_ref := cr
                     pointer := (verse_to_word_index cr anchor.2 : ℤ)
                     reanchors := st0.reanchors + 1 }), anchor.1, false)
      else
        (({ st0 with chapter_ref := env.getChapterRef 2, pointer := 0,
                     reanchors := st0.reanchors + 1 }), 2, false)
    else
      let next_surah := st.chapter_ref.surah + 1
      if 114 < next_surah then (st0, next_surah, false)
      else
        if num_consumed = 0 then
          match env.transDetect asr none with
          | some (tname, tconf) =>
            (({ st0 with
                results := st0.results ++ [(env.transText tname, tconf, tname)]
                word_indices := st0.word_indices ++ [none]
                transition_mode := true
                detected_surah := next_surah
                chapter_ref := env.getChapterRef next_surah
                pointer := 0
                transition_expected_pointer := 0
                consecutive_failures := 0
                reanchors := st0.reanchors + 1 }), next_surah, true)
          | none =>
            (({ st0 with chapter_ref := env.getChapterRef next_surah, pointer := 0,
                         transition_expected_pointer := 0,
                         reanchors := st0.reanchors + 1 }), next_surah, false)
        else
          (({ st0 with chapter_ref := env.getChapterRef next_surah, pointer := 0,
                       transition_expected_pointer := 0,
                       reanchors := st0.reanchors + 1 }), next_surah, false)
  let st1 := stepA.1
  let next_surah := stepA.2.1
  let early := stepA.2.2
  if early then st1
  else if next_surah ≤ 114 then
    let st2 := { st1 with detected_surah := next_surah, consecutive_failures := 0 }
    if 0 < amin_consumed then
      let has_basmala := inter_specials.any isBasmalaLabel
      if 0 < num_consumed then
        { st2 with is_first_after_transition := !has_basmala
                   pending_specials := inter_specials
                   skip_count := num_consumed }
      else
        { st2 with is_first_after_transition := true }
    else if 0 < num_consumed then
      let has_basmala := inter_specials.any isBasmalaLabel
      let st3 := { st2 with
        is_first_after_transition := !has_basmala
        results := st2.results ++ [inter_specials.headD ("", 0, "")]
        word_indices := st2.word_indices ++ [none] }
      if 1 < num_consumed then
        { st3 with pending_specials := inter_specials.tail
                   skip_count := num_consumed - 1 }
      else st3
    else
      let st3 := { st2 with is_first_after_transition := true }
      let alignment := align_segment env.tbl asr st3.chapter_ref st3.pointer false
        none none none
      postAlign env texts fqi st3 i asr alignment
  else
    postAlign env texts fqi st1 i asr none

/-- One iteration of the `run_phoneme_matching` loop. -/
def pipeStep (env : PipelineEnv) (texts : List (List String)) (fqi : ℕ)
    (st : MachState) (i : ℕ) (asr : List String) : MachState :=
  if 0 < st.skip_count then
    { st with results := st.results ++ [st.pending_specials.headD ("", 0, "")]
              word_indices := st.word_indices ++ [none]
              pending_specials := st.pending_specials.tail
              skip_count := st.skip_count - 1 }
  else if 0 < st.tahmeed_merge_skip then
    { st with results := st.results ++ [("", 0, "")]
              word_indices := st.word_indices ++ [none]
              tahmeed_merge_skip := st.tahmeed_merge_skip - 1 }
  else if st.transition_mode then
    match env.transDetect asr none with
    | some (tname, tconf) =>
      let st1 := { st with
        word_indices := st.word_indices ++ [none] }
      let st2 :=
        if tname = "Tahmeed" then
          if fqi + i + 1 < texts.length ∧ texts.getD (fqi + i + 1) [] ≠ [] then
            match env.transDetect (texts.getD (fqi + i + 1) []) (some ["Tahmeed"]) with
            | some _ => { st1 with
                merged_into := st1.merged_into ++ [(fqi + i + 1, fqi + i)]
                tahmeed_merge_skip := 1 }
            | none => st1
          else st1
        else st1
      { st2 with results := st2.results ++ [(env.transText tname, tconf, tname)] }
    | none =>
      let st1 := { st with transition_mode := false }
      let st2 :=
        if texts.drop (fqi + i) ≠ [] then
          let anchor := find_anchor_by_voting (texts.drop (fqi + i)) env.ngramIdx
            ANCHOR_SEGMENTS
          let st3 :=
            if 0 < anchor.1 then
              let st4 :=
                if anchor.1 ≠ st1.detected_surah then
                  { st1 with detected_surah := anchor.1
                             chapter_ref := env.getChapterRef anchor.1 }
                else st1
              let p := (verse_to_word_index st4.chapter_ref anchor.2 : ℤ)
              { st4 with pointer := p, transition_expected_pointer := p,
                         reanchors := st4.reanchors + 1 }
            else st1
          { st3 with consecutive_failures := 0 }
        else st1
      let alignment := align_segment env.tbl asr st2.chapter_ref st2.pointer false
        none none none
      if alignment = none ∧ (st2.chapter_ref.num_words : ℤ) ≤ st2.pointer then
        chapterEnd env texts fqi st2 i asr
      else
        postAlign env texts fqi st2 i asr alignment
  else
    let alignment := align_segment env.tbl asr st.chapter_ref st.pointer false
      none none none
    if alignment = none ∧ (st.chapter_ref.num_words : ℤ) ≤ st.pointer then
      chapterEnd env texts fqi st i asr
    else
      postAlign env texts fqi st i asr alignment

/-- Initial machine state. -/
def initMachState (env : PipelineEnv) (detected_surah : ℕ)
    (special_results : List (String × ℚ × String)) (start_pointer : ℤ) :
    MachState :=
  { results := special_results
    word_indices := List.replicate special_results.length none
    pointer := start_pointer
    consecutive_failures := 0
    skip_count := 0
    pending_specials := []
    transition_mode := false
    tahmeed_merge_skip := 0
    is_first_after_transition := !(special_results.any isBasmalaLabel)
    detected_surah := detected_surah
    chapter_ref := env.getChapterRef detected_surah
    transition_expected_pointer := -1
    gap_segments := []
    merged_into := []
    reanchors := 0 }

/-- `run_phoneme_matching` from `alignment_pipeline.py`: fold the loop
body over the Quran segments.  The final gap post-processing pass (which
only adds entries to `gap_segments`) is not modelled; all other state is
returned. -/
def run_phoneme_matching (env : PipelineEnv) (texts : List (List String))
    (detected_surah : ℕ) (first_quran_idx : ℕ)
    (special_results : List (String × ℚ × String)) (start_pointer : ℤ) :
    MachState :=
  ((texts.drop first_quran_idx).enum).foldl
    (fun st ix => pipeStep env texts first_quran_idx st ix.1 ix.2)
    (initMachState env detected_surah special_results start_pointer)

set_option maxHeartbeats 1000000 in
/-- **C3 (counterexample).** A three-word single-chapter run in which
both Quran segments are accepted by the plain DP path: the machine
records consecutive accepted alignments `A = (0, 0)` then `B = (0, 0)`
with zero re-anchor events (`reanchors = 0`, so both advances are
standard and in the same chapter), yet
`B.start_word_idx = 0 < A.end_word_idx + 1 - 0 = 1`: the claimed `K = 0`
bound for standard advances fails (the DP window looks back up to
`LOOKBACK_WORDS` behind the pointer). -/
theorem C3_counterexample :
    ((run_phoneme_matching
      ⟨fun _ _ => none,
       fun _ => build_chapter_reference 1
         [⟨"w0", ["a","b"], 1, 1, 1⟩, ⟨"w1", ["c","d"], 1, 1, 2⟩,
          ⟨"w2", ["a","b"], 1, 1, 3⟩],
       fun _ _ => none, fun _ => "", ⟨[], [], 2, 0⟩⟩
      [["a","b"], ["a","b"]] 1 0 [("b", 1, "Basmala")] 0).word_indices
      = [none, some (0, 0), some (0, 0)]
    ∧ (run_phoneme_matching
      ⟨fun _ _ => none,
       fun _ => build_chapter_reference 1
         [⟨"w0", ["a","b"], 1, 1, 1⟩, ⟨"w1", ["c","d"], 1, 1, 2⟩,
          ⟨"w2", ["a","b"], 1, 1, 3⟩],
       fun _ _ => none, fun _ => "", ⟨[], [], 2, 0⟩⟩
      [["a","b"], ["a","b"]] 1 0 [("b", 1, "Basmala")] 0).reanchors = 0)
    ∧ ¬((0 : ℤ) ≥ 0 + 1 - 0) := by
  refine ⟨?_, by decide⟩
  have hws0 : segWinStart 0 none = 0 := by norm_num [segWinStart, LOOKBACK_WORDS]
  have hws1 : segWinStart 1 none = 0 := by norm_num [segWinStart, LOOKBACK_WORDS]
  have hne : ([⟨"w0", ["a","b"], 1, 1, 1⟩, ⟨"w1", ["c","d"], 1, 1, 2⟩,
      ⟨"w2", ["a","b"], 1, 1, 3⟩] : List RefWord) = [] ↔ False := by simp
  have hwe0 : segWinEnd (build_chapter_reference 1
      [⟨"w0", ["a","b"], 1, 1, 1⟩, ⟨"w1", ["c","d"], 1, 1, 2⟩,
       ⟨"w2", ["a","b"], 1, 1, 3⟩]) 2 0 none = 3 := by
    norm_num [segWinEnd, build_chapter_reference, ChapterReference.num_words,
      pyRound, LOOKAHEAD_WORDS, hne]
  have hwe1 : segWinEnd (build_chapter_reference 1
      [⟨"w0", ["a","b"], 1, 1, 1⟩, ⟨"w1", ["c","d"], 1, 1, 2⟩,
       ⟨"w2", ["a","b"], 1, 1, 3⟩]) 2 1 none = 3 := by
    norm_num [segWinEnd, build_chapter_reference, ChapterReference.num_words,
      pyRound, LOOKAHEAD_WORDS, hne]
  have h3 : segRall (build_chapter_reference 1
      [⟨"w0", ["a","b"], 1, 1, 1⟩, ⟨"w1", ["c","d"], 1, 1, 2⟩,
       ⟨"w2", ["a","b"], 1, 1, 3⟩]) 0 3 false = ["a","b","c","d","a","b"] := by
    norm_num [segRall, segRwin, build_chapter_reference, pyGetN, offsetsGo,
      show Int.toNat 3 = 3 from rfl, show Int.toNat 0 = 0 from rfl, List.getD]
  have h4 : segP2Wall (build_chapter_reference 1
      [⟨"w0", ["a","b"], 1, 1, 1⟩, ⟨"w1", ["c","d"], 1, 1, 2⟩,
       ⟨"w2", ["a","b"], 1, 1, 3⟩]) 0 3 false = [0,0,1,1,2,2] := by
    norm_num [segP2Wall, segP2Wwin, build_chapter_reference, pyGetN, offsetsGo,
      flatP2WGo, show Int.toNat 3 = 3 from rfl, show Int.toNat 0 = 0 from rfl,
      List.getD]
  have h5a : align_with_word_boundaries (fun _ _ => none) ["a","b"]
      ["a","b","c","d","a","b"] [0,0,1,1,2,2] 0
      START_PRIOR_WEIGHT COST_SUBSTITUTION COST_DELETION COST_INSERTION
      = some (2, 0, 0, 0) := by
    norm_num [align_with_word_boundaries, selectBest, selStep, candOf, dpFinal,
      dpRows, dpRow, dpInit, isStartBoundary, isEndBoundary, get_sub_cost, pyGetZ,
      List.range', costAdd, costLe, START_PRIOR_WEIGHT, COST_SUBSTITUTION,
      COST_DELETION, COST_INSERTION,
      show Int.toNat 0 = 0 from rfl, show Int.toNat 1 = 1 from rfl,
      show Int.toNat 2 = 2 from rfl, show Int.toNat 3 = 3 from rfl,
      show Int.toNat 4 = 4 from rfl, show Int.toNat 5 = 5 from rfl,
      show ("a" = "b") = False from by simp, show ("a" = "c") = False from by simp,
      show ("a" = "d") = False from by simp, show ("b" = "a") = False from by simp,
      show ("b" = "c") = False from by simp, show ("b" = "d") = False from by simp]
  have h5b : align_with_word_boundaries (fun _ _ => none) ["a","b"]
      ["a","b","c","d","a","b"] [0,0,1,1,2,2] 1
      START_PRIOR_WEIGHT COST_SUBSTITUTION COST_DELETION COST_INSERTION
      = some (2, 0, 0, 0) := by
    norm_num [align_with_word_boundaries, selectBest, selStep, candOf, dpFinal,
      dpRows, dpRow, dpInit, isStartBoundary, isEndBoundary, get_sub_cost, pyGetZ,
      List.range', costAdd, costLe, START_PRIOR_WEIGHT, COST_SUBSTITUTION,
      COST_DELETION, COST_INSERTION,
      show Int.toNat 0 = 0 from rfl, show Int.toNat 1 = 1 from rfl,
      show Int.toNat 2 = 2 from rfl, show Int.toNat 3 = 3 from rfl,
      show Int.toNat 4 = 4 from rfl, show Int.toNat 5 = 5 from rfl,
      show ("a" = "b") = False from by simp, show ("a" = "c") = False from by simp,
      show ("a" = "d") = False from by simp, show ("b" = "a") = False from by simp,
      show ("b" = "c") = False from by simp, show ("b" = "d") = False from by simp]
  have hlen : (["a","b"] : List String).length = 2 := rfl
  have h0 : (build_chapter_reference 1
      [⟨"w0", ["a","b"], 1, 1, 1⟩, ⟨"w1", ["c","d"], 1, 1, 2⟩,
       ⟨"w2", ["a","b"], 1, 1, 3⟩]).num_words = 3 := rfl
  have hA1 : align_segment (fun _ _ => none) ["a","b"] (build_chapter_reference 1
      [⟨"w0", ["a","b"], 1, 1, 1⟩, ⟨"w1", ["c","d"], 1, 1, 2⟩,
       ⟨"w2", ["a","b"], 1, 1, 3⟩]) 0 false none none none
      = some ⟨0, 0, 0, 1, 0, 2, false⟩ := by
    rw [align_segment]
    simp only [hlen, hws0, hwe0, h3, h4, h0]
    norm_num [h5a, alignSegResolve, pyGetZ, MAX_EDIT_DISTANCE, Option.getD_none,
      List.getD]
    intro hx
    exact absurd hx (by simp)
  have hA2 : align_segment (fun _ _ => none) ["a","b"] (build_chapter_reference 1
      [⟨"w0", ["a","b"], 1, 1, 1⟩, ⟨"w1", ["c","d"], 1, 1, 2⟩,
       ⟨"w2", ["a","b"], 1, 1, 3⟩]) 1 false none none none
      = some ⟨0, 0, 0, 1, 0, 2, false⟩ := by
    rw [align_segment]
    simp only [hlen, hws1, hwe1, h3, h4, h0]
    norm_num [h5b, alignSegResolve, pyGetZ, MAX_EDIT_DISTANCE, Option.getD_none,
      List.getD]
    intro hx
    exact absurd hx (by simp)
  have henum : (([["a","b"], ["a","b"]] : List (List String)).drop 0).enum
      = [(0, ["a","b"]), (1, ["a","b"])] := rfl
  have hbas : ([("b", (1:ℚ), "Basmala")].any isBasmalaLabel) = true := rfl
  rw [run_phoneme_matching, henum]
  simp only [List.foldl_cons, List.foldl_nil, initMachState, hbas]
  norm_num [pipeStep, postAlign, acceptAlignment, checkTransitionGap, hA1, hA2, h0]

/-! ### Confidence bounds (C8) -/

/-- The final-display-segment penalty from `pipeline.py`:
`score = max(0.0, score - 0.25)` when the last display segment does not
end at a verse boundary. -/
def finalSegmentPenalty (score : ℚ) : ℚ := max 0 (score - 1/4)

/-- A result row has its confidence in `[0, 1]`. -/
def ConfOK (r : String × ℚ × String) : Prop := 0 ≤ r.2.1 ∧ r.2.1 ≤ 1

/-- Environment assumptions for the confidence invariant: nonnegative
substitution costs and transition confidences in `[0, 1]`. -/
def EnvOK (env : PipelineEnv) : Prop :=
  (∀ p r q, env.tbl p r = some q → 0 ≤ q)
  ∧ (∀ asr allowed nm cf, env.transDetect asr allowed = some (nm, cf) →
      0 ≤ cf ∧ cf ≤ 1)

/-- The machine invariant: all emitted and all queued result rows have
confidences in `[0, 1]`. -/
def StateOK (st : MachState) : Prop :=
  (∀ r ∈ st.results, ConfOK r) ∧ (∀ r ∈ st.pending_specials, ConfOK r)

theorem phoneme_edit_distance_nonneg (a b : List String) :
    0 ≤ phoneme_edit_distance a b := by
  rw [phoneme_edit_distance]
  split
  · norm_num
  · apply div_nonneg
    · positivity
    · positivity

theorem detect_inter_chapter_specials_conf (texts : List (List String)) :
    ∀ r ∈ (detect_inter_chapter_specials texts).1, ConfOK r := by
  intro r hr
  have h1 := phoneme_edit_distance_nonneg (texts.head?.getD []) combinedPhonemes
  have h2 := phoneme_edit_distance_nonneg (texts.head?.getD []) istiadhaPhonemes
  have h3 := phoneme_edit_distance_nonneg (texts.head?.getD []) basmalaPhonemes
  have h4 := phoneme_edit_distance_nonneg (texts[1]?.getD []) basmalaPhonemes
  rw [detect_inter_chapter_specials] at hr
  simp only [List.headD_eq_head?_getD, List.getD_eq_getElem?_getD] at hr
  by_cases h0 : texts = [] ∨ texts.head?.getD [] = []
  · rw [if_pos h0] at hr
    simp at hr
  · rw [if_neg h0] at hr
    by_cases hc : phoneme_edit_distance (texts.head?.getD []) combinedPhonemes
        ≤ MAX_SPECIAL_EDIT_DISTANCE
    · rw [if_pos hc] at hr
      rw [MAX_SPECIAL_EDIT_DISTANCE] at hc
      simp at hr
      subst hr
      exact ⟨by dsimp only; linarith, by dsimp only; linarith⟩
    · rw [if_neg hc] at hr
      by_cases hi : phoneme_edit_distance (texts.head?.getD []) istiadhaPhonemes
          ≤ MAX_SPECIAL_EDIT_DISTANCE
      · rw [if_pos hi] at hr
        rw [MAX_SPECIAL_EDIT_DISTANCE] at hi
        by_cases hl : 2 ≤ texts.length ∧ texts[1]?.getD [] ≠ []
        · rw [if_pos hl] at hr
          by_cases hb : phoneme_edit_distance (texts[1]?.getD []) basmalaPhonemes
              ≤ MAX_SPECIAL_EDIT_DISTANCE
          · rw [if_pos hb] at hr
            rw [MAX_SPECIAL_EDIT_DISTANCE] at hb
            simp at hr
            rcases hr with hr | hr <;> subst hr <;>
              exact ⟨by dsimp only; linarith, by dsimp only; linarith⟩
          · rw [if_neg hb] at hr
            simp at hr
            subst hr
            exact ⟨by dsimp only; linarith, by dsimp only; linarith⟩
        · rw [if_neg hl] at hr
          simp at hr
          subst hr
          exact ⟨by dsimp only; linarith, by dsimp only; linarith⟩
      · rw [if_neg hi] at hr
        by_cases hb : phoneme_edit_distance (texts.head?.getD []) basmalaPhonemes
            ≤ MAX_SPECIAL_EDIT_DISTANCE
        · rw [if_pos hb] at hr
          rw [MAX_SPECIAL_EDIT_DISTANCE] at hb
          simp at hr
          subst hr
          exact ⟨by dsimp only; linarith, by dsimp only; linarith⟩
        · rw [if_neg hb] at hr
          simp at hr

theorem align_segment_confidence (tbl : String → String → Option ℚ)
    (htbl : ∀ p r q, tbl p r = some q → 0 ≤ q)
    (asr : List String) (cr : ChapterReference) (pointer : ℤ) (bp : Bool)
    (lbo lao : Option ℤ) (mo : Option ℚ) (res : AlignmentResult)
    (hthr : mo.getD MAX_EDIT_DISTANCE < COST_DELETION)
    (h : align_segment tbl asr cr pointer bp lbo lao mo = some res) :
    0 ≤ res.confidence ∧ res.confidence ≤ 1 := by
  obtain ⟨j, js, c, nd, _, _, hth, _, _, _, _, _, hnd0, _, hcf, _⟩ :=
    align_segment_eq_some tbl htbl asr cr pointer bp lbo lao mo res hthr h
  rw [hcf]
  rw [COST_DELETION] at hthr
  constructor <;> linarith

theorem checkTransitionGap_results (st : MachState) (swi : ℤ) :
    (checkTransitionGap st swi).results = st.results
    ∧ (checkTransitionGap st swi).pending_specials = st.pending_specials := by
  rw [checkTransitionGap]
  split_ifs <;> exact ⟨rfl, rfl⟩

theorem confOK_headD (l : List (String × ℚ × String)) (h : ∀ r ∈ l, ConfOK r) :
    ConfOK (l.headD ("", 0, "")) := by
  cases l with
  | nil => exact ⟨le_refl 0, by norm_num⟩
  | cons x xs => exact h x (by simp)

theorem acceptAlignment_conf (st : MachState) (a : AlignmentResult) (text : String)
    (hst : StateOK st) (ha : 0 ≤ a.confidence ∧ a.confidence ≤ 1) :
    StateOK (acceptAlignment st a text) := by
  rw [acceptAlignment]
  constructor
  · intro r hr
    dsimp only at hr
    rw [(checkTransitionGap_results _ _).1] at hr
    dsimp only at hr
    rcases List.mem_append.mp hr with h | h
    · exact hst.1 r h
    · simp at h
      subst h
      exact ha
  · intro r hr
    dsimp only at hr
    rw [(checkTransitionGap_results _ _).2] at hr
    dsimp only at hr
    exact hst.2 r hr

theorem failPhase_conf (env : PipelineEnv) (henv : EnvOK env)
    (texts : List (List String)) (fqi : ℕ) (st : MachState) (i : ℕ)
    (asr : List String) (hst : StateOK st) :
    StateOK (failPhase env texts fqi st i asr) := by
  rw [failPhase]
  cases htd : env.transDetect asr none with
  | some pr =>
    obtain ⟨tname, tconf⟩ := pr
    have hc := henv.2 asr none tname tconf htd
    dsimp only
    repeat' split
    all_goals
      exact ⟨fun r hr => by
          dsimp only at hr
          rcases List.mem_append.mp hr with h | h
          · exact hst.1 r h
          · simp at h
            subst h
            exact hc,
        fun r hr => by dsimp only at hr; exact hst.2 r hr⟩
  | none =>
    dsimp only
    cases h1 : align_segment env.tbl asr st.chapter_ref st.pointer false
        (some (RETRY_LOOKBACK_WORDS : ℤ)) (some (RETRY_LOOKAHEAD_WORDS : ℤ)) none with
    | some a1 =>
      dsimp only
      exact acceptAlignment_conf st a1 _ hst
        (align_segment_confidence env.tbl henv.1 asr st.chapter_ref st.pointer false
          _ _ none a1
          (by norm_num [Option.getD_none, MAX_EDIT_DISTANCE, COST_DELETION]) h1)
    | none =>
      dsimp only
      cases h2 : align_segment env.tbl asr st.chapter_ref st.pointer false
          (some (RETRY_LOOKBACK_WORDS : ℤ)) (some (RETRY_LOOKAHEAD_WORDS : ℤ))
          (some MAX_EDIT_DISTANCE_RELAXED) with
      | some a2 =>
        dsimp only
        exact acceptAlignment_conf st a2 _ hst
          (align_segment_confidence env.tbl henv.1 asr st.chapter_ref st.pointer false
            _ _ (some MAX_EDIT_DISTANCE_RELAXED) a2
            (by norm_num [MAX_EDIT_DISTANCE_RELAXED, COST_DELETION]) h2)
      | none =>
        dsimp only
        repeat' split
        all_goals
          exact ⟨fun r hr => by
              dsimp only at hr
              rcases List.mem_append.mp hr with h | h
              · exact hst.1 r h
              · simp at h
                subst h
                exact ⟨le_refl 0, by norm_num⟩,
            fun r hr => by dsimp only at hr; exact hst.2 r hr⟩

theorem postAlign_conf (env : PipelineEnv) (henv : EnvOK env)
    (texts : List (List String)) (fqi : ℕ) (st : MachState) (i : ℕ)
    (asr : List String) (alignment : Option AlignmentResult)
    (hal : ∀ a, alignment = some a → 0 ≤ a.confidence ∧ a.confidence ≤ 1)
    (hst : StateOK st) :
    StateOK (postAlign env texts fqi st i asr alignment) := by
  rw [postAlign.eq_def]
  split_ifs with hf
  · have hst1 : StateOK { st with is_first_after_transition := false } :=
      ⟨hst.1, hst.2⟩
    dsimp only
    cases hb : align_segment env.tbl asr st.chapter_ref st.pointer true
        none none none with
    | some b =>
      have hbc := align_segment_confidence env.tbl henv.1 asr st.chapter_ref
        st.pointer true none none none b
        (by norm_num [Option.getD_none, MAX_EDIT_DISTANCE, COST_DELETION]) hb
      dsimp only
      split_ifs with h1 h2
      · exact acceptAlignment_conf _ b _ hst1 hbc
      · cases alignment with
        | some a => exact acceptAlignment_conf _ a _ hst1 (hal a rfl)
        | none => exact failPhase_conf env henv texts fqi _ i asr hst1
      · cases alignment with
        | some a => exact acceptAlignment_conf _ a _ hst1 (hal a rfl)
        | none => exact failPhase_conf env henv texts fqi _ i asr hst1
    | none =>
      dsimp only
      cases alignment with
      | some a => exact acceptAlignment_conf _ a _ hst1 (hal a rfl)
      | none => exact failPhase_conf env henv texts fqi _ i asr hst1
  · cases alignment with
    | some a => exact acceptAlignment_conf st a _ hst (hal a rfl)
    | none => exact failPhase_conf env henv texts fqi st i asr hst

theorem stateOK_fields (st' st : MachState)
    (hres : st'.results = st.results)
    (hpend : st'.pending_specials = st.pending_specials)
    (hst : StateOK st) : StateOK st' :=
  ⟨fun r hr => hst.1 r (hres ▸ hr), fun r hr => hst.2 r (hpend ▸ hr)⟩

set_option maxHeartbeats 2000000 in
theorem chapterEnd_conf (env : PipelineEnv) (henv : EnvOK env)
    (texts : List (List String)) (fqi : ℕ) (st : MachState) (i : ℕ)
    (asr : List String) (hst : StateOK st) :
    StateOK (chapterEnd env texts fqi st i asr) := by
  rw [chapterEnd.eq_def]
  by_cases hs1 : st.chapter_ref.surah = 1
  · simp only [if_pos hs1]
    cases hta : env.transDetect asr (some ["Amin"]) with
    | some pr =>
      obtain ⟨anm, acf⟩ := pr
      have hac := henv.2 asr (some ["Amin"]) anm acf hta
      dsimp only
      have hst0 : StateOK { st with
          results := st.results ++ [(env.transText "Amin", acf, "Amin")]
          word_indices := st.word_indices ++ [none] } := by
        refine ⟨?_, hst.2⟩
        intro r hr
        dsimp only at hr
        rcases List.mem_append.mp hr with h | h
        · exact hst.1 r h
        · simp at h
          subst h
          exact hac
      generalize hI : detect_inter_chapter_specials (texts.drop (fqi + i + 1)) = I
      have hIc : ∀ r ∈ I.1, ConfOK r := by
        rw [← hI]
        exact detect_inter_chapter_specials_conf _
      generalize find_anchor_by_voting (texts.drop (fqi + i + 1 + I.2)) env.ngramIdx
        ANCHOR_SEGMENTS = anch
      split_ifs with han h114 hnum h114 hnum h1num h114 hnum h114 hnum h1num
      all_goals first
        | (exact stateOK_fields _ _ rfl rfl hst0)
        | (refine ⟨?_, ?_⟩
           · intro r hr
             dsimp only at hr
             exact hst0.1 r hr
           · intro r hr
             dsimp only at hr
             exact hIc r hr)
        | (refine ⟨?_, ?_⟩
           · intro r hr
             dsimp only at hr
             rcases List.mem_append.mp hr with h | h
             · exact hst0.1 r h
             · rw [List.mem_singleton] at h
               subst h
               exact confOK_headD _ hIc
           · intro r hr
             dsimp only at hr
             first
               | exact hst0.2 r hr
               | exact hIc r (List.mem_of_mem_tail hr)
               | exact hIc r hr)
        | (exact postAlign_conf env henv texts fqi _ i asr _
            (fun a ha => align_segment_confidence env.tbl henv.1 asr _ _ false
              none none none a
              (by norm_num [Option.getD_none, MAX_EDIT_DISTANCE, COST_DELETION]) ha)
            (stateOK_fields _ _ rfl rfl hst0))
        | (exact postAlign_conf env henv texts fqi _ i asr _
            (fun a ha => absurd ha (by simp))
            (stateOK_fields _ _ rfl rfl hst0))
    | none =>
      dsimp only
      generalize hI : detect_inter_chapter_specials (texts.drop (fqi + i + 0)) = I
      have hIc : ∀ r ∈ I.1, ConfOK r := by
        rw [← hI]
        exact detect_inter_chapter_specials_conf _
      generalize find_anchor_by_voting (texts.drop (fqi + i + 0 + I.2)) env.ngramIdx
        ANCHOR_SEGMENTS = anch
      split_ifs with han h114 hnum h114 hnum h1num h114 hnum h114 hnum h1num
      all_goals first
        | (exact stateOK_fields _ _ rfl rfl hst)
        | (refine ⟨?_, ?_⟩
           · intro r hr
             dsimp only at hr
             exact hst.1 r hr
           · intro r hr
             dsimp only at hr
             exact hIc r hr)
        | (refine ⟨?_, ?_⟩
           · intro r hr
             dsimp only at hr
             rcases List.mem_append.mp hr with h | h
             · exact hst.1 r h
             · rw [List.mem_singleton] at h
               subst h
               exact confOK_headD _ hIc
           · intro r hr
             dsimp only at hr
             first
               | exact hst.2 r hr
               | exact hIc r (List.mem_of_mem_tail hr)
               | exact hIc r hr)
        | (exact postAlign_conf env henv texts fqi _ i asr _
            (fun a ha => align_segment_confidence env.tbl henv.1 asr _ _ false
              none none none a
              (by norm_num [Option.getD_none, MAX_EDIT_DISTANCE, COST_DELETION]) ha)
            (stateOK_fields _ _ rfl rfl hst))
        | (exact postAlign_conf env henv texts fqi _ i asr _
            (fun a ha => absurd ha (by simp))
            (stateOK_fields _ _ rfl rfl hst))
  · simp only [if_neg hs1]
    generalize hI : detect_inter_chapter_specials (texts.drop (fqi + i + 0)) = I
    have hIc : ∀ r ∈ I.1, ConfOK r := by
      rw [← hI]
      exact detect_inter_chapter_specials_conf _
    by_cases h114 : 114 < st.chapter_ref.surah + 1
    · simp only [if_pos h114]
      try dsimp only
      split_ifs
      all_goals first
        | (exact absurd ‹false = true› (by simp))
        | (exact absurd ‹False› id)
        | omega
        | (exact hst)
        | (exact postAlign_conf env henv texts fqi _ i asr _
            (fun a ha => absurd ha (by simp))
            (stateOK_fields _ _ rfl rfl hst))
    · simp only [if_neg h114]
      by_cases hI2 : I.2 = 0
      · simp only [if_pos hI2]
        cases htd : env.transDetect asr none with
        | some pr =>
          obtain ⟨tname, tconf⟩ := pr
          have htc := henv.2 asr none tname tconf htd
          refine ⟨?_, hst.2⟩
          intro r hr
          dsimp only at hr
          rcases List.mem_append.mp hr with h | h
          · exact hst.1 r h
          · simp at h
            subst h
            exact htc
        | none =>
          dsimp only
          split_ifs with h114c hnum h1num
          all_goals first
            | (exact stateOK_fields _ _ rfl rfl hst)
            | omega
            | (refine ⟨?_, ?_⟩
               · intro r hr
                 dsimp only at hr
                 rcases List.mem_append.mp hr with h | h
                 · exact hst.1 r h
                 · rw [List.mem_singleton] at h
                   subst h
                   exact confOK_headD _ hIc
               · intro r hr
                 dsimp only at hr
                 first
                   | exact hst.2 r hr
                   | exact hIc r (List.mem_of_mem_tail hr)
                   | exact hIc r hr)
            | (exact postAlign_conf env henv texts fqi _ i asr _
                (fun a ha => align_segment_confidence env.tbl henv.1 asr _ _ false
                  none none none a
                  (by norm_num [Option.getD_none, MAX_EDIT_DISTANCE, COST_DELETION])
                  ha)
                (stateOK_fields _ _ rfl rfl hst))
            | (exact postAlign_conf env henv texts fqi _ i asr _
                (fun a ha => absurd ha (by simp))
                (stateOK_fields _ _ rfl rfl hst))
      · simp only [if_neg hI2]
        split_ifs with h114c hnum h1num
        all_goals first
          | (exact stateOK_fields _ _ rfl rfl hst)
          | omega
          | (refine ⟨?_, ?_⟩
             · intro r hr
               dsimp only at hr
               rcases List.mem_append.mp hr with h | h
               · exact hst.1 r h
               · rw [List.mem_singleton] at h
                 subst h
                 exact confOK_headD _ hIc
             · intro r hr
               dsimp only at hr
               first
                 | exact hst.2 r hr
                 | exact hIc r (List.mem_of_mem_tail hr)
                 | exact hIc r hr)
          | (exact postAlign_conf env henv texts fqi _ i asr _
              (fun a ha => align_segment_confidence env.tbl henv.1 asr _ _ false
                none none none a
                (by norm_num [Option.getD_none, MAX_EDIT_DISTANCE, COST_DELETION])
                ha)
              (stateOK_fields _ _ rfl rfl hst))
          | (exact postAlign_conf env henv texts fqi _ i asr _
              (fun a ha => absurd ha (by simp))
              (stateOK_fields _ _ rfl rfl hst))

set_option maxHeartbeats 2000000 in
theorem pipeStep_conf (env : PipelineEnv) (henv : EnvOK env)
    (texts : List (List String)) (fqi : ℕ) (st : MachState) (i : ℕ)
    (asr : List String) (hst : StateOK st) :
    StateOK (pipeStep env texts fqi st i asr) := by
  rw [pipeStep.eq_def]
  by_cases h1 : 0 < st.skip_count
  · rw [if_pos h1]
    refine ⟨?_, ?_⟩
    · intro r hr
      dsimp only at hr
      rcases List.mem_append.mp hr with h | h
      · exact hst.1 r h
      · rw [List.mem_singleton] at h
        subst h
        exact confOK_headD _ hst.2
    · intro r hr
      dsimp only at hr
      exact hst.2 r (List.mem_of_mem_tail hr)
  · rw [if_neg h1]
    by_cases h2 : 0 < st.tahmeed_merge_skip
    · rw [if_pos h2]
      refine ⟨?_, ?_⟩
      · intro r hr
        dsimp only at hr
        rcases List.mem_append.mp hr with h | h
        · exact hst.1 r h
        · rw [List.mem_singleton] at h
          subst h
          exact ⟨le_refl 0, by norm_num⟩
      · intro r hr
        dsimp only at hr
        exact hst.2 r hr
    · rw [if_neg h2]
      by_cases h3 : st.transition_mode = true
      · rw [if_pos h3]
        cases htd : env.transDetect asr none with
        | some pr =>
          obtain ⟨tname, tconf⟩ := pr
          have htc := henv.2 asr none tname tconf htd
          dsimp only
          repeat' split
          all_goals
            exact ⟨fun r hr => by
                dsimp only at hr
                rcases List.mem_append.mp hr with h | h
                · exact hst.1 r h
                · rw [List.mem_singleton] at h
                  subst h
                  exact htc,
              fun r hr => by dsimp only at hr; exact hst.2 r hr⟩
        | none =>
          dsimp only
          split_ifs
          all_goals first
            | (exact chapterEnd_conf env henv texts fqi _ i asr
                (stateOK_fields _ _ rfl rfl hst))
            | (exact postAlign_conf env henv texts fqi _ i asr _
                (fun a ha => align_segment_confidence env.tbl henv.1 asr _ _ false
                  none none none a
                  (by norm_num [Option.getD_none, MAX_EDIT_DISTANCE, COST_DELETION])
                  ha)
                (stateOK_fields _ _ rfl rfl hst))
      · rw [if_neg h3]
        dsimp only
        split_ifs with hc
        · exact chapterEnd_conf env henv texts fqi st i asr hst
        · exact postAlign_conf env henv texts fqi st i asr _
            (fun a ha => align_segment_confidence env.tbl henv.1 asr st.chapter_ref
              st.pointer false none none none a
              (by norm_num [Option.getD_none, MAX_EDIT_DISTANCE, COST_DELETION]) ha)
            hst

theorem foldl_pipeStep_conf (env : PipelineEnv) (henv : EnvOK env)
    (texts : List (List String)) (fqi : ℕ) :
    ∀ (l : List (ℕ × List String)) (st : MachState), StateOK st →
      StateOK (l.foldl (fun s ix => pipeStep env texts fqi s ix.1 ix.2) st) := by
  intro l
  induction l with
  | nil => intro st hst; exact hst
  | cons x xs ih =>
    intro st hst
    exact ih _ (pipeStep_conf env henv texts fqi st x.1 x.2 hst)

theorem run_phoneme_matching_conf (env : PipelineEnv) (henv : EnvOK env)
    (texts : List (List String)) (detected_surah : ℕ) (fqi : ℕ)
    (special_results : List (String × ℚ × String)) (start_pointer : ℤ)
    (hsp : ∀ r ∈ special_results, ConfOK r) :
    StateOK (run_phoneme_matching env texts detected_surah fqi special_results
      start_pointer) := by
  rw [run_phoneme_matching]
  exact foldl_pipeStep_conf env henv texts fqi _ _
    ⟨hsp, by intro r hr; simp [initMachState] at hr⟩

/-- **C8.** (1) Every result row emitted by the alignment state machine
has its confidence in `[0, 1]`, provided the substitution table is
nonnegative, the (spec-modelled) transition detector reports confidences
in `[0, 1]`, and the initial special results do; (2) every alignment
accepted by `align_segment` (under a threshold below `COST_DELETION`,
which holds for every call the pipeline makes) carries
`confidence = 1 - norm_dist` of the accepted DP result; (3) the
final-display-segment penalty `max(0, score - 1/4)` maps `[0, 1]` into
`[0, 1]`. -/
theorem C8_confidence_bounds :
    (∀ env texts ds fqi specials sp, EnvOK env → (∀ r ∈ specials, ConfOK r) →
      ∀ r ∈ (run_phoneme_matching env texts ds fqi specials sp).results,
        0 ≤ r.2.1 ∧ r.2.1 ≤ 1)
    ∧ (∀ tbl : String → String → Option ℚ, (∀ p r q, tbl p r = some q → 0 ≤ q) →
       ∀ (asr : List String) (cr : ChapterReference) (pointer : ℤ) (bp : Bool)
         (lbo lao : Option ℤ) (mo : Option ℚ) (res : AlignmentResult),
        mo.getD MAX_EDIT_DISTANCE < COST_DELETION →
        align_segment tbl asr cr pointer bp lbo lao mo = some res →
        ∃ j js c nd,
          align_with_word_boundaries tbl asr
            (segRall cr (segWinStart pointer lbo)
              (segWinEnd cr asr.length pointer lao) bp)
            (segP2Wall cr (segWinStart pointer lbo)
              (segWinEnd cr asr.length pointer lao) bp)
            pointer START_PRIOR_WEIGHT COST_SUBSTITUTION COST_DELETION COST_INSERTION
            = some (j, js, c, nd)
          ∧ res.confidence = 1 - nd)
    ∧ (∀ s : ℚ, 0 ≤ s → s ≤ 1 →
        0 ≤ finalSegmentPenalty s ∧ finalSegmentPenalty s ≤ 1) := by
  refine ⟨?_, ?_, ?_⟩
  · intro env texts ds fqi specials sp henv hsp r hr
    exact (run_phoneme_matching_conf env henv texts ds fqi specials sp hsp).1 r hr
  · intro tbl htbl asr cr pointer bp lbo lao mo res hthr h
    obtain ⟨j, js, c, nd, halign, _, _, _, _, _, _, _, _, _, hcf, _⟩ :=
      align_segment_eq_some tbl htbl asr cr pointer bp lbo lao mo res hthr h
    exact ⟨j, js, c, nd, halign, hcf⟩
  · intro s hs0 hs1
    rw [finalSegmentPenalty]
    exact ⟨le_max_left 0 _, max_le (by norm_num) (by linarith)⟩

/-- Witness for C8: a trivial machine run whose only emitted row is the
initial special (confidence 1/2), and the penalty applied to 1/2. -/
theorem C8_confidence_bounds_witness :
    (0 ≤ (("x", (1 : ℚ)/2, "Basmala") : String × ℚ × String).2.1
      ∧ (("x", (1 : ℚ)/2, "Basmala") : String × ℚ × String).2.1 ≤ 1)
    ∧ (0 ≤ finalSegmentPenalty (1/2) ∧ finalSegmentPenalty (1/2) ≤ 1) := by
  constructor
  · refine C8_confidence_bounds.1
      ⟨fun _ _ => none, fun _ => build_chapter_reference 1 [],
       fun _ _ => none, fun _ => "", ⟨[], [], 2, 0⟩⟩
      [] 1 0 [("x", (1 : ℚ)/2, "Basmala")] 0
      ⟨fun p r q hq => absurd hq (by simp),
       fun a al nm cf hq => absurd hq (by simp)⟩
      (fun r hr => by
        rw [List.mem_singleton] at hr
        subst hr
        exact ⟨by norm_num, by norm_num⟩)
      ("x", (1 : ℚ)/2, "Basmala") ?_
    have hres : (run_phoneme_matching
        ⟨fun _ _ => none, fun _ => build_chapter_reference 1 [],
         fun _ _ => none, fun _ => "", ⟨[], [], 2, 0⟩⟩
        [] 1 0 [("x", (1 : ℚ)/2, "Basmala")] 0).results
        = [("x", (1 : ℚ)/2, "Basmala")] := rfl
    rw [hres]
    simp
  · exact C8_confidence_bounds.2.2 (1/2) (by norm_num) (by norm_num)

theorem checkTransitionGap_fields (st : MachState) (swi : ℤ) :
    (checkTransitionGap st swi).pointer = st.pointer
    ∧ (checkTransitionGap st swi).chapter_ref = st.chapter_ref
    ∧ (checkTransitionGap st swi).word_indices = st.word_indices
    ∧ (checkTransitionGap st swi).skip_count = st.skip_count
    ∧ (checkTransitionGap st swi).tahmeed_merge_skip = st.tahmeed_merge_skip
    ∧ (checkTransitionGap st swi).transition_mode = st.transition_mode
    ∧ (checkTransitionGap st swi).is_first_after_transition
        = st.is_first_after_transition := by
  rw [checkTransitionGap]
  split_ifs <;> exact ⟨rfl, rfl, rfl, rfl, rfl, rfl, rfl⟩

theorem acceptAlignment_fields (st : MachState) (a : AlignmentResult) (text : String) :
    (acceptAlignment st a text).pointer = a.end_word_idx + 1
    ∧ (acceptAlignment st a text).chapter_ref = st.chapter_ref
    ∧ (acceptAlignment st a text).word_indices
        = st.word_indices ++ [some (a.start_word_idx, a.end_word_idx)]
    ∧ (acceptAlignment st a text).skip_count = st.skip_count
    ∧ (acceptAlignment st a text).tahmeed_merge_skip = st.tahmeed_merge_skip
    ∧ (acceptAlignment st a text).transition_mode = st.transition_mode
    ∧ (acceptAlignment st a text).is_first_after_transition = false := by
  rw [acceptAlignment]
  dsimp only
  obtain ⟨h1, h2, h3, h4, h5, h6, h7⟩ := checkTransitionGap_fields
    { st with
      pointer := a.end_word_idx + 1
      consecutive_failures := 0
      is_first_after_transition := false
      word_indices := st.word_indices ++ [some (a.start_word_idx, a.end_word_idx)] }
    a.start_word_idx
  exact ⟨h1, h2, h3, h4, h5, h6, h7⟩

/-- When no skip/merge/transition state is pending, the fused-retry flag
is off and the plain DP call accepts, the loop body is exactly the
acceptance block. -/
theorem pipeStep_plain_accept (env : PipelineEnv) (texts : List (List String))
    (fqi : ℕ) (st : MachState) (i : ℕ) (asr : List String) (a : AlignmentResult)
    (hskip : st.skip_count = 0) (htm : st.tahmeed_merge_skip = 0)
    (htr : st.transition_mode = false) (hff : st.is_first_after_transition = false)
    (hA : align_segment env.tbl asr st.chapter_ref st.pointer false none none none
          = some a) :
    pipeStep env texts fqi st i asr
      = acceptAlignment st a (get_matched_text st.chapter_ref a) := by
  rw [pipeStep.eq_def]
  rw [if_neg (by omega)]
  rw [if_neg (by omega)]
  rw [if_neg (by simp [htr])]
  dsimp only
  rw [hA]
  rw [if_neg (by simp)]
  rw [postAlign.eq_def]
  rw [if_neg (by simp [hff])]

/-- **C3 (amended).** (1) Per accepted alignment, the start index is
bounded below by the search-window start:
`start_word_idx ≥ max 0 (pointer - lb) ≥ pointer - lb`, where `lb` is
the lookback in effect (`LOOKBACK_WORDS` = 30 for standard calls,
`RETRY_LOOKBACK_WORDS` = 70 for retries). (2) For two *back-to-back
standard advances* of the state machine — two consecutive loop
iterations with no skip/merge/transition state pending and the
fused-retry flag off, whose plain DP calls accept `A` then `B` — the
machine records `A` then `B` consecutively, stays in the same chapter,
and `B.start_word_idx ≥ A.end_word_idx + 1 - LOOKBACK_WORDS` (the loop
sets `pointer := A.end_word_idx + 1`).  `K = 0` is false
(`C3_counterexample`), and across re-anchor, transition or chapter
events no bound relative to `A.end_word_idx` holds at all: a
failure-threshold or transition-exit re-anchor sets the pointer to
`verse_to_word_index`, which can move it backward within the same
chapter. -/
theorem C3_amended_lookback_bound :
    (∀ tbl : String → String → Option ℚ,
      (∀ p r q, tbl p r = some q → 0 ≤ q) →
      ∀ (sn : ℕ) (words : List RefWord) (P : List String) (pointer : ℤ) (bp : Bool)
        (lbo lao : Option ℤ) (mo : Option ℚ) (res : AlignmentResult),
      mo.getD MAX_EDIT_DISTANCE < COST_DELETION →
      align_segment tbl P (build_chapter_reference sn words) pointer bp lbo lao mo
        = some res →
      pointer - lbo.getD (LOOKBACK_WORDS : ℤ) ≤ res.start_word_idx
      ∧ 0 ≤ res.start_word_idx)
    ∧ (∀ env : PipelineEnv,
      (∀ p r q, env.tbl p r = some q → 0 ≤ q) →
      ∀ (sn : ℕ) (words : List RefWord) (texts : List (List String)) (fqi i j : ℕ)
        (asrA asrB : List String) (st : MachState) (A B : AlignmentResult),
      st.chapter_ref = build_chapter_reference sn words →
      st.skip_count = 0 → st.tahmeed_merge_skip = 0 →
      st.transition_mode = false → st.is_first_after_transition = false →
      align_segment env.tbl asrA st.chapter_ref st.pointer false none none none
        = some A →
      align_segment env.tbl asrB st.chapter_ref (A.end_word_idx + 1)
        false none none none = some B →
      (pipeStep env texts fqi st i asrA).word_indices
          = st.word_indices ++ [some (A.start_word_idx, A.end_word_idx)]
      ∧ (pipeStep env texts fqi st i asrA).chapter_ref = st.chapter_ref
      ∧ (pipeStep env texts fqi (pipeStep env texts fqi st i asrA) j asrB).word_indices
          = (pipeStep env texts fqi st i asrA).word_indices
            ++ [some (B.start_word_idx, B.end_word_idx)]
      ∧ (pipeStep env texts fqi (pipeStep env texts fqi st i asrA) j asrB).chapter_ref
          = st.chapter_ref
      ∧ A.end_word_idx + 1 - (LOOKBACK_WORDS : ℤ) ≤ B.start_word_idx) := by
  constructor
  · intro tbl htbl sn words P pointer bp lbo lao mo res hthr h
    have hb := align_segment_build_bounds tbl htbl sn words P pointer bp lbo lao mo res
      hthr h
    exact ⟨le_trans (by rw [segWinStart]; exact le_max_right 0 _) hb.1, hb.2.1⟩
  · intro env htbl sn words texts fqi i j asrA asrB st A B hcr hskip htm htr hff hA hB
    have hT1 : pipeStep env texts fqi st i asrA
        = acceptAlignment st A (get_matched_text st.chapter_ref A) :=
      pipeStep_plain_accept env texts fqi st i asrA A hskip htm htr hff hA
    obtain ⟨hp1, hc1, hw1, hs1, hm1, ht1, hf1⟩ :=
      acceptAlignment_fields st A (get_matched_text st.chapter_ref A)
    have halignB : align_segment env.tbl asrB
        (acceptAlignment st A (get_matched_text st.chapter_ref A)).chapter_ref
        (acceptAlignment st A (get_matched_text st.chapter_ref A)).pointer
        false none none none = some B := by
      rw [hc1, hp1]
      exact hB
    have hT2 : pipeStep env texts fqi
        (acceptAlignment st A (get_matched_text st.chapter_ref A)) j asrB
        = acceptAlignment (acceptAlignment st A (get_matched_text st.chapter_ref A)) B
            (get_matched_text
              (acceptAlignment st A (get_matched_text st.chapter_ref A)).chapter_ref
              B) :=
      pipeStep_plain_accept env texts fqi _ j asrB B
        (by rw [hs1]; exact hskip) (by rw [hm1]; exact htm)
        (by rw [ht1]; exact htr) hf1 halignB
    obtain ⟨_, hc2, hw2, _, _, _, _⟩ :=
      acceptAlignment_fields (acceptAlignment st A (get_matched_text st.chapter_ref A))
        B (get_matched_text
            (acceptAlignment st A (get_matched_text st.chapter_ref A)).chapter_ref B)
    rw [hcr] at hB
    have hb := align_segment_build_bounds env.tbl htbl sn words asrB
      (A.end_word_idx + 1) false none none none B
      (by norm_num [Option.getD_none, MAX_EDIT_DISTANCE, COST_DELETION]) hB
    have hbound : A.end_word_idx + 1 - (LOOKBACK_WORDS : ℤ) ≤ B.start_word_idx := by
      have h1 : A.end_word_idx + 1 - (LOOKBACK_WORDS : ℤ)
          ≤ segWinStart (A.end_word_idx + 1) none := by
        rw [segWinStart]
        exact le_max_right 0 _
      exact le_trans h1 hb.1
    refine ⟨?_, ?_, ?_, ?_, hbound⟩
    · rw [hT1]
      exact hw1
    · rw [hT1]
      exact hc1
    · rw [hT1, hT2]
      exact hw2
    · rw [hT1, hT2]
      exact hc2.trans hc1

/-- Witness for C3 (amended), part (1), on the one-word chapter `["a"]`. -/
theorem C3_amended_lookback_bound_witness :
    (0 : ℤ) - (none : Option ℤ).getD (LOOKBACK_WORDS : ℤ)
        ≤ (⟨0, 0, 0, 1, 0, 1, false⟩ : AlignmentResult).start_word_idx
    ∧ 0 ≤ (⟨0, 0, 0, 1, 0, 1, false⟩ : AlignmentResult).start_word_idx :=
  C3_amended_lookback_bound.1 (fun _ _ => none) (fun _ _ _ hq => absurd hq (by simp))
    1 [⟨"a", ["a"], 1, 1, 1⟩] ["a"] 0 false none none none ⟨0, 0, 0, 1, 0, 1, false⟩
    (by norm_num [Option.getD_none, MAX_EDIT_DISTANCE, COST_DELETION])
    (by
      have h1 : segWinStart 0 none = 0 := by
        norm_num [segWinStart, LOOKBACK_WORDS]
      have h2 : segWinEnd (build_chapter_reference 1 [⟨"a", ["a"], 1, 1, 1⟩]) 1 0 none
          = 1 := by
        norm_num [segWinEnd, build_chapter_reference, ChapterReference.num_words,
          pyRound, LOOKAHEAD_WORDS,
          show ([⟨"a", ["a"], 1, 1, 1⟩] : List RefWord) = [] ↔ False from by simp]
      have h3 : segRall (build_chapter_reference 1 [⟨"a", ["a"], 1, 1, 1⟩]) 0 1 false
          = ["a"] := by
        norm_num [segRall, segRwin, build_chapter_reference, pyGetN, offsetsGo,
          show Int.toNat 1 = 1 from rfl, show Int.toNat 0 = 0 from rfl, List.getD]
      have h4 : segP2Wall (build_chapter_reference 1 [⟨"a", ["a"], 1, 1, 1⟩]) 0 1 false
          = [0] := by
        norm_num [segP2Wall, segP2Wwin, build_chapter_reference, pyGetN, offsetsGo,
          flatP2WGo, show Int.toNat 1 = 1 from rfl, show Int.toNat 0 = 0 from rfl,
          List.getD]
      have h5 : align_with_word_boundaries (fun _ _ => none) ["a"] ["a"] [0] 0
          START_PRIOR_WEIGHT COST_SUBSTITUTION COST_DELETION COST_INSERTION
          = some (1, 0, 0, 0) := by
        norm_num [align_with_word_boundaries, selectBest, selStep, candOf, dpFinal,
          dpRows, dpRow, dpInit, isStartBoundary, isEndBoundary, get_sub_cost, pyGetZ,
          List.range', costAdd, costLe, START_PRIOR_WEIGHT, COST_SUBSTITUTION,
          COST_DELETION, COST_INSERTION]
      have h0 : (build_chapter_reference 1 [⟨"a", ["a"], 1, 1, 1⟩]).num_words = 1 := rfl
      have hlen : (["a"] : List String).length = 1 := rfl
      rw [align_segment]
      simp only [hlen, h1, h2, h3, h4, h0]
      norm_num [h5, alignSegResolve, pyGetZ, MAX_EDIT_DISTANCE, Option.getD_none])

end QuranAlign
